import Mathlib

/-!
Verification of the email-builder Document Component Identity & Mutation
Engine: a shallow embedding of `src/lib/mjmlContentUpdater.js`,
`src/lib/injectEditableAttributes.js` and the edit-history handlers of
`src/components/EmailBuilder.jsx`, together with theorems settling the
specified properties (disambiguation, atomicity, validation, extraction,
projection, bounded history, frame conditions, well-formedness).

The browser DOM facilities the code relies on (DOMParser for `text/xml`,
XMLSerializer, querySelectorAll, textContent, setAttribute, cloneNode,
insertBefore, removeChild) are modelled explicitly: an ordered tree of
elements and text nodes, a fuel-based XML parser covering the fragment the
application feeds it (elements, quoted attributes, character entities), and
a serializer that escapes text and attribute values and emits self-closing
tags for childless elements, as XMLSerializer does.
-/

set_option maxHeartbeats 1000000
set_option maxRecDepth 100000

namespace EmailBuilder

/-- JavaScript-style whitespace test for the characters relevant here
(space, tab, newline, carriage return). -/
def isWsChar (c : Char) : Bool :=
  c = ' ' || c = '\t' || c = '\n' || c = '\r'

/-- Words of a character list: maximal runs of non-whitespace characters. -/
def wordsAux : List Char → List Char → List (List Char)
  | [], acc => if acc = [] then [] else [acc.reverse]
  | c :: cs, acc =>
    if isWsChar c then
      if acc = [] then wordsAux cs [] else acc.reverse :: wordsAux cs []
    else wordsAux cs (c :: acc)

/-- Split on whitespace runs, discarding empty fragments: the token list of
a space-separated attribute value, as produced by `value.split(/\s+/)`
with empties ignored. -/
def splitWs (s : String) : List String :=
  (wordsAux s.toList []).map (fun l => ⟨l⟩)

/-- Join strings with a separator (kernel-computable `intercalate`). -/
def joinWith (sep : String) : List String → String
  | [] => ""
  | [x] => x
  | x :: y :: rest => x ++ sep ++ joinWith sep (y :: rest)

/-- JavaScript `s.trim()`: strip leading and trailing whitespace. -/
def jsTrim (s : String) : String :=
  ⟨((s.toList.dropWhile isWsChar).reverse.dropWhile isWsChar).reverse⟩

/-- Kernel-computable `String.length`. -/
def strLen (s : String) : Nat := s.toList.length

/-- Kernel-computable prefix test on strings. -/
def strStarts (s pre : String) : Bool := pre.toList.isPrefixOf s.toList

/-- Kernel-computable suffix test on strings. -/
def strEnds (s suf : String) : Bool := suf.toList.reverse.isPrefixOf s.toList.reverse

/-- Kernel-computable `String.drop`. -/
def strDrop (s : String) (n : Nat) : String := ⟨s.toList.drop n⟩

/-- Kernel-computable `String.dropRight`. -/
def strDropRight (s : String) (n : Nat) : String := ⟨(s.toList.reverse.drop n).reverse⟩

/-- `normalizeText` from mjmlContentUpdater.js: trim and collapse every
internal whitespace run to a single space
(`String(str or '').trim().replace(/\s+/g, ' ')`). -/
def normalizeText (s : String) : String :=
  joinWith " " (splitWs s)

/-- Contiguous-sublist test on character lists. -/
def listInfix (needle : List Char) : List Char → Bool
  | [] => needle.isEmpty
  | c :: cs => needle.isPrefixOf (c :: cs) || listInfix needle cs

/-- JavaScript `haystack.includes(needle)`: contiguous substring test. -/
def strIncludes (hay needle : String) : Bool :=
  listInfix needle.toList hay.toList

/-- Replace the first occurrence of the literal `pat` in a character list. -/
def replaceFirstAux (pat repl : List Char) : List Char → List Char
  | [] => []
  | c :: cs =>
    if pat.isPrefixOf (c :: cs) then repl ++ (c :: cs).drop pat.length
    else c :: replaceFirstAux pat repl cs

/-- JavaScript `s.replace(pat, repl)` with a literal string pattern:
replace the first occurrence only. -/
def replaceFirstStr (s pat repl : String) : String :=
  ⟨replaceFirstAux pat.toList repl.toList s.toList⟩

/-! ## The DOM tree model -/

mutual

/-- A DOM node: an element (tag, ordered attributes, ordered children) or
a text node. -/
inductive Node where
  | elem (tag : String) (attrs : List (String × String)) (children : Forest)
  | text (s : String)
deriving DecidableEq, Repr

/-- An ordered sequence of sibling nodes. -/
inductive Forest where
  | nil
  | cons (hd : Node) (tl : Forest)
deriving DecidableEq, Repr

end

mutual

/-- `element.textContent`: concatenation of all text-node data in the
subtree, in document order. -/
def Node.textContent : Node → String
  | .elem _ _ cs => Forest.textContentF cs
  | .text s => s

/-- Concatenated text content of a node sequence. -/
def Forest.textContentF : Forest → String
  | .nil => ""
  | .cons n tl => n.textContent ++ Forest.textContentF tl

end

/-- Length of a forest. -/
def Forest.lengthF : Forest → Nat
  | .nil => 0
  | .cons _ tl => tl.lengthF + 1

/-- The node at index `i` among the siblings, if any. -/
def Forest.get? : Forest → Nat → Option Node
  | .nil, _ => none
  | .cons n _, 0 => some n
  | .cons _ tl, i + 1 => tl.get? i

/-- Replace the node at index `i` (out-of-range indices leave the forest
unchanged). -/
def Forest.setAt : Forest → Nat → Node → Forest
  | .nil, _, _ => .nil
  | .cons _ tl, 0, m => .cons m tl
  | .cons n tl, i + 1, m => .cons n (tl.setAt i m)

/-- Remove the node at index `i` (DOM `removeChild`). -/
def Forest.removeAt : Forest → Nat → Forest
  | .nil, _ => .nil
  | .cons _ tl, 0 => tl
  | .cons n tl, i + 1 => .cons n (tl.removeAt i)

/-- Insert a node so that it ends up at index `i` (DOM `insertBefore` the
current occupant of `i`; appends when `i` is past the end). -/
def Forest.insertAt : Forest → Nat → Node → Forest
  | f, 0, m => .cons m f
  | .nil, _ + 1, m => .cons m .nil
  | .cons n tl, i + 1, m => .cons n (tl.insertAt i m)

/-- `element.getAttribute(name)`: the value of the first attribute with
this name, if present; `none` on text nodes. -/
def Node.getAttr : Node → String → Option String
  | .elem _ attrs _, name => (attrs.find? (fun p => p.1 = name)).map Prod.snd
  | .text _, _ => none

/-- Set an attribute in an ordered attribute list: overwrite in place when
the name exists, append otherwise (DOM `setAttribute`). -/
def setAttrList (attrs : List (String × String)) (name v : String) : List (String × String) :=
  match attrs with
  | [] => [(name, v)]
  | (n, w) :: rest =>
    if n = name then (n, v) :: rest else (n, w) :: setAttrList rest name v

/-- `element.setAttribute(name, v)` (no effect on text nodes). -/
def Node.setAttr : Node → String → String → Node
  | .elem t attrs cs, name, v => .elem t (setAttrList attrs name v) cs
  | .text s, _, _ => .text s

/-- A node is an element. -/
def Node.isElem : Node → Bool
  | .elem _ _ _ => true
  | .text _ => false

/-- A node is a text node. -/
def Node.isText : Node → Bool
  | .elem _ _ _ => false
  | .text _ => true

/-- The subtree at a path of child indices (empty path: the node itself). -/
def getNodeAt : Node → List Nat → Option Node
  | n, [] => some n
  | .elem _ _ cs, i :: p =>
    match cs.get? i with
    | some c => getNodeAt c p
    | none => none
  | .text _, _ :: _ => none

/-- Apply `f` to the subtree at a path, leaving the rest of the tree
untouched (no effect when the path is invalid). -/
def modifyAt (f : Node → Node) : Node → List Nat → Node
  | n, [] => f n
  | .elem t a cs, i :: p =>
    match cs.get? i with
    | some c => .elem t a (cs.setAt i (modifyAt f c p))
    | none => .elem t a cs
  | .text s, _ :: _ => .text s

/-- The DOM `textContent` setter on the element at a path: all children are
removed and replaced by a single text node holding the string — or by
nothing at all when the string is empty, exactly as the DOM specifies. -/
def setTextContentAt (doc : Node) (p : List Nat) (s : String) : Node :=
  modifyAt (fun n =>
    match n with
    | .elem t a _ => .elem t a (if s = "" then .nil else .cons (.text s) .nil)
    | .text t => .text t) doc p

/-- Remove the element at path `pp ++ [i]`: erase index `i` in the children
of the node at `pp` (DOM `parentNode.removeChild(element)`). -/
def removeNodeAt (doc : Node) (pp : List Nat) (i : Nat) : Node :=
  modifyAt (fun n =>
    match n with
    | .elem t a cs => .elem t a (cs.removeAt i)
    | .text t => .text t) doc pp

/-- Insert `m` at index `i` of the children of the node at `pp` (DOM
`insertBefore` / `appendChild`). -/
def insertNodeAt (doc : Node) (pp : List Nat) (i : Nat) (m : Node) : Node :=
  modifyAt (fun n =>
    match n with
    | .elem t a cs => .elem t a (cs.insertAt i m)
    | .text t => .text t) doc pp

mutual

/-- All element nodes of the subtree paired with their paths, in document
(pre-order, depth-first) order — the order `querySelectorAll` reports. -/
def elemsWithPaths : Node → List Nat → List (List Nat × Node)
  | n@(.elem _ _ cs), p => (p, n) :: elemsInForest cs p 0
  | .text _, _ => []

/-- Element nodes of a sibling sequence, paired with paths. -/
def elemsInForest : Forest → List Nat → Nat → List (List Nat × Node)
  | .nil, _, _ => []
  | .cons n tl, p, i => elemsWithPaths n (p ++ [i]) ++ elemsInForest tl p (i + 1)

end

/-- Whether an element's attribute `attrName` holds `tok` as one of its
space-separated tokens: the CSS `[attr~="tok"]` / `.cls` membership test
used by `querySelectorAll` in the code. -/
def hasAttrToken (n : Node) (attrName tok : String) : Bool :=
  (splitWs ((n.getAttr attrName).getD "")).contains tok

/-! ## The XMLSerializer model -/

/-- Escape one character of text content: `&`, `<`, `>` become character
entities, as XMLSerializer emits. -/
def escTextChar (c : Char) : List Char :=
  if c = '&' then "&amp;".toList
  else if c = '<' then "&lt;".toList
  else if c = '>' then "&gt;".toList
  else [c]

/-- Escape text content. -/
def escTextList : List Char → List Char
  | [] => []
  | c :: cs => escTextChar c ++ escTextList cs

/-- Escape one character of an attribute value: additionally escapes the
double quote, since serialized attributes are double-quoted. -/
def escAttrChar (c : Char) : List Char :=
  if c = '&' then "&amp;".toList
  else if c = '<' then "&lt;".toList
  else if c = '>' then "&gt;".toList
  else if c = '"' then "&quot;".toList
  else [c]

/-- Escape an attribute value. -/
def escAttrList : List Char → List Char
  | [] => []
  | c :: cs => escAttrChar c ++ escAttrList cs

/-- Serialize an attribute list: a leading space then `name="value"` for
each attribute, in order. -/
def serializeAttrs : List (String × String) → String
  | [] => ""
  | (n, v) :: rest => " " ++ n ++ "=\"" ++ (⟨escAttrList v.toList⟩ : String) ++ "\"" ++ serializeAttrs rest

mutual

/-- XMLSerializer on a node: text is entity-escaped; a childless element is
emitted self-closing; attributes are double-quoted in order. -/
def serializeNode : Node → String
  | .text s => (⟨escTextList s.toList⟩ : String)
  | .elem t attrs cs =>
    match cs with
    | .nil => "<" ++ t ++ serializeAttrs attrs ++ "/>"
    | .cons _ _ => "<" ++ t ++ serializeAttrs attrs ++ ">" ++ serializeForest cs ++ "</" ++ t ++ ">"

/-- Serialize a sibling sequence by concatenation. -/
def serializeForest : Forest → String
  | .nil => ""
  | .cons n tl => serializeNode n ++ serializeForest tl

end

/-! ## The DOMParser (`text/xml`) model

A fuel-indexed recursive-descent parser for the XML fragment the
application feeds `DOMParser`: elements with single- or double-quoted
attributes, self-closing tags, text, and the five predefined character
entities. Anything else (comments, processing instructions, numeric
references, mismatched or duplicate structure) yields `none`, which the
library code observes as its `parsererror` branch. -/

/-- Valid first character of an XML name. -/
def isNameStartChar (c : Char) : Bool :=
  c.isAlpha || c = '_' || c = ':'

/-- Valid character of an XML name. -/
def isNameChar (c : Char) : Bool :=
  c.isAlphanum || c = '-' || c = '_' || c = '.' || c = ':'

/-- Parse an XML name: a name-start character followed by the maximal run
of name characters. -/
def parseName : List Char → Option (String × List Char)
  | [] => none
  | c :: cs =>
    if isNameStartChar c then some ((⟨c :: cs.takeWhile isNameChar⟩ : String), cs.dropWhile isNameChar)
    else none

/-- Decode the characters following `&`: one of the five predefined
entities. -/
def parseEntity (cs : List Char) : Option (Char × List Char) :=
  if "amp;".toList.isPrefixOf cs then some ('&', cs.drop 4)
  else if "lt;".toList.isPrefixOf cs then some ('<', cs.drop 3)
  else if "gt;".toList.isPrefixOf cs then some ('>', cs.drop 3)
  else if "quot;".toList.isPrefixOf cs then some ('"', cs.drop 5)
  else if "apos;".toList.isPrefixOf cs then some ('\'', cs.drop 5)
  else none

/-- Parse character data up to the next `<` or the end of input, decoding
entities. -/
def parseTextChars : Nat → List Char → Option (List Char × List Char)
  | 0, _ => none
  | _ + 1, [] => some ([], [])
  | f + 1, c :: cs =>
    if c = '<' then some ([], c :: cs)
    else if c = '&' then
      match parseEntity cs with
      | none => none
      | some (d, rest) =>
        match parseTextChars f rest with
        | none => none
        | some (tcs, rest2) => some (d :: tcs, rest2)
    else
      match parseTextChars f cs with
      | none => none
      | some (tcs, rest) => some (c :: tcs, rest)

/-- Parse an attribute value up to the closing quote `q`, decoding
entities; a raw `<` is a parse error. -/
def parseAttrValue (q : Char) : Nat → List Char → Option (List Char × List Char)
  | _, [] => none
  | 0, _ :: _ => none
  | f + 1, c :: cs =>
    if c = q then some ([], cs)
    else if c = '<' then none
    else if c = '&' then
      match parseEntity cs with
      | none => none
      | some (d, rest) =>
        match parseAttrValue q f rest with
        | none => none
        | some (v, rest2) => some (d :: v, rest2)
    else
      match parseAttrValue q f cs with
      | none => none
      | some (v, rest) => some (c :: v, rest)

/-- Parse the attribute list of a start tag, stopping before `/` or `>`;
duplicate attribute names are a parse error, as in XML. -/
def parseAttrsF : Nat → List Char → Option (List (String × String) × List Char)
  | 0, _ => none
  | f + 1, cs =>
    match cs.dropWhile isWsChar with
    | [] => none
    | c :: rest =>
      if c = '/' ∨ c = '>' then some ([], c :: rest)
      else
        match parseName (c :: rest) with
        | none => none
        | some (nm, r1) =>
          match r1.dropWhile isWsChar with
          | '=' :: r3 =>
            match r3.dropWhile isWsChar with
            | [] => none
            | q :: r5 =>
              if q = '"' ∨ q = '\'' then
                match parseAttrValue q (r5.length + 1) r5 with
                | none => none
                | some (v, r6) =>
                  match parseAttrsF f r6 with
                  | none => none
                  | some (attrs, r7) =>
                    if attrs.any (fun p => p.1 = nm) then none
                    else some ((nm, (⟨v⟩ : String)) :: attrs, r7)
              else none
          | _ => none

/-- Parse a sequence of sibling nodes, stopping at the end of input or
before a closing tag.  Elements are parsed inline: name, attributes, then
either `/>` or `>` children `</name>` with a matching name. -/
def parseNodes : Nat → List Char → Option (Forest × List Char)
  | 0, _ => none
  | f + 1, cs =>
    match cs with
    | [] => some (.nil, [])
    | '<' :: '/' :: rest => some (.nil, '<' :: '/' :: rest)
    | '<' :: rest =>
      match parseName rest with
      | none => none
      | some (tag, r1) =>
        match parseAttrsF (r1.length + 1) r1 with
        | none => none
        | some (attrs, r2) =>
          match r2 with
          | '/' :: '>' :: r3 =>
            match parseNodes f r3 with
            | none => none
            | some (ns, rest2) => some (.cons (.elem tag attrs .nil) ns, rest2)
          | '>' :: r3 =>
            match parseNodes f r3 with
            | none => none
            | some (children, r4) =>
              match r4 with
              | '<' :: '/' :: r5 =>
                match parseName r5 with
                | none => none
                | some (tag2, r6) =>
                  if tag2 = tag then
                    match r6.dropWhile isWsChar with
                    | '>' :: r7 =>
                      match parseNodes f r7 with
                      | none => none
                      | some (ns, rest2) => some (.cons (.elem tag attrs children) ns, rest2)
                    | _ => none
                  else none
              | _ => none
          | _ => none
    | _ =>
      match parseTextChars (cs.length + 1) cs with
      | none => none
      | some (tcs, cs2) =>
        match parseNodes f cs2 with
        | none => none
        | some (ns, rest2) => some (.cons (.text (⟨tcs⟩ : String)) ns, rest2)

/-- `DOMParser.parseFromString(s, "text/xml")`: the whole input must be a
single element, optionally followed by whitespace; `none` plays the role
of the `parsererror` document. -/
def parseDocument (s : String) : Option Node :=
  match parseNodes (strLen s + 1) s.toList with
  | some (.cons n .nil, rest) => if n.isElem && rest.all isWsChar then some n else none
  | _ => none

/-- The tag name of a node (empty on text nodes). -/
def Node.tagName : Node → String
  | .elem t _ _ => t
  | .text _ => ""

/-- The attribute list of a node (empty on text nodes). -/
def Node.attrsOf : Node → List (String × String)
  | .elem _ a _ => a
  | .text _ => []

/-- Kernel-computable `toLowerCase`. -/
def strToLower (s : String) : String :=
  ⟨s.toList.map Char.toLower⟩

/-- JavaScript `parseInt(s, 10)`: optional sign then leading decimal
digits; `none` models `NaN`. -/
def jsParseInt (s : String) : Option Int :=
  let cs := s.toList.dropWhile isWsChar
  let signed : Bool × List Char :=
    match cs with
    | '-' :: r => (true, r)
    | '+' :: r => (false, r)
    | _ => (false, cs)
  let digits := signed.2.takeWhile Char.isDigit
  if digits = [] then none
  else
    let n : Nat := digits.foldl (fun a c => a * 10 + (c.toNat - 48)) 0
    some (if signed.1 then -(n : Int) else (n : Int))

/-! ## mjmlContentUpdater.js -/

/-- Validation options (`DEFAULT_VALIDATION` and its overrides). -/
structure ValidationOptions where
  maxLength : Nat
  allowEmpty : Bool
  trim : Bool
deriving DecidableEq, Repr

/-- `DEFAULT_VALIDATION`: max length 5000, empty not allowed, trim on. -/
def DEFAULT_VALIDATION : ValidationOptions := ⟨5000, false, true⟩

/-- The result record of `validateContent`. -/
structure ValidationResult where
  valid : Bool
  error : Option String
  sanitized : String
deriving DecidableEq, Repr

/-- `validateContent` from mjmlContentUpdater.js: trim when enabled, then
reject empty (unless allowed) and overlong content. -/
def validateContent (content : String) (opts : ValidationOptions) : ValidationResult :=
  let sanitized := if opts.trim then jsTrim content else content
  if !opts.allowEmpty && strLen sanitized = 0 then
    ⟨false, some "Content cannot be empty", sanitized⟩
  else if strLen sanitized > opts.maxLength then
    ⟨false, some ("Content too long (" ++ toString (strLen sanitized) ++ "/" ++
      toString opts.maxLength ++ " characters)"), sanitized⟩
  else ⟨true, none, sanitized⟩

/-- The candidate set of `findEditableElement` and `deleteComponent`:
elements whose `mj-class` token set contains `editable-<editableId>`
(the selector `[mj-class~="editable-<id>"]`), in document order, each
paired with its path. -/
def editableCandidates (doc : Node) (editableId : String) : List (List Nat × Node) :=
  (elemsWithPaths doc []).filter (fun pn => hasAttrToken pn.2 "mj-class" ("editable-" ++ editableId))

/-- `findEditableElement` from mjmlContentUpdater.js.  The returned element
is paired with its path so that the pure-tree mutation can address it; an
absent `content` argument is `none`. -/
def findEditableElement (doc : Node) (editableId : String) (content : Option String) :
    Option (List Nat × Node) :=
  let candidates := editableCandidates doc editableId
  match candidates with
  | [] => none
  | [c] => some c
  | c :: _ :: _ =>
    let contentNorm := normalizeText (content.getD "")
    if contentNorm = "" then some c
    else
      match candidates.find? (fun pn => normalizeText pn.2.textContent = contentNorm) with
      | some el => some el
      | none =>
        match candidates.find? (fun pn => strIncludes (normalizeText pn.2.textContent) contentNorm) with
        | some el => some el
        | none => some c

/-- The result record `{ success, mjml, error }`. -/
structure UpdateResult where
  success : Bool
  mjml : String
  error : Option String
deriving DecidableEq, Repr

/-- The wrapping the library applies before parsing:
`<root>${mjmlCode}</root>`. -/
def wrapRoot (s : String) : String := "<root>" ++ s ++ "</root>"

/-- The unwrapping after serialization:
`result.replace(/^<root>/, '').replace(/<\/root>$/, '')`. -/
def stripRoot (s : String) : String :=
  let s1 := if strStarts s "<root>" then strDrop s 6 else s
  if strEnds s1 "</root>" then strDropRight s1 7 else s1

/-- `updateEditableContent` from mjmlContentUpdater.js.  The union-typed
fourth JavaScript argument is split into the disambiguation hint
(`currentContent`, `none` when absent) and the validation options. -/
def updateEditableContent (mjmlCode editableId newContent : String)
    (currentContent : Option String) (opts : ValidationOptions) : UpdateResult :=
  if mjmlCode = "" ∨ editableId = "" then
    ⟨false, mjmlCode, some "Missing required parameters: mjmlCode and editableId are required"⟩
  else
    let validation := validateContent newContent opts
    if validation.valid = false then
      ⟨false, mjmlCode, validation.error⟩
    else
      match parseDocument (wrapRoot mjmlCode) with
      | none => ⟨false, mjmlCode, some "Invalid MJML structure - cannot parse XML"⟩
      | some doc =>
        match findEditableElement doc editableId currentContent with
        | none => ⟨false, mjmlCode, some ("Component \"" ++ editableId ++ "\" not found")⟩
        | some pn =>
          ⟨true, stripRoot (serializeNode (setTextContentAt doc pn.1 validation.sanitized)), none⟩

/-- The anchored regex replacement dropping a leading `editable-` marker
from a class token, when present. -/
def dropEditableMarker (s : String) : String :=
  if strStarts s "editable-" then strDrop s 9 else s

/-- `mjClass.replace(/editable-[^\s]+/, repl)` on a character list: replace
the leftmost occurrence of `editable-` followed by a maximal nonempty run
of non-whitespace characters. -/
def replaceEditableRunAux (repl : List Char) : List Char → List Char
  | [] => []
  | c :: cs =>
    if "editable-".toList.isPrefixOf (c :: cs) then
      let after := (c :: cs).drop 9
      match after.takeWhile (fun d => !isWsChar d) with
      | [] => c :: replaceEditableRunAux repl cs
      | _ :: _ => repl ++ after.dropWhile (fun d => !isWsChar d)
    else c :: replaceEditableRunAux repl cs

/-- String version of `replaceEditableRunAux`. -/
def replaceEditableRun (s repl : String) : String :=
  ⟨replaceEditableRunAux repl.toList s.toList⟩

/-- The base id of `duplicateComponent`: the first `editable-` token of the
original's `mj-class` stripped of its marker, else the requested id. -/
def duplicateBaseId (original : Node) (editableId : String) : String :=
  match (splitWs ((original.getAttr "mj-class").getD "")).find?
      (fun c => strStarts c "editable-") with
  | some c => dropEditableMarker c
  | none => editableId

/-- The clone built by `duplicateComponent`: a deep copy of the original
whose `mj-class` has its first `editable-` run replaced by the new
marker (or set to it outright when the replacement comes out empty). -/
def duplicateClone (original : Node) (newId : String) : Node :=
  let currentMjClass := (original.getAttr "mj-class").getD ""
  let newMjClass := replaceEditableRun currentMjClass ("editable-" ++ newId)
  original.setAttr "mj-class" (if newMjClass = "" then "editable-" ++ newId else newMjClass)

/-- The result record of `duplicateComponent`. -/
structure DupResult where
  success : Bool
  mjml : String
  error : Option String
  newId : Option String
deriving DecidableEq, Repr

/-- `duplicateComponent` from mjmlContentUpdater.js.  `Date.now()` and the
`Math.random()` suffix are the explicit parameters `timestamp` and `rand`.
A pure tree needs no deep copy, so `cloneNode(true)` is the value itself;
the impossible case of a matched element without a parent (the JavaScript
`parentNode` exception, swallowed by the `catch`) maps to the catch-branch
result. -/
def duplicateComponent (mjmlCode editableId : String) (content : Option String)
    (timestamp : Nat) (rand : String) : DupResult :=
  if mjmlCode = "" ∨ editableId = "" then
    ⟨false, mjmlCode, some "Missing required parameters: mjmlCode and editableId are required", none⟩
  else
    match parseDocument (wrapRoot mjmlCode) with
    | none => ⟨false, mjmlCode, some "Invalid MJML structure - cannot parse XML", none⟩
    | some doc =>
      match findEditableElement doc editableId content with
      | none => ⟨false, mjmlCode, some ("Component \"" ++ editableId ++ "\" not found"), none⟩
      | some pn =>
        let newId := duplicateBaseId pn.2 editableId ++ "-copy-" ++ toString timestamp ++ "-" ++ rand
        match pn.1.reverse with
        | [] => ⟨false, mjmlCode, some "Failed to duplicate component: no parent node", none⟩
        | i :: revParent =>
          ⟨true, stripRoot (serializeNode (insertNodeAt doc revParent.reverse (i + 1)
            (duplicateClone pn.2 newId))), none, some newId⟩

/-- The inline candidate selection of `deleteComponent` (the local
`element` computation): the single candidate, else the content cascade
when a nonempty normalized content is supplied, else the first. -/
def deleteComponentSelect (candidates : List (List Nat × Node)) (contentNorm : String) :
    Option (List Nat × Node) :=
  match candidates with
  | [] => none
  | [c] => some c
  | c :: _ :: _ =>
    if contentNorm ≠ "" then
      match candidates.find? (fun pn => normalizeText pn.2.textContent = contentNorm) with
      | some el => some el
      | none =>
        match candidates.find? (fun pn =>
            strIncludes (normalizeText pn.2.textContent) contentNorm) with
        | some el => some el
        | none => some c
    else some c

/-- `deleteComponent` from mjmlContentUpdater.js, with its inline copy of
the disambiguation cascade. -/
def deleteComponent (mjmlCode editableId : String) (content : Option String) : UpdateResult :=
  if mjmlCode = "" ∨ editableId = "" then
    ⟨false, mjmlCode, some "Missing required parameters: mjmlCode and editableId are required"⟩
  else
    match parseDocument (wrapRoot mjmlCode) with
    | none => ⟨false, mjmlCode, some "Invalid MJML structure - cannot parse XML"⟩
    | some doc =>
      let element : Option (List Nat × Node) :=
        deleteComponentSelect (editableCandidates doc editableId) (normalizeText (content.getD ""))
      match element with
      | none => ⟨false, mjmlCode, some ("Component \"" ++ editableId ++ "\" not found")⟩
      | some pn =>
        match pn.1.reverse with
        | [] => ⟨false, mjmlCode, some "Failed to delete component: no parent node"⟩
        | i :: revParent =>
          ⟨true, stripRoot (serializeNode (removeNodeAt doc revParent.reverse i)), none⟩

/-! ## injectEditableAttributes.js -/

/-- A mapping entry `{ className, editableId, content, tagName }`. -/
structure Mapping where
  className : String
  editableId : String
  content : String
  tagName : String
deriving DecidableEq, Repr

/-- `extractEditableMappings` from injectEditableAttributes.js: one entry
per element whose whole `mj-class` attribute value starts with
`editable-`, with the element's trimmed text content and lowercased tag
name; an unparseable source yields the empty list. -/
def extractEditableMappings (mjmlSource : String) : List Mapping :=
  match parseDocument (wrapRoot mjmlSource) with
  | none => []
  | some doc =>
    (elemsWithPaths doc []).filterMap (fun pn =>
      match pn.2.getAttr "mj-class" with
      | none => none
      | some className =>
        if className ≠ "" ∧ strStarts className "editable-" then
          some ⟨className, dropEditableMarker className, jsTrim pn.2.textContent,
            strToLower pn.2.tagName⟩
        else none)

/-- Deduplicate preserving first occurrences (`[...new Set(xs)]`). -/
def dedupFirst : List String → List String
  | [] => []
  | x :: xs => x :: (dedupFirst xs).filter (fun y => y ≠ x)

/-- `ensureEditableClassesInMjml` from injectEditableAttributes.js (the
Tag Declarator `declareMarkers`). -/
def ensureEditableClassesInMjml (mjmlSource : String) : String :=
  let mappings := extractEditableMappings mjmlSource
  if mappings.length = 0 then mjmlSource
  else
    let uniqueClasses := dedupFirst (mappings.map (fun m => m.className))
    let mjClassDefinitions := joinWith "\n        "
      (uniqueClasses.map (fun cls =>
        "<mj-class name=\"" ++ cls ++ "\" css-class=\"" ++ cls ++ "\" />"))
    if strIncludes mjmlSource "<mj-attributes>" then
      replaceFirstStr mjmlSource "<mj-attributes>"
        ("<mj-attributes>\n        " ++ mjClassDefinitions)
    else if strIncludes mjmlSource "<mj-head>" then
      replaceFirstStr mjmlSource "<mj-head>"
        ("<mj-head>\n    <mj-attributes>\n        " ++ mjClassDefinitions ++
          "\n    </mj-attributes>")
    else mjmlSource

/-- The class-group one mapping acts on in `injectEditableAttributes`: the
compiled elements bearing the mapping's class name
(`querySelectorAll('.className')`), in document order, with paths. -/
def classGroup (doc : Node) (className : String) : List (List Nat × Node) :=
  (elemsWithPaths doc []).filter (fun pn => hasAttrToken pn.2 "class" className)

/-- The three `setAttribute` calls `injectEditableAttributes` performs on
one matched compiled element: the enabled flag, the logical id, and the
kind classifier derived from the source tag kind. -/
def annotApply (m : Mapping) (el : Node) : Node :=
  ((el.setAttr "data-editable" "true").setAttr "data-editable-id" m.editableId).setAttr
    "data-editable-type" (if m.tagName = "mj-button" then "button" else "text")

/-- The same annotation on a bare attribute list. -/
def annotAttrs (m : Mapping) (a : List (String × String)) : List (String × String) :=
  setAttrList (setAttrList (setAttrList a "data-editable" "true")
    "data-editable-id" m.editableId)
    "data-editable-type" (if m.tagName = "mj-button" then "button" else "text")

/-- The annotation `injectEditableAttributes` writes onto one compiled
element, applied at a path. -/
def annotateAt (doc : Node) (p : List Nat) (m : Mapping) : Node :=
  modifyAt (annotApply m) doc p

/-- The per-mapping pass of `injectEditableAttributes`: every element of
the class group is annotated when its normalized content equals or
contains the mapping's content, or when the group is a singleton. -/
def applyMapping (doc : Node) (m : Mapping) : Node :=
  let group := classGroup doc m.className
  group.foldl (fun acc pn =>
    let elText := normalizeText pn.2.textContent
    let contentNorm := normalizeText m.content
    let contentMatches := elText = contentNorm || strIncludes elText contentNorm
    if contentMatches || group.length = 1 then annotateAt acc pn.1 m else acc) doc

/-- `injectEditableAttributes` from injectEditableAttributes.js, on the
already-parsed compiled document (the parse/serialize of the compiled HTML
around this loop is the browser's `text/html` pipeline). -/
def injectEditableAttributesDoc (doc : Node) (mappings : List Mapping) : Node :=
  if mappings.length = 0 then doc
  else mappings.foldl applyMapping doc

/-- One registry entry of `parseEditableComponents`. -/
structure EditableComponent where
  id : String
  type : String
  tagName : String
  content : String
  attributes : List (String × String)
  index : Int
deriving DecidableEq, Repr

/-- The per-element body of the `parseEditableComponents` loop: skip
elements without a (nonempty) id, take the `data-editable-index` attribute
as index when present and numeric, else fall back to the element's rank
among annotated elements in document order. -/
def parseEntry (ie : Nat × (List Nat × Node)) : Option EditableComponent :=
  let domIndex := ie.1
  let el := ie.2.2
  match el.getAttr "data-editable-id" with
  | none => none
  | some editableId =>
    if editableId = "" then none
    else
      let editableType := (el.getAttr "data-editable-type").getD "text"
      let index : Int :=
        match el.getAttr "data-editable-index" with
        | none => (domIndex : Int)
        | some s =>
          match jsParseInt s with
          | none => (domIndex : Int)
          | some i => i
      some ⟨editableId, editableType, strToLower el.tagName, jsTrim el.textContent,
        el.attrsOf, index⟩

/-- `parseEditableComponents` from injectEditableAttributes.js, on the
parsed compiled document: elements with `data-editable="true"`, one
registry entry each via `parseEntry`. -/
def parseEditableComponentsDoc (doc : Node) : List EditableComponent :=
  let elements := (elemsWithPaths doc []).filter
    (fun pn => pn.2.getAttr "data-editable" = some "true")
  elements.enum.filterMap parseEntry

/-! ## Edit history (EmailBuilder.jsx) -/

/-- `pushCodeToHistory` from EmailBuilder.jsx: no-op when the new snapshot
equals the top of the stack; otherwise evict the oldest entry when the
stack already holds 50, then push.  The top of the stack is the last list
element, as in the JavaScript array. -/
def pushCodeToHistory (stack : List String) (currentCode : String) : List String :=
  if stack.length > 0 ∧ stack.getLast? = some currentCode then stack
  else (if stack.length ≥ 50 then stack.drop 1 else stack) ++ [currentCode]

/-- The stack effect of `handleUndo` from EmailBuilder.jsx: pop and return
the most recent snapshot, or `none` on an empty stack. -/
def handleUndo (stack : List String) : Option String × List String :=
  match stack.getLast? with
  | none => (none, stack)
  | some s => (some s, stack.dropLast)

/-! ## General lemmas -/

theorem validateContent_invalid_error (c : String) (o : ValidationOptions) :
    (validateContent c o).valid = false → (validateContent c o).error ≠ none := by
  unfold validateContent
  repeat' split <;> simp_all

theorem update_shape (m i c : String) (h : Option String) (o : ValidationOptions) :
    (updateEditableContent m i c h o).success = true ∨
    ((updateEditableContent m i c h o).mjml = m ∧
      (updateEditableContent m i c h o).error ≠ none) := by
  have hv := validateContent_invalid_error c o
  unfold updateEditableContent
  repeat' split <;> try simp_all

theorem dup_shape (m i : String) (h : Option String) (ts : Nat) (r : String) :
    (duplicateComponent m i h ts r).success = true ∨
    ((duplicateComponent m i h ts r).mjml = m ∧
      (duplicateComponent m i h ts r).error ≠ none) := by
  unfold duplicateComponent
  repeat' split <;> try simp

theorem del_shape (m i : String) (h : Option String) :
    (deleteComponent m i h).success = true ∨
    ((deleteComponent m i h).mjml = m ∧ (deleteComponent m i h).error ≠ none) := by
  unfold deleteComponent
  repeat' split <;> try simp

/-! ## C2 -/

/-- C2: atomicity of the three mutation operations — whenever
`updateEditableContent`, `duplicateComponent` or `deleteComponent` returns
`success = false` (missing parameters, parse error, component not found,
validation failure), the returned `mjml` string is exactly the input
source text, together with a non-null error; a partially applied mutation
is never returned. -/
theorem claim_C2_atomicity (mjmlCode editableId newContent : String)
    (hint : Option String) (opts : ValidationOptions) (ts : Nat) (rand : String) :
    ((updateEditableContent mjmlCode editableId newContent hint opts).success = false →
      (updateEditableContent mjmlCode editableId newContent hint opts).mjml = mjmlCode ∧
      (updateEditableContent mjmlCode editableId newContent hint opts).error ≠ none) ∧
    ((duplicateComponent mjmlCode editableId hint ts rand).success = false →
      (duplicateComponent mjmlCode editableId hint ts rand).mjml = mjmlCode ∧
      (duplicateComponent mjmlCode editableId hint ts rand).error ≠ none) ∧
    ((deleteComponent mjmlCode editableId hint).success = false →
      (deleteComponent mjmlCode editableId hint).mjml = mjmlCode ∧
      (deleteComponent mjmlCode editableId hint).error ≠ none) := by
  refine ⟨fun hf => ?_, fun hf => ?_, fun hf => ?_⟩
  · rcases update_shape mjmlCode editableId newContent hint opts with hs | hok
    · rw [hf] at hs; cases hs
    · exact hok
  · rcases dup_shape mjmlCode editableId hint ts rand with hs | hok
    · rw [hf] at hs; cases hs
    · exact hok
  · rcases del_shape mjmlCode editableId hint with hs | hok
    · rw [hf] at hs; cases hs
    · exact hok

/-- Witness for C2: a failing update (empty source), a failing duplication
(unknown id), and a failing deletion (unparseable source) all return the
input unchanged with an error. -/
theorem claim_C2_atomicity_witness :
    ((updateEditableContent "" "a" "x" none DEFAULT_VALIDATION).mjml = "" ∧
      (updateEditableContent "" "a" "x" none DEFAULT_VALIDATION).error ≠ none) ∧
    ((duplicateComponent "<mj-text mj-class=\"editable-a\">Hi</mj-text>" "b" none 7 "zzzzz").mjml
        = "<mj-text mj-class=\"editable-a\">Hi</mj-text>" ∧
      (duplicateComponent "<mj-text mj-class=\"editable-a\">Hi</mj-text>" "b" none 7 "zzzzz").error
        ≠ none) ∧
    ((deleteComponent "<mj-text" "a" none).mjml = "<mj-text" ∧
      (deleteComponent "<mj-text" "a" none).error ≠ none) :=
  ⟨(claim_C2_atomicity "" "a" "x" none DEFAULT_VALIDATION 7 "zzzzz").1 (by decide),
    (claim_C2_atomicity "<mj-text mj-class=\"editable-a\">Hi</mj-text>" "b" "x" none
      DEFAULT_VALIDATION 7 "zzzzz").2.1 (by decide),
    (claim_C2_atomicity "<mj-text" "a" "x" none DEFAULT_VALIDATION 7 "zzzzz").2.2 (by decide)⟩

/-! ## C8 -/

theorem push_le_fifty (st : List String) (s : String) (hst : st.length ≤ 50) :
    (pushCodeToHistory st s).length ≤ 50 := by
  unfold pushCodeToHistory
  split
  · exact hst
  · split <;> simp_all <;> omega

theorem foldl_push_le_fifty (l : List String) (st : List String) (hst : st.length ≤ 50) :
    (l.foldl pushCodeToHistory st).length ≤ 50 := by
  induction l generalizing st with
  | nil => exact hst
  | cons a l ih => exact ih _ (push_le_fifty st a hst)

theorem push_below_capacity (st : List String) (s : String) (hlen : st.length ≤ 49)
    (hne : st.getLast? ≠ some s) : pushCodeToHistory st s = st ++ [s] := by
  unfold pushCodeToHistory
  rw [if_neg, if_neg] <;> simp_all <;> omega

theorem foldl_push_faithful (l : List String) (hlen : l.length ≤ 50) (hnd : l.Nodup) :
    l.foldl pushCodeToHistory [] = l := by
  induction l using List.reverseRecOn with
  | nil => rfl
  | append_singleton l a ih =>
    have hal : a ∉ l := fun hm => List.disjoint_of_nodup_append hnd hm (by simp)
    rw [List.foldl_append, List.foldl_cons, List.foldl_nil]
    rw [ih (by simp at hlen; omega) hnd.of_append_left]
    rcases List.eq_nil_or_concat l with rfl | ⟨l2, b, rfl⟩
    · rfl
    · refine push_below_capacity _ _ (by simp at hlen ⊢; omega) ?_
      intro hc
      have : b = a := by simpa using hc
      exact hal (by simp [← this])

/-- C8: the Edit History stack never exceeds 50 snapshots; a push equal to
the current top is a no-op; a push onto a full stack evicts the oldest
entry; 51 pairwise-distinct pushes leave exactly the last 50 with the first
evicted; and `handleUndo` pops the most recently pushed snapshot, or
`none` on an empty stack. -/
theorem claim_C8_editHistory :
    (∀ l : List String, (l.foldl pushCodeToHistory []).length ≤ 50) ∧
    (∀ (st : List String) (s : String), st.getLast? = some s →
      pushCodeToHistory st s = st) ∧
    (∀ (st : List String) (s : String), st.length = 50 → st.getLast? ≠ some s →
      pushCodeToHistory st s = st.drop 1 ++ [s]) ∧
    (∀ l : List String, l.length = 51 → l.Nodup →
      l.foldl pushCodeToHistory [] = l.drop 1) ∧
    handleUndo ([] : List String) = (none, []) ∧
    (∀ (st : List String) (s : String), handleUndo (st ++ [s]) = (some s, st)) := by
  refine ⟨fun l => foldl_push_le_fifty l [] (by simp), fun st s hl => ?_, fun st s hlen hne => ?_,
    fun l hlen hnd => ?_, rfl, fun st s => ?_⟩
  · unfold pushCodeToHistory
    rw [if_pos]
    exact ⟨by rcases st with _ | _ <;> simp_all, hl⟩
  · unfold pushCodeToHistory
    rw [if_neg, if_pos (by omega)]
    simp_all
  · have hl0 : l ≠ [] := by intro h; rw [h] at hlen; simp at hlen
    have hnd2 : (l.dropLast ++ [l.getLast hl0]).Nodup := by
      rw [List.dropLast_append_getLast hl0]; exact hnd
    have hlast : l.getLast hl0 ∉ l.dropLast :=
      fun hm => List.disjoint_of_nodup_append hnd2 hm (by simp)
    have hdl : l.dropLast.length = 50 := by simp [hlen]
    conv_lhs => rw [← List.dropLast_append_getLast hl0]
    rw [List.foldl_append, List.foldl_cons, List.foldl_nil]
    rw [foldl_push_faithful _ (by omega) hnd2.of_append_left]
    rw [show pushCodeToHistory l.dropLast (l.getLast hl0) =
        l.dropLast.drop 1 ++ [l.getLast hl0] from ?_]
    · conv_rhs => rw [← List.dropLast_append_getLast hl0]
      rw [List.drop_append_of_le_length (by omega)]
    · unfold pushCodeToHistory
      rw [if_neg, if_pos (by omega)]
      intro hcon
      rcases hcon with ⟨-, hc⟩
      exact hlast (List.mem_of_getLast?_eq_some hc)
  · unfold handleUndo
    simp

/-- Witness for C8: a coalesced push, an evicting push on a full stack, and
the 51-distinct-pushes scenario, at concrete stacks. -/
theorem claim_C8_editHistory_witness :
    pushCodeToHistory ["a"] "a" = ["a"] ∧
    pushCodeToHistory (List.replicate 50 "a") "b" = (List.replicate 50 "a").drop 1 ++ ["b"] ∧
    ((List.range 51).map (fun n => toString n)).foldl pushCodeToHistory [] =
      ((List.range 51).map (fun n => toString n)).drop 1 :=
  ⟨claim_C8_editHistory.2.1 ["a"] "a" (by decide),
    claim_C8_editHistory.2.2.1 (List.replicate 50 "a") "b" (by simp) (by decide),
    claim_C8_editHistory.2.2.2.1 ((List.range 51).map (fun n => toString n)) (by simp)
      (by decide)⟩

/-! ## C5 -/

theorem strLen_eq_zero (s : String) : strLen s = 0 ↔ s = "" := by
  unfold strLen
  rw [List.length_eq_zero]
  constructor
  · intro h; apply String.ext; simpa [String.toList] using h
  · intro h; subst h; rfl

theorem validate_default_eq (c : String) :
    validateContent c DEFAULT_VALIDATION =
      if jsTrim c = "" then ⟨false, some "Content cannot be empty", jsTrim c⟩
      else if strLen (jsTrim c) > 5000 then
        ⟨false, some ("Content too long (" ++ toString (strLen (jsTrim c)) ++ "/" ++
          toString 5000 ++ " characters)"), jsTrim c⟩
      else ⟨true, none, jsTrim c⟩ := by
  simp [validateContent, DEFAULT_VALIDATION]
  split_ifs <;> simp_all [strLen_eq_zero]

theorem validate_default_sanitized (c : String) :
    (validateContent c DEFAULT_VALIDATION).sanitized = jsTrim c := by
  rw [validate_default_eq]
  split_ifs <;> rfl

theorem validate_default_invalid (c : String)
    (h : strLen (jsTrim c) > 5000 ∨ jsTrim c = "") :
    (validateContent c DEFAULT_VALIDATION).valid = false := by
  rw [validate_default_eq]
  split_ifs with h1 h2 <;> first | rfl | (exfalso; rcases h with hb | hb <;> simp_all)

theorem update_invalid_shape (m i c : String) (h : Option String) (o : ValidationOptions)
    (hval : (validateContent c o).valid = false) :
    updateEditableContent m i c h o =
      if m = "" ∨ i = "" then
        ⟨false, m, some "Missing required parameters: mjmlCode and editableId are required"⟩
      else ⟨false, m, (validateContent c o).error⟩ := by
  unfold updateEditableContent
  split
  · rfl
  · repeat' split
    all_goals first | rfl | (rw [if_pos hval]) | (exact absurd hval (by assumption))

theorem update_success_shape (m i c : String) (h : Option String) (o : ValidationOptions) :
    (updateEditableContent m i c h o).success = true →
    ∃ doc pn, parseDocument (wrapRoot m) = some doc ∧
      findEditableElement doc i h = some pn ∧
      updateEditableContent m i c h o =
        ⟨true, stripRoot (serializeNode (setTextContentAt doc pn.1
          (validateContent c o).sanitized)), none⟩ := by
  unfold updateEditableContent
  by_cases hval : (validateContent c o).valid = false <;> simp only [hval] <;>
    repeat' split
  all_goals first
    | (intro hs; exact ⟨_, _, by assumption, by assumption, rfl⟩)
    | simp_all

/-- C5: content validation precedes mutation — an update whose new content
trims to more than 5000 characters or to the empty string fails with the
input returned unchanged and an error, independently of the document (no
tree is parsed or touched: with nonempty arguments the result is exactly
the validation-failure record); content trimming to at most 5000 nonempty
characters passes validation, and a successful update stores the trimmed
value. -/
theorem claim_C5_validation (source editableId content : String) (hint : Option String) :
    ((strLen (jsTrim content) > 5000 ∨ jsTrim content = "") →
      (updateEditableContent source editableId content hint DEFAULT_VALIDATION).success = false ∧
      (updateEditableContent source editableId content hint DEFAULT_VALIDATION).mjml = source ∧
      (updateEditableContent source editableId content hint DEFAULT_VALIDATION).error ≠ none) ∧
    (source ≠ "" → editableId ≠ "" →
      (strLen (jsTrim content) > 5000 ∨ jsTrim content = "") →
      updateEditableContent source editableId content hint DEFAULT_VALIDATION =
        ⟨false, source, (validateContent content DEFAULT_VALIDATION).error⟩) ∧
    (strLen (jsTrim content) ≤ 5000 → jsTrim content ≠ "" →
      validateContent content DEFAULT_VALIDATION = ⟨true, none, jsTrim content⟩) ∧
    ((updateEditableContent source editableId content hint DEFAULT_VALIDATION).success = true →
      ∃ doc pn, parseDocument (wrapRoot source) = some doc ∧
        findEditableElement doc editableId hint = some pn ∧
        (updateEditableContent source editableId content hint DEFAULT_VALIDATION).mjml =
          stripRoot (serializeNode (setTextContentAt doc pn.1 (jsTrim content)))) := by
  refine ⟨fun hbad => ?_, fun hs hi hbad => ?_, fun h1 h2 => ?_, fun hsucc => ?_⟩
  · rw [update_invalid_shape _ _ _ _ _ (validate_default_invalid content hbad)]
    split
    · exact ⟨rfl, rfl, by simp⟩
    · exact ⟨rfl, rfl, validateContent_invalid_error content DEFAULT_VALIDATION
        (validate_default_invalid content hbad)⟩
  · rw [update_invalid_shape _ _ _ _ _ (validate_default_invalid content hbad),
      if_neg (by tauto)]
  · rw [validate_default_eq, if_neg h2, if_neg (by omega)]
  · obtain ⟨doc, pn, hdoc, hpn, heq⟩ := update_success_shape _ _ _ _ _ hsucc
    exact ⟨doc, pn, hdoc, hpn, by rw [heq, validate_default_sanitized]⟩

/-- The two-greeting scenario document shared by the spec's test
properties. -/
def greetingSource : String :=
  "<mj-section><mj-text mj-class=\"editable-greeting\">Hi</mj-text><mj-text mj-class=\"editable-greeting\">Hello</mj-text></mj-section>"

/-- Witness for C5: an update whose content trims to empty fails and keeps
the source; a short content validates to its trimmed value; a successful
update on the two-greeting document stores the trimmed content. -/
theorem claim_C5_validation_witness :
    ((updateEditableContent greetingSource "greeting" "  " (some "Hello")
        DEFAULT_VALIDATION).success = false ∧
      (updateEditableContent greetingSource "greeting" "  " (some "Hello")
        DEFAULT_VALIDATION).mjml = greetingSource ∧
      (updateEditableContent greetingSource "greeting" "  " (some "Hello")
        DEFAULT_VALIDATION).error ≠ none) ∧
    validateContent " Hey " DEFAULT_VALIDATION = ⟨true, none, jsTrim " Hey "⟩ ∧
    (∃ doc pn, parseDocument (wrapRoot greetingSource) = some doc ∧
      findEditableElement doc "greeting" (some "Hello") = some pn ∧
      (updateEditableContent greetingSource "greeting" " Hey " (some "Hello")
        DEFAULT_VALIDATION).mjml =
        stripRoot (serializeNode (setTextContentAt doc pn.1 (jsTrim " Hey ")))) :=
  ⟨(claim_C5_validation greetingSource "greeting" "  " (some "Hello")).1 (by decide),
    (claim_C5_validation greetingSource "greeting" " Hey " (some "Hello")).2.2.1
      (by decide) (by decide),
    (claim_C5_validation greetingSource "greeting" " Hey " (some "Hello")).2.2.2 (by decide)⟩

/-! ## C1 -/

/-- The disambiguation rule exactly as the specification states it, for
comparison with `findEditableElement`: with several candidates and a
supplied hint, normalize both sides and prefer exact equality, else
substring containment, else the first candidate in document order. -/
def claimedSelect (doc : Node) (editableId : String) (hint : Option String) :
    Option (List Nat × Node) :=
  let candidates := editableCandidates doc editableId
  match candidates, hint with
  | [], _ => none
  | [c], _ => some c
  | c :: _ :: _, none => some c
  | c :: _ :: _, some h =>
    let hn := normalizeText h
    match candidates.find? (fun pn => normalizeText pn.2.textContent = hn) with
    | some el => some el
    | none =>
      match candidates.find? (fun pn => strIncludes (normalizeText pn.2.textContent) hn) with
      | some el => some el
      | none => some c

theorem find_eq_claimed (doc : Node) (editableId : String) (hint : Option String) :
    findEditableElement doc editableId hint =
      claimedSelect doc editableId
        (if normalizeText (hint.getD "") = "" then none else hint) := by
  unfold findEditableElement claimedSelect
  rcases hint with _ | h
  · simp only [Option.getD]
    cases editableCandidates doc editableId with
    | nil => simp
    | cons c rest =>
      cases rest with
      | nil => simp
      | cons d rest2 => simp [show normalizeText "" = "" from rfl]
  · by_cases hn : normalizeText h = ""
    · cases editableCandidates doc editableId with
      | nil => simp [hn]
      | cons c rest =>
        cases rest with
        | nil => simp [hn]
        | cons d rest2 => simp [hn]
    · cases editableCandidates doc editableId with
      | nil => simp [hn]
      | cons c rest =>
        cases rest with
        | nil => simp [hn]
        | cons d rest2 => simp [hn]; try rfl

theorem claimed_none_iff (doc : Node) (editableId : String) (hint : Option String) :
    claimedSelect doc editableId hint = none ↔ editableCandidates doc editableId = [] := by
  unfold claimedSelect
  cases hcs : editableCandidates doc editableId with
  | nil => simp
  | cons c rest =>
    cases rest with
    | nil => rcases hint with _ | h <;> dsimp only <;> simp
    | cons d rest2 =>
      rcases hint with _ | h
      · dsimp only; simp
      · dsimp only
        repeat' split <;> simp

/-- A document with two `editable-g` candidates, the first with content
"Hi" and the second with empty content: the edge refuting the claimed
rule for hints normalizing to the empty string. -/
def hintEdgeDoc : Node :=
  .elem "root" []
    (.cons (.elem "mj-text" [("mj-class", "editable-g")] (.cons (.text "Hi") .nil))
      (.cons (.elem "mj-text" [("mj-class", "editable-g")] .nil) .nil))

/-- Counterexample to C1 as stated: with the whitespace hint `" "` the
claimed cascade (normalize both sides, prefer exact equality) selects the
second, empty-content candidate, but `findEditableElement` treats any hint
normalizing to the empty string as absent and returns the first candidate
in document order. -/
theorem claim_C1_counterexample :
    findEditableElement hintEdgeDoc "g" (some " ") ≠ claimedSelect hintEdgeDoc "g" (some " ") ∧
    findEditableElement hintEdgeDoc "g" (some " ") =
      some ([0], .elem "mj-text" [("mj-class", "editable-g")] (.cons (.text "Hi") .nil)) ∧
    claimedSelect hintEdgeDoc "g" (some " ") =
      some ([1], .elem "mj-text" [("mj-class", "editable-g")] .nil) := by
  refine ⟨by decide, by decide, by decide⟩

/-- C1 (amended): the element lookup shared by the three mutations fails
exactly when no element's `mj-class` token set contains
`editable-<logicalId>`; it follows the claimed cascade (unique candidate,
else exact normalized equality, else substring containment, else first in
document order) for every hint whose normalization is nonempty, while a
hint normalizing to the empty string is treated as no hint (first
candidate).  The two-greeting scenario behaves as specified: updating
`greeting` with hint "Hello" rewrites only the "Hello" element. -/
theorem claim_C1_disambiguation :
    (∀ (doc : Node) (editableId : String) (hint : Option String),
      findEditableElement doc editableId hint =
        claimedSelect doc editableId
          (if normalizeText (hint.getD "") = "" then none else hint)) ∧
    (∀ (doc : Node) (editableId : String) (hint : Option String),
      findEditableElement doc editableId hint = none ↔
        editableCandidates doc editableId = []) ∧
    updateEditableContent greetingSource "greeting" "Hey" (some "Hello") DEFAULT_VALIDATION =
      ⟨true,
        "<mj-section><mj-text mj-class=\"editable-greeting\">Hi</mj-text><mj-text mj-class=\"editable-greeting\">Hey</mj-text></mj-section>",
        none⟩ := by
  refine ⟨find_eq_claimed, fun doc editableId hint => ?_, by decide⟩
  rw [find_eq_claimed, claimed_none_iff]

/-! ## C4 -/

/-- A document with a head, an attributes prelude and one marked element:
the Tag Declarator inserts a declaration on every application. -/
def declTestSource : String :=
  "<mj-head><mj-attributes></mj-attributes></mj-head><mj-body><mj-text mj-class=\"editable-a\">Hi</mj-text></mj-body>"

/-- Counterexample to C4 as stated: `ensureEditableClassesInMjml` is not
idempotent — a second application inserts the same `mj-class` declaration
block again, because nothing checks for declarations already present. -/
theorem claim_C4_counterexample :
    ensureEditableClassesInMjml (ensureEditableClassesInMjml declTestSource) ≠
      ensureEditableClassesInMjml declTestSource := by decide

theorem dedupFirst_nodup (l : List String) : (dedupFirst l).Nodup := by
  induction l with
  | nil => exact List.nodup_nil
  | cons x xs ih =>
    refine List.Nodup.cons ?_ (ih.filter _)
    intro hmem
    exact absurd (List.of_mem_filter hmem) (by simp)

/-- C4 (amended): within one pass the Tag Declarator never emits two
declarations for the same marker value — the class list it renders is
deduplicated, hence duplicate-free — but it is not idempotent: reapplying
`ensureEditableClassesInMjml` inserts the declaration block again. -/
theorem claim_C4_declarator (x : String) :
    (dedupFirst ((extractEditableMappings x).map (fun m => m.className))).Nodup :=
  dedupFirst_nodup _

/-! ## C6 -/

/-- A marked element whose text holds an internal whitespace run. -/
def wsRunSource : String :=
  "<mj-text mj-class=\"editable-a\">Hi\n   there</mj-text>"

/-- A marked element carrying two marker tokens in one attribute. -/
def twoMarkerSource : String :=
  "<mj-text mj-class=\"editable-a editable-b\">Hi</mj-text>"

/-- Counterexample to C6 as stated: the extracted `contentSnapshot` is only
trimmed — the internal whitespace run of "Hi\n   there" survives instead of
collapsing to one space — and an element holding two marker tokens yields a
single entry for the combined attribute value rather than one entry per
distinct marker value. -/
theorem claim_C6_counterexample :
    ((extractEditableMappings wsRunSource).map (fun m => m.content) = ["Hi\n   there"] ∧
      normalizeText "Hi\n   there" ≠ "Hi\n   there") ∧
    (extractEditableMappings twoMarkerSource).map (fun m => m.className) =
      ["editable-a editable-b"] := by
  refine ⟨⟨by decide, by decide⟩, by decide⟩

/-- C6 (amended): every entry the Mapping Extractor emits for a parseable
source comes from one element whose whole `mj-class` attribute value
starts with `editable-` (the entry's class name is that whole value, its
logical id the value with the leading marker dropped), and its
`contentSnapshot` is the element's text content trimmed of leading and
trailing whitespace, with internal whitespace preserved. -/
theorem claim_C6_extraction (source : String) (m : Mapping)
    (hm : m ∈ extractEditableMappings source) :
    ∃ doc pn, parseDocument (wrapRoot source) = some doc ∧
      pn ∈ elemsWithPaths doc [] ∧
      pn.2.getAttr "mj-class" = some m.className ∧
      strStarts m.className "editable-" = true ∧
      m.content = jsTrim pn.2.textContent ∧
      m.editableId = dropEditableMarker m.className ∧
      m.tagName = strToLower pn.2.tagName := by
  unfold extractEditableMappings at hm
  rcases hp : parseDocument (wrapRoot source) with _ | doc
  · rw [hp] at hm; cases hm
  · rw [hp] at hm
    rw [List.mem_filterMap] at hm
    obtain ⟨pn, hpn, hf⟩ := hm
    rcases hattr : pn.2.getAttr "mj-class" with _ | cn
    · rw [hattr] at hf; cases hf
    · rw [hattr] at hf
      dsimp only at hf
      split_ifs at hf with hc
      obtain rfl := Option.some_inj.mp hf
      exact ⟨doc, pn, rfl, hpn, hattr, by simpa using hc.2, rfl, rfl, rfl⟩

/-- Witness for C6 (amended): the single entry extracted from the
whitespace-run document satisfies every property. -/
theorem claim_C6_extraction_witness :
    ∃ doc pn, parseDocument (wrapRoot wsRunSource) = some doc ∧
      pn ∈ elemsWithPaths doc [] ∧
      pn.2.getAttr "mj-class" = some (Mapping.className ⟨"editable-a", "a", "Hi\n   there", "mj-text"⟩) ∧
      strStarts (Mapping.className ⟨"editable-a", "a", "Hi\n   there", "mj-text"⟩) "editable-" = true ∧
      (Mapping.content ⟨"editable-a", "a", "Hi\n   there", "mj-text"⟩) = jsTrim pn.2.textContent ∧
      (Mapping.editableId ⟨"editable-a", "a", "Hi\n   there", "mj-text"⟩) =
        dropEditableMarker (Mapping.className ⟨"editable-a", "a", "Hi\n   there", "mj-text"⟩) ∧
      (Mapping.tagName ⟨"editable-a", "a", "Hi\n   there", "mj-text"⟩) = strToLower pn.2.tagName :=
  claim_C6_extraction wsRunSource ⟨"editable-a", "a", "Hi\n   there", "mj-text"⟩ (by decide)

/-! ## Path lemmas for the projector claims -/

/-- The attribute list of the node at a path, when the path is valid. -/
def attrsAtPath (doc : Node) (p : List Nat) : Option (List (String × String)) :=
  (getNodeAt doc p).map Node.attrsOf

theorem get?_setAt_self : ∀ (cs : Forest) (i : Nat) (x : Node),
    (cs.get? i).isSome → (cs.setAt i x).get? i = some x
  | .nil, i, _, h => by simp [Forest.get?] at h
  | .cons _ _, 0, _, _ => rfl
  | .cons _ tl, i + 1, x, h => get?_setAt_self tl i x (by simpa [Forest.get?] using h)

theorem get?_setAt_ne : ∀ (cs : Forest) (i j : Nat) (x : Node), i ≠ j →
    (cs.setAt i x).get? j = cs.get? j
  | .nil, _, _, _, _ => rfl
  | .cons _ _, 0, 0, _, h => absurd rfl h
  | .cons _ _, 0, _ + 1, _, _ => rfl
  | .cons _ _, _ + 1, 0, _, _ => rfl
  | .cons _ tl, i + 1, j + 1, x, h => get?_setAt_ne tl i j x (by omega)

theorem getNodeAt_modifyAt_self (f : Node → Node) (doc : Node) (q : List Nat) :
    getNodeAt (modifyAt f doc q) q = (getNodeAt doc q).map f := by
  induction q generalizing doc with
  | nil => cases doc <;> simp [modifyAt, getNodeAt]
  | cons j q ih =>
    cases doc with
    | text s => simp [modifyAt, getNodeAt]
    | elem t a cs =>
      show getNodeAt (modifyAt f (.elem t a cs) (j :: q)) (j :: q) = _
      unfold modifyAt
      cases hc : cs.get? j with
      | none => simp [getNodeAt, hc]
      | some c =>
        have hs : (cs.setAt j (modifyAt f c q)).get? j = some (modifyAt f c q) :=
          get?_setAt_self cs j _ (by simp [hc])
        simp [getNodeAt, hc, hs, ih]

theorem attrsAtPath_modifyAt_ne (f : Node → Node)
    (hfe : ∀ t a cs, ∃ a2, f (.elem t a cs) = .elem t a2 cs)
    (hft : ∀ s, f (.text s) = .text s)
    (doc : Node) (q p : List Nat) (hne : p ≠ q) :
    attrsAtPath (modifyAt f doc q) p = attrsAtPath doc p := by
  induction q generalizing doc p with
  | nil =>
    cases p with
    | nil => exact absurd rfl hne
    | cons i p2 =>
      cases doc with
      | text s => show attrsAtPath (f (.text s)) _ = _; rw [hft]
      | elem t a cs =>
        obtain ⟨a2, ha2⟩ := hfe t a cs
        show attrsAtPath (f (.elem t a cs)) _ = _
        rw [ha2]
        simp [attrsAtPath, getNodeAt]
  | cons j q ih =>
    cases doc with
    | text s => rfl
    | elem t a cs =>
      show attrsAtPath (modifyAt f (.elem t a cs) (j :: q)) p = _
      unfold modifyAt
      cases hc : cs.get? j with
      | none => rfl
      | some c =>
        cases p with
        | nil => simp [attrsAtPath, getNodeAt, Node.attrsOf]
        | cons i p2 =>
          by_cases hij : i = j
          · subst hij
            have hs : (cs.setAt i (modifyAt f c q)).get? i = some (modifyAt f c q) :=
              get?_setAt_self cs i _ (by simp [hc])
            have hp2 : p2 ≠ q := fun hcon => hne (by rw [hcon])
            simp [attrsAtPath, getNodeAt, hc, hs] at ih ⊢
            exact ih c p2 hp2
          · have hs := get?_setAt_ne cs j i (modifyAt f c q) (fun hcon => hij hcon.symm)
            simp [attrsAtPath, getNodeAt, hs]

theorem obsAtPath_modifyAt_ne {α : Type} (o : Node → α)
    (ho : ∀ t a cs cs2, o (.elem t a cs) = o (.elem t a cs2))
    (f : Node → Node)
    (hfe : ∀ t a cs, ∃ a2, f (.elem t a cs) = .elem t a2 cs)
    (hft : ∀ s, f (.text s) = .text s)
    (doc : Node) (q p : List Nat) (hne : p ≠ q) :
    (getNodeAt (modifyAt f doc q) p).map o = (getNodeAt doc p).map o := by
  induction q generalizing doc p with
  | nil =>
    cases p with
    | nil => exact absurd rfl hne
    | cons i p2 =>
      cases doc with
      | text s => show (getNodeAt (f (.text s)) _).map o = _; rw [hft]
      | elem t a cs =>
        obtain ⟨a2, ha2⟩ := hfe t a cs
        show (getNodeAt (f (.elem t a cs)) _).map o = _
        rw [ha2]
        simp [getNodeAt]
  | cons j q ih =>
    cases doc with
    | text s => rfl
    | elem t a cs =>
      show (getNodeAt (modifyAt f (.elem t a cs) (j :: q)) p).map o = _
      unfold modifyAt
      cases hc : cs.get? j with
      | none => rfl
      | some c =>
        cases p with
        | nil => simpa [getNodeAt] using ho t a _ cs
        | cons i p2 =>
          by_cases hij : i = j
          · subst hij
            have hs : (cs.setAt i (modifyAt f c q)).get? i = some (modifyAt f c q) :=
              get?_setAt_self cs i _ (by simp [hc])
            have hp2 : p2 ≠ q := fun hcon => hne (by rw [hcon])
            simpa [getNodeAt, hc, hs] using ih c p2 hp2
          · have hs := get?_setAt_ne cs j i (modifyAt f c q) (fun hcon => hij hcon.symm)
            simp [getNodeAt, hs]

theorem annotApply_elem (m : Mapping) (t : String) (a : List (String × String)) (cs : Forest) :
    annotApply m (.elem t a cs) = .elem t (annotAttrs m a) cs := rfl

theorem annotApply_text (m : Mapping) (s : String) : annotApply m (.text s) = .text s := rfl

mutual

theorem elemsWithPaths_spec (n : Node) : ∀ base,
    ((elemsWithPaths n base).map Prod.fst).Nodup ∧
    ∀ pr ∈ elemsWithPaths n base, ∃ rel, pr.1 = base ++ rel ∧ getNodeAt n rel = some pr.2 := by
  intro base
  cases n with
  | text s => simp [elemsWithPaths]
  | elem t a cs =>
    obtain ⟨hnd, hmem⟩ := elemsInForest_spec cs base 0
    constructor
    · simp only [elemsWithPaths, List.map_cons, List.nodup_cons]
      refine ⟨fun hin => ?_, hnd⟩
      rw [List.mem_map] at hin
      obtain ⟨pr, hpr, hfst⟩ := hin
      obtain ⟨j, c, rel, _, hpath, _⟩ := hmem pr hpr
      rw [hpath] at hfst
      simpa using congrArg List.length hfst
    · intro pr hpr
      rw [elemsWithPaths, List.mem_cons] at hpr
      rcases hpr with rfl | hpr
      · exact ⟨[], by simp, rfl⟩
      · obtain ⟨j, c, rel, hget, hpath, hnode⟩ := hmem pr hpr
        exact ⟨j :: rel, by simpa using hpath, by simp [getNodeAt, hget, hnode]⟩

theorem elemsInForest_spec (cs : Forest) : ∀ base i,
    ((elemsInForest cs base i).map Prod.fst).Nodup ∧
    ∀ pr ∈ elemsInForest cs base i, ∃ j c rel, cs.get? j = some c ∧
      pr.1 = base ++ ((i + j) :: rel) ∧ getNodeAt c rel = some pr.2 := by
  intro base i
  cases cs with
  | nil => simp [elemsInForest]
  | cons c tl =>
    obtain ⟨hnd1, hmem1⟩ := elemsWithPaths_spec c (base ++ [i])
    obtain ⟨hnd2, hmem2⟩ := elemsInForest_spec tl base (i + 1)
    constructor
    · rw [elemsInForest, List.map_append]
      rw [List.nodup_append]
      refine ⟨hnd1, hnd2, fun q hq1 hq2 => ?_⟩
      rw [List.mem_map] at hq1 hq2
      obtain ⟨pr1, hpr1, hq1⟩ := hq1
      obtain ⟨pr2, hpr2, hq2⟩ := hq2
      obtain ⟨rel1, hpath1, _⟩ := hmem1 pr1 hpr1
      obtain ⟨j2, c2, rel2, _, hpath2, _⟩ := hmem2 pr2 hpr2
      rw [← hq1] at hq2
      rw [hpath1, hpath2] at hq2
      have hij : i + 1 + j2 = i ∧ rel2 = rel1 := by simpa using hq2
      omega
    · intro pr hpr
      rw [elemsInForest, List.mem_append] at hpr
      rcases hpr with hpr | hpr
      · obtain ⟨rel, hpath, hnode⟩ := hmem1 pr hpr
        exact ⟨0, c, rel, rfl, by simpa using hpath, hnode⟩
      · obtain ⟨j, c2, rel, hget, hpath, hnode⟩ := hmem2 pr hpr
        exact ⟨j + 1, c2, rel, hget, by simpa [Nat.add_assoc, Nat.add_comm 1 j] using hpath,
          hnode⟩

end

theorem nodup_fst_mem_eq {α β : Type} [DecidableEq α] [DecidableEq β]
    {l : List (α × β)} (hnd : (l.map Prod.fst).Nodup)
    {x y : α × β} (hx : x ∈ l) (hy : y ∈ l) (hfst : x.1 = y.1) : x = y := by
  induction l with
  | nil => cases hx
  | cons z rest ih =>
    rw [List.map_cons, List.nodup_cons] at hnd
    rcases List.mem_cons.mp hx with rfl | hx2 <;> rcases List.mem_cons.mp hy with rfl | hy2
    · rfl
    · exact absurd (hfst ▸ List.mem_map_of_mem Prod.fst hy2) hnd.1
    · exact absurd (hfst ▸ List.mem_map_of_mem Prod.fst hx) (by
        intro hc
        exact hnd.1 (by simpa [hfst] using List.mem_map_of_mem Prod.fst hx2))
    · exact ih hnd.2 hx2 hy2

mutual

theorem elemsWithPaths_isElem (n : Node) : ∀ base pr, pr ∈ elemsWithPaths n base →
    pr.2.isElem = true := by
  intro base pr hpr
  cases n with
  | text s => cases hpr
  | elem t a cs =>
    rw [elemsWithPaths, List.mem_cons] at hpr
    rcases hpr with rfl | hpr
    · rfl
    · exact elemsInForest_isElem cs base 0 pr hpr

theorem elemsInForest_isElem (cs : Forest) : ∀ base i pr, pr ∈ elemsInForest cs base i →
    pr.2.isElem = true := by
  intro base i pr hpr
  cases cs with
  | nil => cases hpr
  | cons c tl =>
    rw [elemsInForest, List.mem_append] at hpr
    rcases hpr with hpr | hpr
    · exact elemsWithPaths_isElem c (base ++ [i]) pr hpr
    · exact elemsInForest_isElem tl base (i + 1) pr hpr

end

theorem annotApply_hfe (m : Mapping) :
    ∀ t a cs, ∃ a2, annotApply m (.elem t a cs) = .elem t a2 cs :=
  fun t a cs => ⟨annotAttrs m a, rfl⟩

/-- The attrs of the node at a path are untouched by an annotation placed
at a different path. -/
theorem attrsAtPath_annotateAt_ne (m : Mapping) (doc : Node) (q p : List Nat) (hne : p ≠ q) :
    attrsAtPath (annotateAt doc q m) p = attrsAtPath doc p :=
  obsAtPath_modifyAt_ne Node.attrsOf (fun _ _ _ _ => rfl) (annotApply m)
    (annotApply_hfe m) (annotApply_text m) doc q p hne

/-- The would-be annotated attrs of the node at a path are likewise
untouched by an annotation placed at a different path. -/
theorem annotObs_annotateAt_ne (m : Mapping) (doc : Node) (q p : List Nat) (hne : p ≠ q) :
    (getNodeAt (annotateAt doc q m) p).map (fun n => (annotApply m n).attrsOf) =
      (getNodeAt doc p).map (fun n => (annotApply m n).attrsOf) :=
  obsAtPath_modifyAt_ne (fun n => (annotApply m n).attrsOf) (fun _ _ _ _ => rfl) (annotApply m)
    (annotApply_hfe m) (annotApply_text m) doc q p hne

/-- The net effect on the attrs at each path of the per-group `forEach` of
`injectEditableAttributes`: a path selected by the condition receives the
annotation of its original node, every other path is untouched. -/
theorem fold_annotate_attrs (m : Mapping) (cond : List Nat × Node → Bool) :
    ∀ (l : List (List Nat × Node)) (acc : Node) (p : List Nat),
      (l.map Prod.fst).Nodup →
      attrsAtPath (l.foldl (fun acc2 pn => if cond pn then annotateAt acc2 pn.1 m else acc2) acc) p =
        (if l.any (fun pn => cond pn && pn.1 = p) then
          (getNodeAt acc p).map (fun n => (annotApply m n).attrsOf)
         else attrsAtPath acc p) := by
  intro l
  induction l with
  | nil => intro acc p _; simp
  | cons pn rest ih =>
    intro acc p hnd
    rw [List.map_cons, List.nodup_cons] at hnd
    rw [List.foldl_cons]
    by_cases hcnd : cond pn = true
    · by_cases hp : pn.1 = p
      · have hnone : (rest.any fun pr => cond pr && decide (pr.1 = p)) = false := by
          rw [List.any_eq_false]
          intro pr hpr
          simp only [Bool.and_eq_true, decide_eq_true_eq, not_and]
          intro _ hcon
          apply hnd.1
          have hpe : pn.1 = pr.1 := hp.trans hcon.symm
          rw [hpe]
          exact List.mem_map_of_mem Prod.fst hpr
        rw [if_pos hcnd, ih _ _ hnd.2, hnone]
        simp only [Bool.false_eq_true, if_false]
        rw [show ((pn :: rest).any fun pr => cond pr && decide (pr.1 = p)) = true by
          simp [List.any_cons, hcnd, hp]]
        simp only [if_true]
        rw [← hp]
        show attrsAtPath (annotateAt acc pn.1 m) pn.1 = _
        unfold attrsAtPath annotateAt
        rw [getNodeAt_modifyAt_self, Option.map_map]
        rfl
      · rw [if_pos hcnd, ih _ _ hnd.2]
        rw [show ((pn :: rest).any fun pr => cond pr && decide (pr.1 = p)) =
            (rest.any fun pr => cond pr && decide (pr.1 = p)) by
          simp [List.any_cons, hp]]
        split
        · exact annotObs_annotateAt_ne m acc pn.1 p (fun hcon => hp (by rw [hcon]))
        · exact attrsAtPath_annotateAt_ne m acc pn.1 p (fun hcon => hp (by rw [hcon]))
    · have hcf : cond pn = false := by simpa using hcnd
      rw [if_neg (by simp [hcf]), ih _ _ hnd.2]
      rw [show ((pn :: rest).any fun pr => cond pr && decide (pr.1 = p)) =
          (rest.any fun pr => cond pr && decide (pr.1 = p)) by
        simp [List.any_cons, hcf]]

/-- The paths of a class group are duplicate-free. -/
theorem classGroup_paths_nodup (doc : Node) (cls : String) :
    ((classGroup doc cls).map Prod.fst).Nodup :=
  ((elemsWithPaths_spec doc []).1).sublist
    (List.Sublist.map Prod.fst (List.filter_sublist _))

/-- Class-group members really sit at their paths in the document. -/
theorem classGroup_getNodeAt (doc : Node) (cls : String) (pn : List Nat × Node)
    (hpn : pn ∈ classGroup doc cls) : getNodeAt doc pn.1 = some pn.2 := by
  have hmem : pn ∈ elemsWithPaths doc [] := List.mem_of_mem_filter hpn
  obtain ⟨rel, hpath, hnode⟩ := (elemsWithPaths_spec doc []).2 pn hmem
  rw [hpath]
  simpa using hnode

/-- The decision `injectEditableAttributes` makes for one element of one
mapping's class group: normalized content equality or containment, or a
singleton group. -/
def projCond (doc : Node) (m : Mapping) (pn : List Nat × Node) : Bool :=
  (normalizeText pn.2.textContent = normalizeText m.content ||
    strIncludes (normalizeText pn.2.textContent) (normalizeText m.content)) ||
  (classGroup doc m.className).length = 1

theorem applyMapping_eq_fold (doc : Node) (m : Mapping) :
    applyMapping doc m = (classGroup doc m.className).foldl
      (fun acc2 pn => if projCond doc m pn then annotateAt acc2 pn.1 m else acc2) doc := rfl

/-- Counterexample document for C3: two compiled elements of the same
class, both holding the mapping's exact content. -/
def projDoc : Node :=
  .elem "html" []
    (.cons (.elem "div" [("class", "editable-g")] (.cons (.text "Hello") .nil))
      (.cons (.elem "div" [("class", "editable-g")] (.cons (.text "Hello") .nil)) .nil))

/-- The mapping whose class group in `projDoc` has two members. -/
def projMapping : Mapping := ⟨"editable-g", "g", "Hello", "mj-text"⟩

/-- Counterexample to C3 as stated: the class group of `editable-g` in
`projDoc` has two elements, and projecting the single mapping annotates
both of them — the projector never selects at most one match. -/
theorem claim_C3_counterexample :
    (classGroup projDoc "editable-g").length = 2 ∧
    ((elemsWithPaths (injectEditableAttributesDoc projDoc [projMapping]) []).filter
      (fun pn => pn.2.getAttr "data-editable" = some "true")).length = 2 := by
  exact ⟨by decide, by decide⟩

/-- C3 (amended): per class group, `injectEditableAttributes` annotates the
single element unconditionally when the group is a singleton; otherwise it
annotates every element whose normalized content equals or contains the
mapping's content — possibly several — and leaves each non-matching
element's attributes untouched (so a group with no match is skipped). -/
theorem claim_C3_projection :
    (∀ (doc : Node) (m : Mapping) (pn : List Nat × Node),
      classGroup doc m.className = [pn] → applyMapping doc m = annotateAt doc pn.1 m) ∧
    (∀ (doc : Node) (m : Mapping) (pn : List Nat × Node), pn ∈ classGroup doc m.className →
      attrsAtPath (applyMapping doc m) pn.1 =
        (if projCond doc m pn then some (annotAttrs m pn.2.attrsOf)
         else attrsAtPath doc pn.1)) := by
  constructor
  · intro doc m pn hgrp
    rw [applyMapping_eq_fold, hgrp]
    have hcond : projCond doc m pn = true := by
      unfold projCond
      rw [hgrp]
      simp
    rw [List.foldl_cons, List.foldl_nil, if_pos hcond]
  · intro doc m pn hmem
    rw [applyMapping_eq_fold]
    rw [fold_annotate_attrs m (projCond doc m) _ doc pn.1 (classGroup_paths_nodup doc _)]
    have hany : ((classGroup doc m.className).any
        (fun pr => projCond doc m pr && pr.1 = pn.1)) = projCond doc m pn := by
      cases hc : projCond doc m pn with
      | true =>
        rw [List.any_eq_true]
        exact ⟨pn, hmem, by simp [hc]⟩
      | false =>
        rw [List.any_eq_false]
        intro pr hpr
        simp only [Bool.and_eq_true, not_and]
        intro hcondpr hcon
        have : pr = pn := nodup_fst_mem_eq (classGroup_paths_nodup doc _) hpr hmem
          (by simpa using hcon)
        rw [this] at hcondpr
        rw [hcondpr] at hc
        cases hc
    rw [hany]
    cases hc : projCond doc m pn with
    | false => simp
    | true =>
      simp only [if_true]
      rw [classGroup_getNodeAt doc _ pn hmem]
      have hel := elemsWithPaths_isElem doc [] pn (List.mem_of_mem_filter hmem)
      rcases pn with ⟨p, el⟩
      cases el with
      | text s => cases hel
      | elem t a cs => simp [annotApply_elem, Node.attrsOf]

/-- Counterexample document for C7: compiled elements for classes
`editable-x` and `editable-y`, in that document order. -/
def projDoc7 : Node :=
  .elem "html" []
    (.cons (.elem "div" [("class", "editable-x")] (.cons (.text "X") .nil))
      (.cons (.elem "div" [("class", "editable-y")] (.cons (.text "Y") .nil)) .nil))

/-- Mapping for `editable-x`. -/
def mapX : Mapping := ⟨"editable-x", "x", "X", "mj-text"⟩

/-- Mapping for `editable-y`. -/
def mapY : Mapping := ⟨"editable-y", "y", "Y", "mj-text"⟩

/-- Witness for C3 (amended): a singleton class group is annotated
unconditionally, and in the two-member group of `projDoc` the first
element's resulting attributes follow the match condition. -/
theorem claim_C3_projection_witness :
    applyMapping projDoc7 mapX = annotateAt projDoc7 [0] mapX ∧
    attrsAtPath (applyMapping projDoc projMapping) [0] =
      (if projCond projDoc projMapping
          ([0], .elem "div" [("class", "editable-g")] (.cons (.text "Hello") .nil)) then
        some (annotAttrs projMapping
          (Node.attrsOf (.elem "div" [("class", "editable-g")] (.cons (.text "Hello") .nil))))
       else attrsAtPath projDoc [0]) :=
  by
  refine ⟨claim_C3_projection.1 projDoc7 mapX
      ([0], Node.elem "div" [("class", "editable-x")] (Forest.cons (Node.text "X") Forest.nil))
      ?_,
    claim_C3_projection.2 projDoc projMapping
      ([0], Node.elem "div" [("class", "editable-g")] (Forest.cons (Node.text "Hello") Forest.nil))
      ?_⟩ <;> decide

/-! ## C7 -/

theorem lookup_setAttrList_self (a : List (String × String)) (n v : String) :
    ((setAttrList a n v).find? (fun p => p.1 = n)).map Prod.snd = some v := by
  induction a with
  | nil => simp [setAttrList]
  | cons hd tl ih =>
    rcases hd with ⟨n2, w⟩
    unfold setAttrList
    by_cases hn : n2 = n
    · subst hn; simp
    · simp only [if_neg hn]
      simpa [hn] using ih

theorem lookup_setAttrList_ne (a : List (String × String)) (n v n' : String) (hne : n' ≠ n) :
    ((setAttrList a n v).find? (fun p => p.1 = n')).map Prod.snd =
      (a.find? (fun p => p.1 = n')).map Prod.snd := by
  induction a with
  | nil =>
    have h0 : ¬(n = n') := fun h => hne h.symm
    simp [setAttrList, h0]
  | cons hd tl ih =>
    rcases hd with ⟨n2, w⟩
    unfold setAttrList
    by_cases hn : n2 = n
    · subst hn
      have h2 : ¬(n2 = n') := fun h => hne h.symm
      simp [h2]
    · simp only [if_neg hn]
      by_cases h2 : n2 = n'
      · subst h2; simp
      · simpa [h2] using ih

theorem getAttr_annotApply (m : Mapping) (t : String) (a : List (String × String)) (cs : Forest) :
    (annotApply m (.elem t a cs)).getAttr "data-editable" = some "true" ∧
    (annotApply m (.elem t a cs)).getAttr "data-editable-id" = some m.editableId ∧
    (annotApply m (.elem t a cs)).getAttr "data-editable-type" =
      some (if m.tagName = "mj-button" then "button" else "text") ∧
    (annotApply m (.elem t a cs)).getAttr "data-editable-index" =
      (Node.elem t a cs).getAttr "data-editable-index" := by
  rw [annotApply_elem]
  unfold annotAttrs
  dsimp only [Node.getAttr]
  refine ⟨?_, ?_, ?_, ?_⟩
  · rw [lookup_setAttrList_ne _ _ _ _ (by decide), lookup_setAttrList_ne _ _ _ _ (by decide),
      lookup_setAttrList_self]
  · rw [lookup_setAttrList_ne _ _ _ _ (by decide), lookup_setAttrList_self]
  · rw [lookup_setAttrList_self]
  · rw [lookup_setAttrList_ne _ _ _ _ (by decide), lookup_setAttrList_ne _ _ _ _ (by decide),
      lookup_setAttrList_ne _ _ _ _ (by decide)]

theorem registry_indexes : ∀ (l : List (List Nat × Node)) (k : Nat),
    (∀ pr ∈ l, pr.2.getAttr "data-editable-id" ≠ none ∧
      pr.2.getAttr "data-editable-id" ≠ some "" ∧
      pr.2.getAttr "data-editable-index" = none) →
    ((l.enumFrom k).filterMap parseEntry).map (fun c => c.index) =
      (List.range' k l.length).map Int.ofNat := by
  intro l
  induction l with
  | nil => intro k _; simp
  | cons pr rest ih =>
    intro k hall
    obtain ⟨h1, h2, h3⟩ := hall pr (by simp)
    rcases hid : pr.2.getAttr "data-editable-id" with _ | idv
    · exact absurd hid h1
    · have hidv : ¬(idv = "") := fun hc => h2 (by rw [hid, hc])
      have hstep : parseEntry (k, pr) = some ⟨idv,
          (pr.2.getAttr "data-editable-type").getD "text", strToLower pr.2.tagName,
          jsTrim pr.2.textContent, pr.2.attrsOf, (k : Int)⟩ := by
        unfold parseEntry
        dsimp only
        rw [hid, h3]
        dsimp only
        rw [if_neg hidv]
      rw [List.enumFrom_cons, List.filterMap_cons_some hstep]
      rw [List.map_cons, ih (k + 1) (fun pr2 hpr2 => hall pr2 (by simp [hpr2]))]
      rw [List.length_cons, List.range'_succ, List.map_cons]
      rfl

/-- Counterexample to C7 as stated: projecting the mapping list
`[mapY, mapX]` (so `y` has extraction rank 0 and `x` rank 1) annotates
without ever writing a positional index, and the registry built from the
result reports document-order ranks (`x` at 0, `y` at 1), not extraction
ranks. -/
theorem claim_C7_counterexample :
    (parseEditableComponentsDoc (injectEditableAttributesDoc projDoc7 [mapY, mapX])).map
        (fun c => (c.id, c.index)) = [("x", 0), ("y", 1)] ∧
    (elemsWithPaths (injectEditableAttributesDoc projDoc7 [mapY, mapX]) []).all
      (fun pn => pn.2.getAttr "data-editable-index" = none) = true := by
  exact ⟨by decide, by decide⟩

/-- C7 (amended): annotating a compiled element sets exactly the enabled
flag, the logical id, and the kind classifier derived from the source tag
kind — no positional index is written, the `data-editable-index`
attribute stays as it was; consequently, whenever no annotated element
carries an index attribute (the projector never writes one) and every
annotated element has a nonempty id, the registry reports each entry's
rank among the annotated elements in compiled-document order as its
positional index. -/
theorem claim_C7_marking :
    (∀ (doc : Node) (p : List Nat) (m : Mapping) (t : String)
      (a : List (String × String)) (cs : Forest),
      getNodeAt doc p = some (.elem t a cs) →
      getNodeAt (annotateAt doc p m) p = some (annotApply m (.elem t a cs)) ∧
      (annotApply m (.elem t a cs)).getAttr "data-editable" = some "true" ∧
      (annotApply m (.elem t a cs)).getAttr "data-editable-id" = some m.editableId ∧
      (annotApply m (.elem t a cs)).getAttr "data-editable-type" =
        some (if m.tagName = "mj-button" then "button" else "text") ∧
      (annotApply m (.elem t a cs)).getAttr "data-editable-index" =
        (Node.elem t a cs).getAttr "data-editable-index") ∧
    (∀ doc : Node,
      (∀ pr ∈ (elemsWithPaths doc []).filter
          (fun pn => pn.2.getAttr "data-editable" = some "true"),
        pr.2.getAttr "data-editable-id" ≠ none ∧
        pr.2.getAttr "data-editable-id" ≠ some "" ∧
        pr.2.getAttr "data-editable-index" = none) →
      (parseEditableComponentsDoc doc).map (fun c => c.index) =
        (List.range ((elemsWithPaths doc []).filter
          (fun pn => pn.2.getAttr "data-editable" = some "true")).length).map Int.ofNat) := by
  constructor
  · intro doc p m t a cs hget
    refine ⟨?_, getAttr_annotApply m t a cs⟩
    unfold annotateAt
    rw [getNodeAt_modifyAt_self, hget]
    rfl
  · intro doc hall
    unfold parseEditableComponentsDoc
    dsimp only
    rw [show ∀ (l : List (List Nat × Node)), List.enum l = List.enumFrom 0 l from fun _ => rfl]
    rw [registry_indexes _ 0 hall]
    rw [List.range_eq_range']

/-- Witness for C7 (amended): a concrete annotation on `projDoc7` and the
registry of its fully annotated projection. -/
theorem claim_C7_marking_witness :
    (getNodeAt (annotateAt projDoc7 [0] mapX) [0] =
      some (annotApply mapX (.elem "div" [("class", "editable-x")]
        (.cons (.text "X") .nil))) ∧
      (annotApply mapX (.elem "div" [("class", "editable-x")]
        (.cons (.text "X") .nil))).getAttr "data-editable" = some "true" ∧
      (annotApply mapX (.elem "div" [("class", "editable-x")]
        (.cons (.text "X") .nil))).getAttr "data-editable-id" = some mapX.editableId ∧
      (annotApply mapX (.elem "div" [("class", "editable-x")]
        (.cons (.text "X") .nil))).getAttr "data-editable-type" =
        some (if mapX.tagName = "mj-button" then "button" else "text") ∧
      (annotApply mapX (.elem "div" [("class", "editable-x")]
        (.cons (.text "X") .nil))).getAttr "data-editable-index" =
        (Node.elem "div" [("class", "editable-x")]
          (.cons (.text "X") .nil)).getAttr "data-editable-index") ∧
    (parseEditableComponentsDoc (injectEditableAttributesDoc projDoc7 [mapY, mapX])).map
        (fun c => c.index) =
      (List.range ((elemsWithPaths (injectEditableAttributesDoc projDoc7 [mapY, mapX]) []).filter
        (fun pn => pn.2.getAttr "data-editable" = some "true")).length).map Int.ofNat :=
  ⟨claim_C7_marking.1 projDoc7 [0] mapX "div" [("class", "editable-x")]
      (.cons (.text "X") .nil) (by decide),
    claim_C7_marking.2 (injectEditableAttributesDoc projDoc7 [mapY, mapX]) (by decide)⟩

/-! ## C9 -/

theorem del_success_shape (m i : String) (h : Option String) :
    (deleteComponent m i h).success = true →
    ∃ doc pn j revParent, parseDocument (wrapRoot m) = some doc ∧
      deleteComponentSelect (editableCandidates doc i) (normalizeText (h.getD "")) = some pn ∧
      pn.1.reverse = j :: revParent ∧
      deleteComponent m i h =
        ⟨true, stripRoot (serializeNode (removeNodeAt doc revParent.reverse j)), none⟩ := by
  intro hs
  unfold deleteComponent at hs ⊢
  split at hs
  · simp at hs
  · rename_i hguard
    rw [if_neg hguard]
    split at hs
    · simp at hs
    · rename_i doc hdoc
      rw [hdoc]
      dsimp only at hs ⊢
      rcases hsel : deleteComponentSelect (editableCandidates doc i)
          (normalizeText (h.getD "")) with _ | pn
      · rw [hsel] at hs
        simp at hs
      · rw [hsel] at hs
        have hs2 : ((match pn.1.reverse with
            | [] => ⟨false, m, some "Failed to delete component: no parent node"⟩
            | i2 :: revParent2 =>
              ⟨true, stripRoot (serializeNode (removeNodeAt doc revParent2.reverse i2)),
                none⟩ : UpdateResult)).success = true := hs
        rcases hrev : pn.1.reverse with _ | ⟨j, revParent⟩
        · rw [hrev] at hs2
          simp at hs2
        · refine ⟨doc, pn, j, revParent, rfl, hsel, hrev, ?_⟩
          show ((match pn.1.reverse with
            | [] => ⟨false, m, some "Failed to delete component: no parent node"⟩
            | i2 :: revParent2 =>
              ⟨true, stripRoot (serializeNode (removeNodeAt doc revParent2.reverse i2)),
                none⟩ : UpdateResult)) = _
          rw [hrev]

theorem dup_success_shape (m i : String) (h : Option String) (ts : Nat) (r : String) :
    (duplicateComponent m i h ts r).success = true →
    ∃ doc pn j revParent, parseDocument (wrapRoot m) = some doc ∧
      findEditableElement doc i h = some pn ∧
      pn.1.reverse = j :: revParent ∧
      duplicateComponent m i h ts r =
        ⟨true, stripRoot (serializeNode (insertNodeAt doc revParent.reverse (j + 1)
          (duplicateClone pn.2 (duplicateBaseId pn.2 i ++ "-copy-" ++ toString ts ++ "-" ++ r)))),
          none, some (duplicateBaseId pn.2 i ++ "-copy-" ++ toString ts ++ "-" ++ r)⟩ := by
  intro hs
  unfold duplicateComponent at hs ⊢
  split at hs
  · simp at hs
  · rename_i hguard
    rw [if_neg hguard]
    split at hs
    · simp at hs
    · rename_i doc hdoc
      rw [hdoc]
      dsimp only at hs ⊢
      rcases hsel : findEditableElement doc i h with _ | pn
      · rw [hsel] at hs
        simp at hs
      · rw [hsel] at hs
        have hs2 : ((match pn.1.reverse with
            | [] => ⟨false, m, some "Failed to duplicate component: no parent node", none⟩
            | i2 :: revParent2 =>
              ⟨true, stripRoot (serializeNode (insertNodeAt doc revParent2.reverse (i2 + 1)
                  (duplicateClone pn.2
                    (duplicateBaseId pn.2 i ++ "-copy-" ++ toString ts ++ "-" ++ r)))),
                none, some (duplicateBaseId pn.2 i ++ "-copy-" ++
                  toString ts ++ "-" ++ r)⟩ : DupResult)).success = true := hs
        rcases hrev : pn.1.reverse with _ | ⟨j, revParent⟩
        · rw [hrev] at hs2
          simp at hs2
        · refine ⟨doc, pn, j, revParent, rfl, hsel, hrev, ?_⟩
          show ((match pn.1.reverse with
            | [] => ⟨false, m, some "Failed to duplicate component: no parent node", none⟩
            | i2 :: revParent2 =>
              ⟨true, stripRoot (serializeNode (insertNodeAt doc revParent2.reverse (i2 + 1)
                  (duplicateClone pn.2
                    (duplicateBaseId pn.2 i ++ "-copy-" ++ toString ts ++ "-" ++ r)))),
                none, some (duplicateBaseId pn.2 i ++ "-copy-" ++
                  toString ts ++ "-" ++ r)⟩ : DupResult)) = _
          rw [hrev]

/-- Frame of `modifyAt` for a mutation that rewrites only the target's
children: any path that is not an extension of the mutation path keeps its
tag and attributes. -/
theorem obsAtPath_modifyAt_not_ext {α : Type} (o : Node → α)
    (ho : ∀ t a cs cs2, o (.elem t a cs) = o (.elem t a cs2))
    (f : Node → Node)
    (hfe : ∀ t a cs, ∃ cs2, f (.elem t a cs) = .elem t a cs2)
    (hft : ∀ s, f (.text s) = .text s)
    (doc : Node) (q p : List Nat) (hne : ¬ q <+: p) :
    (getNodeAt (modifyAt f doc q) p).map o = (getNodeAt doc p).map o := by
  induction q generalizing doc p with
  | nil => exact absurd (List.nil_prefix) hne
  | cons j q ih =>
    cases doc with
    | text s => rfl
    | elem t a cs =>
      show (getNodeAt (modifyAt f (.elem t a cs) (j :: q)) p).map o = _
      unfold modifyAt
      cases hc : cs.get? j with
      | none => rfl
      | some c =>
        cases p with
        | nil => simpa [getNodeAt] using ho t a _ cs
        | cons i p2 =>
          by_cases hij : i = j
          · subst hij
            have hs : (cs.setAt i (modifyAt f c q)).get? i = some (modifyAt f c q) :=
              get?_setAt_self cs i _ (by simp [hc])
            have hp2 : ¬ q <+: p2 := fun hcon => hne (List.prefix_cons_inj _ |>.mpr hcon)
            simpa [getNodeAt, hc, hs] using ih c p2 hp2
          · have hs := get?_setAt_ne cs j i (modifyAt f c q) (fun hcon => hij hcon.symm)
            simp [getNodeAt, hs]

/-- Frame of `modifyAt` under path disjointness: any path that neither
extends nor is extended by the mutation path keeps its entire subtree. -/
theorem getNodeAt_modifyAt_disjoint (f : Node → Node)
    (doc : Node) (q p : List Nat) (h1 : ¬ q <+: p) (h2 : ¬ p <+: q) :
    getNodeAt (modifyAt f doc q) p = getNodeAt doc p := by
  induction q generalizing doc p with
  | nil => exact absurd (List.nil_prefix) h1
  | cons j q ih =>
    cases doc with
    | text s => rfl
    | elem t a cs =>
      show getNodeAt (modifyAt f (.elem t a cs) (j :: q)) p = _
      unfold modifyAt
      cases hc : cs.get? j with
      | none => rfl
      | some c =>
        cases p with
        | nil => exact absurd (List.nil_prefix) h2
        | cons i p2 =>
          by_cases hij : i = j
          · subst hij
            have hs : (cs.setAt i (modifyAt f c q)).get? i = some (modifyAt f c q) :=
              get?_setAt_self cs i _ (by simp [hc])
            have hq2 : ¬ q <+: p2 := fun hcon => h1 (List.prefix_cons_inj _ |>.mpr hcon)
            have hp2 : ¬ p2 <+: q := fun hcon => h2 (List.prefix_cons_inj _ |>.mpr hcon)
            simpa [getNodeAt, hc, hs] using ih c p2 hq2 hp2
          · have hs := get?_setAt_ne cs j i (modifyAt f c q) (fun hcon => hij hcon.symm)
            simp [getNodeAt, hs]

theorem setTextContentAt_hfe (s : String) :
    ∀ t a cs, ∃ cs2, (fun n => match n with
      | Node.elem t2 a2 _ => Node.elem t2 a2 (if s = "" then .nil else .cons (.text s) .nil)
      | Node.text t2 => Node.text t2) (Node.elem t a cs) = .elem t a cs2 :=
  fun t a cs => ⟨(if s = "" then .nil else .cons (.text s) .nil), rfl⟩

/-- Source text whose untouched attribute `x='1'` is re-serialized with
normalized double quotes by a successful update. -/
def quoteSource : String := "<mj-text mj-class='editable-a' x='1'>Hi</mj-text>"

/-- Counterexample to C9 as stated: updating `quoteSource` succeeds and
leaves the attribute `x` untargeted, yet the returned document spells it
`x=\"1\"` — the single-quoted original bytes `x='1'` appear nowhere in the
output, so untouched attributes are not preserved byte-for-byte. -/
theorem claim_C9_counterexample :
    (updateEditableContent quoteSource "a" "Hey" none DEFAULT_VALIDATION).success = true ∧
    (updateEditableContent quoteSource "a" "Hey" none DEFAULT_VALIDATION).mjml =
      "<mj-text mj-class=\"editable-a\" x=\"1\">Hey</mj-text>" ∧
    strIncludes quoteSource "x='1'" = true ∧
    strIncludes (updateEditableContent quoteSource "a" "Hey" none DEFAULT_VALIDATION).mjml
      "x='1'" = false := by
  refine ⟨by decide, by decide, by decide, by decide⟩

/-- C9 (amended): untouched structure is preserved up to XML serialization
normalization — each successful mutation returns exactly the serialization
of the parsed input tree with one local edit: `updateEditableContent`
replaces only the target's children with the new text, keeping the
target's tag and entire attribute set (its marker included), keeping every
node not below the target intact attribute-for-attribute and keeping every
node disjoint from the target intact entirely; `deleteComponent` and
`duplicateComponent` return the serialization of the input tree with just
the one removal or insertion. -/
theorem claim_C9_frame (source editableId newContent : String) (hint : Option String)
    (ts : Nat) (rand : String) :
    ((updateEditableContent source editableId newContent hint DEFAULT_VALIDATION).success = true →
      ∃ doc pn, parseDocument (wrapRoot source) = some doc ∧
        findEditableElement doc editableId hint = some pn ∧
        (updateEditableContent source editableId newContent hint DEFAULT_VALIDATION).mjml =
          stripRoot (serializeNode (setTextContentAt doc pn.1 (jsTrim newContent))) ∧
        (∀ t a cs, getNodeAt doc pn.1 = some (.elem t a cs) →
          getNodeAt (setTextContentAt doc pn.1 (jsTrim newContent)) pn.1 =
            some (.elem t a (if jsTrim newContent = "" then .nil
              else .cons (.text (jsTrim newContent)) .nil))) ∧
        (∀ q, ¬ pn.1 <+: q →
          attrsAtPath (setTextContentAt doc pn.1 (jsTrim newContent)) q = attrsAtPath doc q) ∧
        (∀ q, ¬ pn.1 <+: q → ¬ q <+: pn.1 →
          getNodeAt (setTextContentAt doc pn.1 (jsTrim newContent)) q = getNodeAt doc q)) ∧
    ((deleteComponent source editableId hint).success = true →
      ∃ doc pn j revParent, parseDocument (wrapRoot source) = some doc ∧
        deleteComponentSelect (editableCandidates doc editableId)
          (normalizeText (hint.getD "")) = some pn ∧
        pn.1.reverse = j :: revParent ∧
        (deleteComponent source editableId hint).mjml =
          stripRoot (serializeNode (removeNodeAt doc revParent.reverse j))) ∧
    ((duplicateComponent source editableId hint ts rand).success = true →
      ∃ doc pn j revParent, parseDocument (wrapRoot source) = some doc ∧
        findEditableElement doc editableId hint = some pn ∧
        pn.1.reverse = j :: revParent ∧
        (duplicateComponent source editableId hint ts rand).mjml =
          stripRoot (serializeNode (insertNodeAt doc revParent.reverse (j + 1)
            (duplicateClone pn.2
              (duplicateBaseId pn.2 editableId ++ "-copy-" ++ toString ts ++ "-" ++ rand))))) := by
  refine ⟨fun hs => ?_, fun hs => ?_, fun hs => ?_⟩
  · obtain ⟨doc, pn, hdoc, hpn, heq⟩ := update_success_shape _ _ _ _ _ hs
    refine ⟨doc, pn, hdoc, hpn, by rw [heq, validate_default_sanitized], ?_, ?_, ?_⟩
    · intro t a cs hget
      unfold setTextContentAt
      rw [getNodeAt_modifyAt_self, hget]
      rfl
    · intro q hq
      exact obsAtPath_modifyAt_not_ext Node.attrsOf (fun _ _ _ _ => rfl) _
        (setTextContentAt_hfe (jsTrim newContent)) (fun _ => rfl) doc pn.1 q hq
    · intro q hq1 hq2
      exact getNodeAt_modifyAt_disjoint _ doc pn.1 q hq1 hq2
  · obtain ⟨doc, pn, j, revParent, hdoc, hpn, hrev, heq⟩ := del_success_shape _ _ _ hs
    exact ⟨doc, pn, j, revParent, hdoc, hpn, hrev, by rw [heq]⟩
  · obtain ⟨doc, pn, j, revParent, hdoc, hpn, hrev, heq⟩ := dup_success_shape _ _ _ _ _ hs
    exact ⟨doc, pn, j, revParent, hdoc, hpn, hrev, by rw [heq]⟩

/-- Witness for C9 (amended): the frame theorem instantiated at
`quoteSource` with all three mutations succeeding, their success
hypotheses discharged by evaluation. -/
theorem claim_C9_frame_witness :
    (∃ doc pn, parseDocument (wrapRoot quoteSource) = some doc ∧
        findEditableElement doc "a" none = some pn ∧
        (updateEditableContent quoteSource "a" "Hey" none DEFAULT_VALIDATION).mjml =
          stripRoot (serializeNode (setTextContentAt doc pn.1 (jsTrim "Hey"))) ∧
        (∀ t a cs, getNodeAt doc pn.1 = some (.elem t a cs) →
          getNodeAt (setTextContentAt doc pn.1 (jsTrim "Hey")) pn.1 =
            some (.elem t a (if jsTrim "Hey" = "" then .nil
              else .cons (.text (jsTrim "Hey")) .nil))) ∧
        (∀ q, ¬ pn.1 <+: q →
          attrsAtPath (setTextContentAt doc pn.1 (jsTrim "Hey")) q = attrsAtPath doc q) ∧
        (∀ q, ¬ pn.1 <+: q → ¬ q <+: pn.1 →
          getNodeAt (setTextContentAt doc pn.1 (jsTrim "Hey")) q = getNodeAt doc q)) ∧
    (∃ doc pn j revParent, parseDocument (wrapRoot quoteSource) = some doc ∧
        deleteComponentSelect (editableCandidates doc "a")
          (normalizeText ((none : Option String).getD "")) = some pn ∧
        pn.1.reverse = j :: revParent ∧
        (deleteComponent quoteSource "a" none).mjml =
          stripRoot (serializeNode (removeNodeAt doc revParent.reverse j))) ∧
    (∃ doc pn j revParent, parseDocument (wrapRoot quoteSource) = some doc ∧
        findEditableElement doc "a" none = some pn ∧
        pn.1.reverse = j :: revParent ∧
        (duplicateComponent quoteSource "a" none 5 "r").mjml =
          stripRoot (serializeNode (insertNodeAt doc revParent.reverse (j + 1)
            (duplicateClone pn.2
              (duplicateBaseId pn.2 "a" ++ "-copy-" ++ toString 5 ++ "-" ++ "r"))))) :=
  ⟨(claim_C9_frame quoteSource "a" "Hey" none 5 "r").1 (by decide),
   (claim_C9_frame quoteSource "a" "Hey" none 5 "r").2.1 (by decide),
   (claim_C9_frame quoteSource "a" "Hey" none 5 "r").2.2 (by decide)⟩


/-! ## C10

The serialize-then-reparse development: a parser-shaped well-formedness
invariant, its preservation by the three tree mutations, a canonical form
that the serialized bytes cannot distinguish, and the round trip of the
serializer through the parser. -/

/-! ## C10: definitions -/

/-- A valid XML name as `parseName` accepts it: a name-start character
followed by name characters. -/
def validName (s : String) : Bool :=
  match s.toList with
  | [] => false
  | c :: cs => isNameStartChar c && cs.all isNameChar

/-- Attribute names are pairwise distinct, checked the way `parseAttrsF`
checks them. -/
def nodupKeys : List (String × String) → Bool
  | [] => true
  | p :: tl => !(tl.any (fun q => q.1 = p.1)) && nodupKeys tl

mutual

/-- Structural well-formedness guaranteed by the parser: element tags and
attribute names are valid XML names with no duplicate attribute;
attribute values and text data are arbitrary, the serializer escapes
them. -/
def wfN : Node → Bool
  | .text _ => true
  | .elem t a cs => validName t && a.all (fun p => validName p.1) && nodupKeys a && wfF cs

/-- Well-formedness of a sibling sequence. -/
def wfF : Forest → Bool
  | .nil => true
  | .cons n tl => wfN n && wfF tl

end

/-- Whether the first sibling is a text node. -/
def headIsText : Forest → Bool
  | .cons (.text _) _ => true
  | _ => false

mutual

/-- A node is canonical when every text node in it is nonempty and no two
text nodes are adjacent — the shape in which a serialized tree reparses
to itself. -/
def canonicalN : Node → Bool
  | .text s => if s = "" then false else true
  | .elem _ _ cs => canonicalF cs

/-- Canonicity of a sibling sequence. -/
def canonicalF : Forest → Bool
  | .nil => true
  | .cons n tl => canonicalN n && canonicalF tl && !(n.isText && headIsText tl)

end

mutual

/-- Canonicalize a node: canonicalize the children of every element. -/
def canonN : Node → Node
  | .text s => .text s
  | .elem t a cs => .elem t a (canonF cs)

/-- Canonicalize a sibling sequence: drop empty text nodes and merge
adjacent text nodes, as the serialized string cannot tell them apart. -/
def canonF : Forest → Forest
  | .nil => .nil
  | .cons (.text s) tl =>
    if s = "" then canonF tl
    else
      match canonF tl with
      | .cons (.text s2) tl2 => .cons (.text (s ++ s2)) tl2
      | r => .cons (.text s) r
  | .cons (.elem t a cs) tl => .cons (.elem t a (canonF cs)) (canonF tl)

end

/-- The serialized attribute list, as a character list. -/
def serAttrsL : List (String × String) → List Char
  | [] => []
  | (n, v) :: rest => ' ' :: (n.toList ++ '=' :: '"' :: (escAttrList v.toList ++ '"' :: serAttrsL rest))

mutual

/-- The serialized node, as a character list. -/
def serL : Node → List Char
  | .text s => escTextList s.toList
  | .elem t a cs =>
    match cs with
    | .nil => '<' :: (t.toList ++ serAttrsL a ++ ['/', '>'])
    | .cons _ _ =>
      '<' :: (t.toList ++ serAttrsL a ++ '>' :: (serFL cs ++ '<' :: '/' :: (t.toList ++ ['>'])))

/-- The serialized sibling sequence, as a character list. -/
def serFL : Forest → List Char
  | .nil => []
  | .cons n tl => serL n ++ serFL tl

end

mutual

/-- Fuel needed by `parseNodes` to consume a serialized node. -/
def wN : Node → Nat
  | .text _ => 0
  | .elem _ _ cs => wF cs

/-- Fuel needed by `parseNodes` to consume a serialized sibling sequence
and its terminator. -/
def wF : Forest → Nat
  | .nil => 1
  | .cons n tl => wN n + wF tl + 1

end

theorem strMk_toList (l : List Char) : (⟨l⟩ : String).toList = l := rfl

theorem strEta (s : String) : (⟨s.toList⟩ : String) = s := by cases s; rfl

theorem toList_append (a b : String) : (a ++ b).toList = a.toList ++ b.toList := by
  simp [String.toList]

theorem escTextList_append (a b : List Char) :
    escTextList (a ++ b) = escTextList a ++ escTextList b := by
  induction a with
  | nil => rfl
  | cons c cs ih => simp [escTextList, ih]

theorem escAttrList_length (v : List Char) : v.length ≤ (escAttrList v).length := by
  induction v with
  | nil => simp [escAttrList]
  | cons c cs ih =>
    have : 1 ≤ (escAttrChar c).length := by
      unfold escAttrChar; split_ifs <;> simp
    simp only [escAttrList, List.length_append, List.length_cons]
    omega

theorem takeWhile_append_cons (p : Char → Bool) (d : Char) (hd : p d = false) :
    ∀ l r, l.all p = true →
      (l ++ d :: r).takeWhile p = l ∧ (l ++ d :: r).dropWhile p = d :: r := by
  intro l r hl
  induction l with
  | nil => simp [List.takeWhile_cons, List.dropWhile_cons, hd]
  | cons c cs ih =>
    simp only [List.all_cons, Bool.and_eq_true] at hl
    have := ih hl.2
    simp [List.takeWhile_cons, List.dropWhile_cons, hl.1, this.1, this.2]

theorem serializeAttrs_toList (a : List (String × String)) :
    (serializeAttrs a).data = serAttrsL a := by
  induction a with
  | nil => rfl
  | cons p tl ih =>
    obtain ⟨n, v⟩ := p
    simp [serializeAttrs, serAttrsL, toList_append, strMk_toList, String.toList, ih]

mutual

theorem serializeNode_toList : ∀ n : Node, (serializeNode n).data = serL n
  | .text s => by simp [serializeNode, serL, strMk_toList, String.toList]
  | .elem t a cs => by
    cases cs with
    | nil => simp [serializeNode, serL, toList_append, String.toList, serializeAttrs_toList]
    | cons n tl =>
      simp [serializeNode, serL, toList_append, String.toList, serializeAttrs_toList,
        serializeForest_toList (.cons n tl)]

theorem serializeForest_toList : ∀ cs : Forest, (serializeForest cs).data = serFL cs
  | .nil => rfl
  | .cons n tl => by
    simp [serializeForest, serFL, toList_append, String.toList, serializeNode_toList n,
      serializeForest_toList tl]

end

theorem validName_toList (t : String) (h : validName t = true) :
    ∃ c cs, t.toList = c :: cs ∧ isNameStartChar c = true ∧ cs.all isNameChar = true := by
  unfold validName at h
  rcases ht : t.toList with _ | ⟨c, cs⟩ <;> rw [ht] at h
  · simp at h
  · simp only [Bool.and_eq_true] at h
    exact ⟨c, cs, rfl, h.1, h.2⟩

theorem isNameStartChar_isNameChar (c : Char) (h : isNameStartChar c = true) :
    isNameChar c = true := by
  unfold isNameStartChar at h
  unfold isNameChar
  simp only [Bool.or_eq_true, decide_eq_true_eq] at h ⊢
  rcases h with (h | h) | h
  · simp [Char.isAlphanum, h]
  · subst h; decide
  · subst h; decide

theorem parseName_exact (t : String) (d : Char) (r : List Char)
    (ht : validName t = true) (hd : isNameChar d = false) :
    parseName (t.toList ++ d :: r) = some (t, d :: r) := by
  obtain ⟨c, cs, htl, hc, hcs⟩ := validName_toList t ht
  rw [htl]
  obtain ⟨htake, hdrop⟩ := takeWhile_append_cons isNameChar d hd cs r hcs
  simp only [List.cons_append, parseName, hc, if_pos, htake, hdrop]
  have : (⟨c :: cs⟩ : String) = t := by rw [← htl]; exact strEta t
  simp [this]

theorem isPrefixOf_self_append (l r : List Char) : l.isPrefixOf (l ++ r) = true := by
  induction l with
  | nil => simp [List.isPrefixOf]
  | cons c cs ih => simp [List.isPrefixOf, ih]

theorem isPrefixOf_cons_ne (a b : Char) (l r : List Char) (h : ¬ a = b) :
    (a :: l).isPrefixOf (b :: r) = false := by
  simp [List.isPrefixOf, h]

theorem parseEntity_amp (X : List Char) : parseEntity ('a' :: 'm' :: 'p' :: ';' :: X) = some ('&', X) := by
  unfold parseEntity
  rw [show "amp;".toList = ['a', 'm', 'p', ';'] from rfl,
    show ('a' :: 'm' :: 'p' :: ';' :: X) = ['a', 'm', 'p', ';'] ++ X from rfl,
    isPrefixOf_self_append]
  simp

theorem parseEntity_lt (X : List Char) : parseEntity ('l' :: 't' :: ';' :: X) = some ('<', X) := by
  unfold parseEntity
  rw [show "amp;".toList = 'a' :: ['m', 'p', ';'] from rfl, isPrefixOf_cons_ne _ _ _ _ (by decide),
    show "lt;".toList = ['l', 't', ';'] from rfl,
    show ('l' :: 't' :: ';' :: X) = ['l', 't', ';'] ++ X from rfl, isPrefixOf_self_append]
  simp

theorem parseEntity_gt (X : List Char) : parseEntity ('g' :: 't' :: ';' :: X) = some ('>', X) := by
  unfold parseEntity
  rw [show "amp;".toList = 'a' :: ['m', 'p', ';'] from rfl, isPrefixOf_cons_ne _ _ _ _ (by decide),
    show "lt;".toList = 'l' :: ['t', ';'] from rfl, isPrefixOf_cons_ne _ _ _ _ (by decide),
    show "gt;".toList = ['g', 't', ';'] from rfl,
    show ('g' :: 't' :: ';' :: X) = ['g', 't', ';'] ++ X from rfl, isPrefixOf_self_append]
  simp

theorem parseEntity_quot (X : List Char) :
    parseEntity ('q' :: 'u' :: 'o' :: 't' :: ';' :: X) = some ('"', X) := by
  unfold parseEntity
  rw [show "amp;".toList = 'a' :: ['m', 'p', ';'] from rfl, isPrefixOf_cons_ne _ _ _ _ (by decide),
    show "lt;".toList = 'l' :: ['t', ';'] from rfl, isPrefixOf_cons_ne _ _ _ _ (by decide),
    show "gt;".toList = 'g' :: ['t', ';'] from rfl, isPrefixOf_cons_ne _ _ _ _ (by decide),
    show "quot;".toList = ['q', 'u', 'o', 't', ';'] from rfl,
    show ('q' :: 'u' :: 'o' :: 't' :: ';' :: X) = ['q', 'u', 'o', 't', ';'] ++ X from rfl,
    isPrefixOf_self_append]
  simp

theorem parseTextChars_rt : ∀ (l : List Char) (fuel : Nat) (rest : List Char),
    (rest = [] ∨ ∃ r', rest = '<' :: r') → l.length < fuel →
    parseTextChars fuel (escTextList l ++ rest) = some (l, rest) := by
  intro l
  induction l with
  | nil =>
    intro fuel rest hrest hf
    obtain ⟨f, rfl⟩ : ∃ f, fuel = f + 1 := ⟨fuel - 1, by omega⟩
    rcases hrest with rfl | ⟨r', rfl⟩
    · simp [escTextList, parseTextChars]
    · simp [escTextList, parseTextChars]
  | cons c cs ih =>
    intro fuel rest hrest hf
    obtain ⟨f, rfl⟩ : ∃ f, fuel = f + 1 := ⟨fuel - 1, by omega⟩
    simp only [List.length_cons] at hf
    have hf' : cs.length < f := by omega
    have ihc := ih f rest hrest hf'
    by_cases h1 : c = '&'
    · subst h1
      rw [show escTextList ('&' :: cs) = '&' :: 'a' :: 'm' :: 'p' :: ';' :: escTextList cs from rfl]
      simp only [List.cons_append, parseTextChars]
      simp [parseEntity_amp, ihc]
    · by_cases h2 : c = '<'
      · subst h2
        rw [show escTextList ('<' :: cs) = '&' :: 'l' :: 't' :: ';' :: escTextList cs from rfl]
        simp only [List.cons_append, parseTextChars]
        simp [parseEntity_lt, ihc]
      · by_cases h3 : c = '>'
        · subst h3
          rw [show escTextList ('>' :: cs) = '&' :: 'g' :: 't' :: ';' :: escTextList cs from rfl]
          simp only [List.cons_append, parseTextChars]
          simp [parseEntity_gt, ihc]
        · rw [show escTextList (c :: cs) = escTextChar c ++ escTextList cs from rfl,
            show escTextChar c = [c] from by simp [escTextChar, h1, h2, h3]]
          simp only [List.cons_append, List.nil_append, parseTextChars]
          simp [h1, h2, ihc]

theorem parseAttrValue_rt : ∀ (v : List Char) (fuel : Nat) (rest : List Char),
    v.length < fuel →
    parseAttrValue '"' fuel (escAttrList v ++ '"' :: rest) = some (v, rest) := by
  intro v
  induction v with
  | nil =>
    intro fuel rest hf
    obtain ⟨f, rfl⟩ : ∃ f, fuel = f + 1 := ⟨fuel - 1, by omega⟩
    simp [escAttrList, parseAttrValue]
  | cons c cs ih =>
    intro fuel rest hf
    obtain ⟨f, rfl⟩ : ∃ f, fuel = f + 1 := ⟨fuel - 1, by omega⟩
    simp only [List.length_cons] at hf
    have ihc := ih f rest (by omega)
    by_cases h1 : c = '&'
    · subst h1
      rw [show escAttrList ('&' :: cs) = '&' :: 'a' :: 'm' :: 'p' :: ';' :: escAttrList cs from rfl]
      simp only [List.cons_append, parseAttrValue]
      simp [parseEntity_amp, ihc]
    · by_cases h2 : c = '<'
      · subst h2
        rw [show escAttrList ('<' :: cs) = '&' :: 'l' :: 't' :: ';' :: escAttrList cs from rfl]
        simp only [List.cons_append, parseAttrValue]
        simp [parseEntity_lt, ihc]
      · by_cases h3 : c = '>'
        · subst h3
          rw [show escAttrList ('>' :: cs) = '&' :: 'g' :: 't' :: ';' :: escAttrList cs from rfl]
          simp only [List.cons_append, parseAttrValue]
          simp [parseEntity_gt, ihc]
        · by_cases h4 : c = '"'
          · subst h4
            rw [show escAttrList ('"' :: cs) = '&' :: 'q' :: 'u' :: 'o' :: 't' :: ';' :: escAttrList cs from rfl]
            simp only [List.cons_append, parseAttrValue]
            simp [parseEntity_quot, ihc]
          · rw [show escAttrList (c :: cs) = escAttrChar c ++ escAttrList cs from rfl,
              show escAttrChar c = [c] from by simp [escAttrChar, h1, h2, h3, h4]]
            simp only [List.cons_append, List.nil_append, parseAttrValue]
            simp [h1, h2, h4, ihc]

theorem nameStart_not_ws (c : Char) (h : isNameStartChar c = true) : isWsChar c = false := by
  by_contra hw
  rw [Bool.not_eq_false] at hw
  unfold isWsChar at hw
  simp only [Bool.or_eq_true, decide_eq_true_eq] at hw
  have hfalse : isNameStartChar c = false := by
    rcases hw with ((h1 | h1) | h1) | h1 <;> subst h1 <;> decide
  rw [hfalse] at h
  exact Bool.false_ne_true h

theorem nameStart_not_slash_gt (c : Char) (h : isNameStartChar c = true) :
    ¬(c = '/' ∨ c = '>') := by
  rintro (rfl | rfl) <;> exact absurd h (by decide)

theorem parseAttrsF_rt : ∀ (a : List (String × String)) (fuel : Nat) (d : Char) (r : List Char),
    (d = '/' ∨ d = '>') → a.all (fun p => validName p.1) = true → nodupKeys a = true →
    a.length < fuel →
    parseAttrsF fuel (serAttrsL a ++ d :: r) = some (a, d :: r) := by
  intro a
  induction a with
  | nil =>
    intro fuel d r hd hv hn hf
    obtain ⟨f, rfl⟩ : ∃ f, fuel = f + 1 := ⟨fuel - 1, by omega⟩
    have hdw : isWsChar d = false := by rcases hd with rfl | rfl <;> decide
    simp [serAttrsL, parseAttrsF, List.dropWhile_cons, hdw, hd]
  | cons p tl ih =>
    obtain ⟨n, v⟩ := p
    intro fuel d r hd hv hn hf
    obtain ⟨f, rfl⟩ : ∃ f, fuel = f + 1 := ⟨fuel - 1, by omega⟩
    simp only [List.all_cons, Bool.and_eq_true] at hv
    simp only [nodupKeys, Bool.and_eq_true, Bool.not_eq_true'] at hn
    obtain ⟨c0, cs0, hnl, hc0, hcs0⟩ := validName_toList n hv.1
    have hihc := ih f d r hd hv.2 hn.2 (by simp only [List.length_cons] at hf; omega)
    rw [show serAttrsL ((n, v) :: tl) =
      ' ' :: (n.toList ++ '=' :: '"' :: (escAttrList v.toList ++ '"' :: serAttrsL tl)) from rfl]
    simp only [List.cons_append, List.append_assoc]
    simp only [parseAttrsF]
    rw [List.dropWhile_cons]
    rw [show isWsChar ' ' = true from by decide]
    simp only [if_true]
    rw [hnl]
    simp only [List.cons_append]
    rw [List.dropWhile_cons, nameStart_not_ws c0 hc0]
    simp only [Bool.false_eq_true, if_false]
    rw [if_neg (nameStart_not_slash_gt c0 hc0)]
    rw [show c0 :: (cs0 ++ '=' :: '"' :: (escAttrList v.toList ++ ('"' :: (serAttrsL tl ++ d :: r)))) =
      n.toList ++ '=' :: '"' :: (escAttrList v.toList ++ ('"' :: (serAttrsL tl ++ d :: r))) from by
        rw [hnl, List.cons_append]]
    rw [parseName_exact n '=' _ hv.1 (by decide)]
    simp only []
    rw [List.dropWhile_cons, show isWsChar '=' = false from by decide]
    simp only [Bool.false_eq_true, if_false]
    rw [List.dropWhile_cons, show isWsChar '"' = false from by decide]
    simp only [Bool.false_eq_true, if_false]
    simp only [true_or, if_true]
    rw [show (escAttrList v.toList ++ ('"' :: (serAttrsL tl ++ d :: r))).length + 1 =
      (escAttrList v.toList).length + (serAttrsL tl ++ d :: r).length + 2 from by
        simp; omega]
    rw [show (escAttrList v.toList).length + (serAttrsL tl ++ d :: r).length + 2 =
      ((escAttrList v.toList).length + (serAttrsL tl ++ d :: r).length + 1) + 1 from by omega]
    rw [parseAttrValue_rt v.toList _ _ (by have := escAttrList_length v.toList; omega)]
    simp only []
    rw [hihc]
    simp only []
    rw [if_neg (by rw [hn.1]; exact Bool.false_ne_true)]
    rw [strEta]

theorem parseNodes_cons_text (f : Nat) (c : Char) (cs : List Char) (hc : ¬ c = '<') :
    parseNodes (f + 1) (c :: cs) = (match parseTextChars ((c :: cs).length + 1) (c :: cs) with
      | none => none
      | some (tcs, cs2) =>
        match parseNodes f cs2 with
        | none => none
        | some (ns, rest2) => some (.cons (.text (⟨tcs⟩ : String)) ns, rest2)) := by
  conv_lhs => unfold parseNodes
  split
  · rename_i h
    exact absurd h (by simp)
  · rename_i h
    rw [List.cons.injEq] at h
    exact absurd h.1 hc
  · rename_i h
    rw [List.cons.injEq] at h
    exact absurd h.1 hc
  · rename_i h1 h2 h3
    rfl

theorem parseNodes_cons_elem (f : Nat) (c0 : Char) (r0 : List Char) (hc : ¬ c0 = '/') :
    parseNodes (f + 1) ('<' :: c0 :: r0) = (match parseName (c0 :: r0) with
      | none => none
      | some (tag, r1) =>
        match parseAttrsF (r1.length + 1) r1 with
        | none => none
        | some (attrs, r2) =>
          match r2 with
          | '/' :: '>' :: r3 =>
            match parseNodes f r3 with
            | none => none
            | some (ns, rest2) => some (.cons (.elem tag attrs .nil) ns, rest2)
          | '>' :: r3 =>
            match parseNodes f r3 with
            | none => none
            | some (children, r4) =>
              match r4 with
              | '<' :: '/' :: r5 =>
                match parseName r5 with
                | none => none
                | some (tag2, r6) =>
                  if tag2 = tag then
                    match r6.dropWhile isWsChar with
                    | '>' :: r7 =>
                      match parseNodes f r7 with
                      | none => none
                      | some (ns, rest2) => some (.cons (.elem tag attrs children) ns, rest2)
                    | _ => none
                  else none
              | _ => none
          | _ => none) := by
  conv_lhs => unfold parseNodes
  split
  · rename_i h
    exact absurd h (by simp)
  · rename_i h
    rw [List.cons.injEq, List.cons.injEq] at h
    exact absurd h.2.1 hc
  · rename_i h
    rw [List.cons.injEq] at h
    rw [← h.2]
  · rename_i h1 h2 h3
    exact absurd rfl (h3 (c0 :: r0))

theorem escTextList_length (l : List Char) : l.length ≤ (escTextList l).length := by
  induction l with
  | nil => simp [escTextList]
  | cons c cs ih =>
    have : 1 ≤ (escTextChar c).length := by
      unfold escTextChar; split_ifs <;> simp
    simp only [escTextList, List.length_append, List.length_cons]
    omega

theorem serAttrsL_length (a : List (String × String)) : a.length ≤ (serAttrsL a).length := by
  induction a with
  | nil => simp [serAttrsL]
  | cons p tl ih =>
    obtain ⟨n, v⟩ := p
    simp only [serAttrsL, List.length_cons, List.length_append]
    omega

theorem wF_pos : ∀ cf : Forest, 1 ≤ wF cf
  | .nil => by simp [wF]
  | .cons n tl => by simp [wF]

theorem escTextChar_head (c : Char) :
    ∃ d dr, escTextChar c = d :: dr ∧ ¬ d = '<' := by
  unfold escTextChar
  split_ifs with h1 h2 h3
  · exact ⟨'&', _, rfl, by decide⟩
  · exact ⟨'&', _, rfl, by decide⟩
  · exact ⟨'&', _, rfl, by decide⟩
  · exact ⟨c, [], rfl, h2⟩

theorem serL_elem_head (t : String) (a : List (String × String)) (cs : Forest) :
    ∃ r, serL (.elem t a cs) = '<' :: r := by
  cases cs with
  | nil => exact ⟨_, rfl⟩
  | cons c1 cs1 => exact ⟨_, rfl⟩

theorem parseNodes_nil_input (f : Nat) : parseNodes (f + 1) [] = some (.nil, []) := by
  simp [parseNodes]

theorem parseNodes_close_input (f : Nat) (r : List Char) :
    parseNodes (f + 1) ('<' :: '/' :: r) = some (.nil, '<' :: '/' :: r) := by
  simp [parseNodes]

theorem parseNodes_rt : ∀ (fuel : Nat) (cf : Forest) (rest : List Char),
    wfF cf = true → canonicalF cf = true → wF cf ≤ fuel →
    (rest = [] ∨ ∃ r', rest = '<' :: '/' :: r') →
    parseNodes fuel (serFL cf ++ rest) = some (cf, rest) := by
  intro fuel
  induction fuel with
  | zero =>
    intro cf rest _ _ hw _
    have := wF_pos cf
    omega
  | succ f ih =>
    intro cf rest hwf hcan hw hrest
    cases cf with
    | nil =>
      rcases hrest with rfl | ⟨r', rfl⟩
      · rw [show serFL .nil ++ ([] : List Char) = [] from rfl, parseNodes_nil_input]
      · rw [show serFL .nil ++ '<' :: '/' :: r' = '<' :: '/' :: r' from rfl,
          parseNodes_close_input]
    | cons n tl =>
      rw [show wfF (.cons n tl) = (wfN n && wfF tl) from rfl, Bool.and_eq_true] at hwf
      rw [show canonicalF (.cons n tl) =
        (canonicalN n && canonicalF tl && !(n.isText && headIsText tl)) from rfl,
        Bool.and_eq_true, Bool.and_eq_true] at hcan
      cases n with
      | text s =>
        have hs : ¬ s = "" := by
          intro h
          subst h
          have hx := hcan.1.1
          rw [show canonicalN (.text "") = false from rfl] at hx
          exact Bool.false_ne_true hx
        rcases hsl : s.toList with _ | ⟨c, cs0⟩
        · exact absurd (by rw [← strEta s, hsl]) hs
        have hX : serFL tl ++ rest = [] ∨ ∃ r', serFL tl ++ rest = '<' :: r' := by
          cases tl with
          | nil =>
            rcases hrest with rfl | ⟨r', rfl⟩
            · exact Or.inl rfl
            · exact Or.inr ⟨'/' :: r', rfl⟩
          | cons n2 tl2 =>
            cases n2 with
            | text s2 =>
              exfalso
              have hx := hcan.2
              rw [show (Node.isText (.text s) && headIsText (.cons (.text s2) tl2)) = true
                from rfl] at hx
              exact Bool.false_ne_true hx
            | elem t2 a2 cs2 =>
              obtain ⟨r2, hr2⟩ := serL_elem_head t2 a2 cs2
              refine Or.inr ⟨r2 ++ serFL tl2 ++ rest, ?_⟩
              rw [show serFL (.cons (.elem t2 a2 cs2) tl2) =
                serL (.elem t2 a2 cs2) ++ serFL tl2 from rfl, hr2]
              simp [List.append_assoc]
        obtain ⟨d, dr, hdc, hdlt⟩ := escTextChar_head c
        have hesc : serFL (.cons (.text s) tl) ++ rest =
            d :: (dr ++ (escTextList cs0 ++ (serFL tl ++ rest))) := by
          rw [show serFL (.cons (.text s) tl) = escTextList s.toList ++ serFL tl from rfl, hsl,
            show escTextList (c :: cs0) = escTextChar c ++ escTextList cs0 from rfl, hdc]
          simp [List.append_assoc]
        rw [hesc, parseNodes_cons_text f d _ hdlt, ← hesc]
        have hlen2 : s.toList.length < (escTextList s.toList ++ (serFL tl ++ rest)).length + 1 := by
          have := escTextList_length s.toList
          simp only [List.length_append]
          omega
        have htc : parseTextChars ((serFL (.cons (.text s) tl) ++ rest).length + 1)
            (serFL (.cons (.text s) tl) ++ rest) = some (s.toList, serFL tl ++ rest) := by
          conv_lhs =>
            rw [show serFL (.cons (.text s) tl) ++ rest =
              escTextList s.toList ++ (serFL tl ++ rest) from by
                rw [show serFL (.cons (.text s) tl) = escTextList s.toList ++ serFL tl from rfl]
                simp [List.append_assoc]]
          exact parseTextChars_rt s.toList _ _ hX hlen2
        have hwtl : wF tl ≤ f := by
          rw [show wF (.cons (.text s) tl) = wN (.text s) + wF tl + 1 from rfl,
            show wN (.text s) = 0 from rfl] at hw
          omega
        rw [htc]
        simp only [ih tl rest hwf.2 hcan.1.2 hwtl hrest, strEta]
      | elem t a cs =>
        have hwfn := hwf.1
        rw [show wfN (.elem t a cs) =
          (validName t && (a.all fun p => validName p.1) && nodupKeys a && wfF cs) from rfl,
          Bool.and_eq_true, Bool.and_eq_true, Bool.and_eq_true] at hwfn
        obtain ⟨⟨⟨hvt, hva⟩, hnk⟩, hwcs⟩ := hwfn
        obtain ⟨c0, cs0, htl, hc0, _⟩ := validName_toList t hvt
        have hc0slash : ¬ c0 = '/' := by
          intro h; rw [h] at hc0; exact absurd hc0 (by decide)
        have hw2 : wF cs + wF tl + 1 ≤ f + 1 := by
          rw [show wF (.cons (.elem t a cs) tl) = wN (.elem t a cs) + wF tl + 1 from rfl,
            show wN (.elem t a cs) = wF cs from rfl] at hw
          exact hw
        have hwtl : wF tl ≤ f := by have := wF_pos cs; omega
        have hwcsf : wF cs ≤ f := by have := wF_pos tl; omega
        have hcanc : canonicalN (.elem t a cs) = canonicalF cs := rfl
        cases cs with
        | nil =>
          have hin : serFL (.cons (.elem t a .nil) tl) ++ rest =
              '<' :: c0 :: (cs0 ++ (serAttrsL a ++ '/' :: '>' :: (serFL tl ++ rest))) := by
            rw [show serFL (.cons (.elem t a .nil) tl) =
              ('<' :: (t.toList ++ serAttrsL a ++ ['/', '>'])) ++ serFL tl from rfl, htl]
            simp [List.append_assoc]
          rw [hin, parseNodes_cons_elem f c0 _ hc0slash]
          have hZ : ∃ d r', serAttrsL a ++ '/' :: '>' :: (serFL tl ++ rest) = d :: r' ∧
              isNameChar d = false := by
            cases a with
            | nil => exact ⟨'/', _, rfl, by decide⟩
            | cons p a2 => exact ⟨' ', _, by rw [show serAttrsL (p :: a2) =
                ' ' :: (p.1.toList ++ '=' :: '"' :: (escAttrList p.2.toList ++ '"' ::
                  serAttrsL a2)) from by cases p; rfl, List.cons_append], by decide⟩
          obtain ⟨d2, r2, hZr, hZd⟩ := hZ
          have hname : parseName (c0 :: (cs0 ++ (serAttrsL a ++ '/' :: '>' ::
              (serFL tl ++ rest)))) =
              some (t, serAttrsL a ++ '/' :: '>' :: (serFL tl ++ rest)) := by
            rw [show c0 :: (cs0 ++ (serAttrsL a ++ '/' :: '>' :: (serFL tl ++ rest))) =
              t.toList ++ (serAttrsL a ++ '/' :: '>' :: (serFL tl ++ rest)) from by
                rw [htl, List.cons_append], hZr, parseName_exact t d2 r2 hvt hZd, ← hZr]
          have hattrs : parseAttrsF ((serAttrsL a ++ '/' :: '>' ::
              (serFL tl ++ rest)).length + 1)
              (serAttrsL a ++ '/' :: '>' :: (serFL tl ++ rest)) =
              some (a, '/' :: '>' :: (serFL tl ++ rest)) :=
            parseAttrsF_rt a _ '/' _ (Or.inl rfl) hva hnk
              (by have := serAttrsL_length a; simp only [List.length_append]; omega)
          simp only [hname, hattrs, ih tl rest hwf.2 hcan.1.2 hwtl hrest]
        | cons c1 cs1 =>
          have hin : serFL (.cons (.elem t a (.cons c1 cs1)) tl) ++ rest =
              '<' :: c0 :: (cs0 ++ (serAttrsL a ++ '>' :: (serFL (.cons c1 cs1) ++
                '<' :: '/' :: (t.toList ++ '>' :: (serFL tl ++ rest))))) := by
            rw [show serFL (.cons (.elem t a (.cons c1 cs1)) tl) =
              ('<' :: (t.toList ++ serAttrsL a ++ '>' :: (serFL (.cons c1 cs1) ++
                '<' :: '/' :: (t.toList ++ ['>'])))) ++ serFL tl from rfl]
            simp [List.append_assoc, show t.data = c0 :: cs0 from htl]
          rw [hin, parseNodes_cons_elem f c0 _ hc0slash]
          have hZ : ∃ d r', serAttrsL a ++ '>' :: (serFL (.cons c1 cs1) ++
              '<' :: '/' :: (t.toList ++ '>' :: (serFL tl ++ rest))) = d :: r' ∧
              isNameChar d = false := by
            cases a with
            | nil => exact ⟨'>', _, rfl, by decide⟩
            | cons p a2 => exact ⟨' ', _, by rw [show serAttrsL (p :: a2) =
                ' ' :: (p.1.toList ++ '=' :: '"' :: (escAttrList p.2.toList ++ '"' ::
                  serAttrsL a2)) from by cases p; rfl, List.cons_append], by decide⟩
          obtain ⟨d2, r2, hZr, hZd⟩ := hZ
          have hname : parseName (c0 :: (cs0 ++ (serAttrsL a ++ '>' ::
              (serFL (.cons c1 cs1) ++ '<' :: '/' :: (t.toList ++ '>' ::
                (serFL tl ++ rest)))))) =
              some (t, serAttrsL a ++ '>' :: (serFL (.cons c1 cs1) ++
                '<' :: '/' :: (t.toList ++ '>' :: (serFL tl ++ rest)))) := by
            rw [show c0 :: (cs0 ++ (serAttrsL a ++ '>' :: (serFL (.cons c1 cs1) ++
              '<' :: '/' :: (t.toList ++ '>' :: (serFL tl ++ rest))))) =
              t.toList ++ (serAttrsL a ++ '>' :: (serFL (.cons c1 cs1) ++
                '<' :: '/' :: (t.toList ++ '>' :: (serFL tl ++ rest)))) from by
                simp [show t.data = c0 :: cs0 from htl], hZr,
              parseName_exact t d2 r2 hvt hZd, ← hZr]
          have hattrs : parseAttrsF ((serAttrsL a ++ '>' :: (serFL (.cons c1 cs1) ++
              '<' :: '/' :: (t.toList ++ '>' :: (serFL tl ++ rest)))).length + 1)
              (serAttrsL a ++ '>' :: (serFL (.cons c1 cs1) ++
                '<' :: '/' :: (t.toList ++ '>' :: (serFL tl ++ rest)))) =
              some (a, '>' :: (serFL (.cons c1 cs1) ++
                '<' :: '/' :: (t.toList ++ '>' :: (serFL tl ++ rest)))) :=
            parseAttrsF_rt a _ '>' _ (Or.inr rfl) hva hnk
              (by have := serAttrsL_length a; simp only [List.length_append]; omega)
          have hchildren : parseNodes f (serFL (.cons c1 cs1) ++
              '<' :: '/' :: (t.toList ++ '>' :: (serFL tl ++ rest))) =
              some (.cons c1 cs1, '<' :: '/' :: (t.toList ++ '>' :: (serFL tl ++ rest))) :=
            ih (.cons c1 cs1) _ hwcs (by rw [← hcanc]; exact hcan.1.1) hwcsf
              (Or.inr ⟨_, rfl⟩)
          have hname2 : parseName (t.toList ++ '>' :: (serFL tl ++ rest)) =
              some (t, '>' :: (serFL tl ++ rest)) :=
            parseName_exact t '>' _ hvt (by decide)
          have hsib : parseNodes f (serFL tl ++ rest) = some (tl, rest) :=
            ih tl rest hwf.2 hcan.1.2 hwtl hrest
          simp only [hname, hattrs, hchildren, hname2, hsib, if_pos rfl, if_true,
            show List.dropWhile isWsChar ('>' :: (serFL tl ++ rest)) =
              '>' :: (serFL tl ++ rest) from by
                rw [List.dropWhile_cons, show isWsChar '>' = false from by decide]; simp]

theorem all_takeWhile (p : Char → Bool) : ∀ l : List Char, ((l.takeWhile p).all p) = true := by
  intro l
  induction l with
  | nil => rfl
  | cons c cs ih =>
    rw [List.takeWhile_cons]
    by_cases h : p c
    · simp [h, ih]
    · simp [h]

theorem parseName_valid (cs : List Char) (nm : String) (r : List Char)
    (h : parseName cs = some (nm, r)) : validName nm = true := by
  cases cs with
  | nil => simp [parseName] at h
  | cons c cs2 =>
    rw [show parseName (c :: cs2) = if isNameStartChar c = true then
      some ((⟨c :: cs2.takeWhile isNameChar⟩ : String), cs2.dropWhile isNameChar)
      else none from rfl] at h
    by_cases hc : isNameStartChar c = true
    · rw [if_pos hc] at h
      simp only [Option.some.injEq, Prod.mk.injEq] at h
      rw [← h.1]
      unfold validName
      rw [strMk_toList]
      simp [hc, all_takeWhile]
    · rw [if_neg hc] at h
      simp at h

theorem parseAttrsF_wf : ∀ (fuel : Nat) (cs : List Char) (a : List (String × String))
    (r : List Char), parseAttrsF fuel cs = some (a, r) →
    (a.all fun p => validName p.1) = true ∧ nodupKeys a = true := by
  intro fuel
  induction fuel with
  | zero => intro cs a r h; simp [parseAttrsF] at h
  | succ f ih =>
    intro cs a r h
    unfold parseAttrsF at h
    split at h
    · exact absurd h (by simp)
    · rename_i c rest heq
      split at h
      · simp only [Option.some.injEq, Prod.mk.injEq] at h
        rw [← h.1]
        exact ⟨rfl, rfl⟩
      · rcases hn : parseName (c :: rest) with _ | ⟨nm, r1⟩ <;> rw [hn] at h
        · simp at h
        · dsimp only at h
          split at h
          · rename_i r3 hr3
            split at h
            · exact absurd h (by simp)
            · rename_i q r5 hr5
              split at h
              · rcases hv : parseAttrValue q (r5.length + 1) r5 with _ | ⟨v, r6⟩ <;>
                  rw [hv] at h
                · simp at h
                · dsimp only at h
                  rcases ha : parseAttrsF f r6 with _ | ⟨attrs, r7⟩ <;> rw [ha] at h
                  · simp at h
                  · dsimp only at h
                    split at h
                    · simp at h
                    · rename_i hdup
                      simp only [Option.some.injEq, Prod.mk.injEq] at h
                      obtain ⟨hva, hnk⟩ := ih r6 attrs r7 ha
                      rw [← h.1]
                      constructor
                      · simp only [List.all_cons, Bool.and_eq_true]
                        exact ⟨parseName_valid _ _ _ hn, hva⟩
                      · simp only [nodupKeys, Bool.and_eq_true]
                        refine ⟨?_, hnk⟩
                        simp only [Bool.not_eq_true']
                        simp only [Bool.not_eq_true] at hdup
                        exact hdup
              · exact absurd h (by simp)
          · exact absurd h (by simp)

theorem parseNodes_wf : ∀ (fuel : Nat) (cs : List Char) (ns : Forest) (r : List Char),
    parseNodes fuel cs = some (ns, r) → wfF ns = true := by
  intro fuel
  induction fuel with
  | zero => intro cs ns r h; simp [parseNodes] at h
  | succ f ih =>
    intro cs ns r h
    unfold parseNodes at h
    split at h
    · simp only [Option.some.injEq, Prod.mk.injEq] at h
      rw [← h.1]
      rfl
    · simp only [Option.some.injEq, Prod.mk.injEq] at h
      rw [← h.1]
      rfl
    · rename_i rest heq
      rcases hn : parseName rest with _ | ⟨tag, r1⟩ <;> rw [hn] at h
      · simp at h
      · dsimp only at h
        rcases ha : parseAttrsF (r1.length + 1) r1 with _ | ⟨attrs, r2⟩ <;> rw [ha] at h
        · simp at h
        · dsimp only at h
          split at h
          · rename_i r3
            rcases hp : parseNodes f r3 with _ | ⟨ns2, rest2⟩ <;> rw [hp] at h
            · simp at h
            · dsimp only at h
              simp only [Option.some.injEq, Prod.mk.injEq] at h
              rw [← h.1]
              rw [show wfF (.cons (.elem tag attrs .nil) ns2) =
                (wfN (.elem tag attrs .nil) && wfF ns2) from rfl, Bool.and_eq_true]
              refine ⟨?_, ih _ _ _ hp⟩
              rw [show wfN (.elem tag attrs .nil) = (validName tag &&
                (attrs.all fun p => validName p.1) && nodupKeys attrs && wfF .nil) from rfl]
              obtain ⟨hva, hnk⟩ := parseAttrsF_wf _ _ _ _ ha
              simp [parseName_valid _ _ _ hn, hva, hnk, wfF]
          · rename_i r3
            rcases hp : parseNodes f r3 with _ | ⟨children, r4⟩ <;> rw [hp] at h
            · simp at h
            · dsimp only at h
              split at h
              · rename_i r5
                rcases hn2 : parseName r5 with _ | ⟨tag2, r6⟩ <;> rw [hn2] at h
                · simp at h
                · dsimp only at h
                  split at h
                  · split at h
                    · rename_i r7 hr7
                      rcases hp2 : parseNodes f r7 with _ | ⟨ns2, rest2⟩ <;> rw [hp2] at h
                      · simp at h
                      · dsimp only at h
                        simp only [Option.some.injEq, Prod.mk.injEq] at h
                        rw [← h.1]
                        rw [show wfF (.cons (.elem tag attrs children) ns2) =
                          (wfN (.elem tag attrs children) && wfF ns2) from rfl,
                          Bool.and_eq_true]
                        refine ⟨?_, ih _ _ _ hp2⟩
                        rw [show wfN (.elem tag attrs children) = (validName tag &&
                          (attrs.all fun p => validName p.1) && nodupKeys attrs &&
                          wfF children) from rfl]
                        obtain ⟨hva, hnk⟩ := parseAttrsF_wf _ _ _ _ ha
                        simp [parseName_valid _ _ _ hn, hva, hnk, ih _ _ _ hp]
                    · exact absurd h (by simp)
                  · exact absurd h (by simp)
              · exact absurd h (by simp)
          · exact absurd h (by simp)
    · rcases ht : parseTextChars (cs.length + 1) cs with _ | ⟨tcs, cs2⟩ <;> rw [ht] at h
      · simp at h
      · dsimp only at h
        rcases hp : parseNodes f cs2 with _ | ⟨ns2, rest2⟩ <;> rw [hp] at h
        · simp at h
        · dsimp only at h
          simp only [Option.some.injEq, Prod.mk.injEq] at h
          rw [← h.1]
          rw [show wfF (.cons (.text (⟨tcs⟩ : String)) ns2) =
            (wfN (.text (⟨tcs⟩ : String)) && wfF ns2) from rfl, Bool.and_eq_true]
          exact ⟨rfl, ih _ _ _ hp⟩

mutual

/-- Every text node of the subtree is nonempty. -/
def neTextsN : Node → Bool
  | .text s => if s = "" then false else true
  | .elem _ _ cs => neTextsF cs

/-- Every text node of the sibling sequence is nonempty. -/
def neTextsF : Forest → Bool
  | .nil => true
  | .cons n tl => neTextsN n && neTextsF tl

end

/-- A node-level predicate holds of every sibling. -/
def allF (P : Node → Bool) : Forest → Bool
  | .nil => true
  | .cons n tl => P n && allF P tl

theorem wfF_eq_allF : ∀ cf : Forest, wfF cf = allF wfN cf
  | .nil => rfl
  | .cons n tl => by rw [show wfF (.cons n tl) = (wfN n && wfF tl) from rfl,
      show allF wfN (.cons n tl) = (wfN n && allF wfN tl) from rfl, wfF_eq_allF tl]

theorem neTextsF_eq_allF : ∀ cf : Forest, neTextsF cf = allF neTextsN cf
  | .nil => rfl
  | .cons n tl => by rw [show neTextsF (.cons n tl) = (neTextsN n && neTextsF tl) from rfl,
      show allF neTextsN (.cons n tl) = (neTextsN n && allF neTextsN tl) from rfl,
      neTextsF_eq_allF tl]

theorem parseTextChars_stops : ∀ (fuel : Nat) (cs tcs r : List Char),
    parseTextChars fuel cs = some (tcs, r) → r = [] ∨ ∃ r', r = '<' :: r' := by
  intro fuel
  induction fuel with
  | zero => intro cs tcs r h; simp [parseTextChars] at h
  | succ f ih =>
    intro cs tcs r h
    cases cs with
    | nil =>
      simp only [parseTextChars, Option.some.injEq, Prod.mk.injEq] at h
      exact Or.inl h.2.symm
    | cons c cs2 =>
      unfold parseTextChars at h
      split at h
      · rename_i hc
        simp only [Option.some.injEq, Prod.mk.injEq] at h
        exact Or.inr ⟨cs2, by rw [← h.2, hc]⟩
      · split at h
        · rcases he : parseEntity cs2 with _ | ⟨d, rest⟩ <;> rw [he] at h
          · simp at h
          · dsimp only at h
            rcases ht : parseTextChars f rest with _ | ⟨tcs2, rest2⟩ <;> rw [ht] at h
            · simp at h
            · dsimp only at h
              simp only [Option.some.injEq, Prod.mk.injEq] at h
              rw [← h.2]
              exact ih rest tcs2 rest2 ht
        · rcases ht : parseTextChars f cs2 with _ | ⟨tcs2, rest2⟩ <;> rw [ht] at h
          · simp at h
          · dsimp only at h
            simp only [Option.some.injEq, Prod.mk.injEq] at h
            rw [← h.2]
            exact ih cs2 tcs2 rest2 ht

theorem parseTextChars_ne (f : Nat) (c : Char) (cs tcs r : List Char)
    (h : parseTextChars (f + 1) (c :: cs) = some (tcs, r)) (hc : ¬ c = '<') :
    tcs ≠ [] := by
  unfold parseTextChars at h
  split at h
  · exact absurd (by assumption) hc
  · split at h
    · rcases he : parseEntity cs with _ | ⟨d, rest⟩ <;> rw [he] at h
      · simp at h
      · dsimp only at h
        rcases ht : parseTextChars f rest with _ | ⟨tcs2, rest2⟩ <;> rw [ht] at h
        · simp at h
        · simp only [Option.some.injEq, Prod.mk.injEq] at h
          rw [← h.1]
          simp
    · rcases ht : parseTextChars f cs with _ | ⟨tcs2, rest2⟩ <;> rw [ht] at h
      · simp at h
      · simp only [Option.some.injEq, Prod.mk.injEq] at h
        rw [← h.1]
        simp

theorem parseNodes_neTexts : ∀ (fuel : Nat) (cs : List Char) (ns : Forest) (r : List Char),
    parseNodes fuel cs = some (ns, r) →
    neTextsF ns = true ∧ (headIsText ns = true → ∃ c cs', cs = c :: cs' ∧ ¬ c = '<') := by
  intro fuel
  induction fuel with
  | zero => intro cs ns r h; simp [parseNodes] at h
  | succ f ih =>
    intro cs ns r h
    unfold parseNodes at h
    split at h
    · simp only [Option.some.injEq, Prod.mk.injEq] at h
      rw [← h.1]
      exact ⟨rfl, by intro hx; simp [headIsText] at hx⟩
    · simp only [Option.some.injEq, Prod.mk.injEq] at h
      rw [← h.1]
      exact ⟨rfl, by intro hx; simp [headIsText] at hx⟩
    · rename_i rest heq
      rcases hn : parseName rest with _ | ⟨tag, r1⟩ <;> rw [hn] at h
      · simp at h
      · dsimp only at h
        rcases ha : parseAttrsF (r1.length + 1) r1 with _ | ⟨attrs, r2⟩ <;> rw [ha] at h
        · simp at h
        · dsimp only at h
          split at h
          · rename_i r3
            rcases hp : parseNodes f r3 with _ | ⟨ns2, rest2⟩ <;> rw [hp] at h
            · simp at h
            · dsimp only at h
              simp only [Option.some.injEq, Prod.mk.injEq] at h
              rw [← h.1]
              refine ⟨?_, by intro hx; simp [headIsText] at hx⟩
              rw [show neTextsF (.cons (.elem tag attrs .nil) ns2) =
                (neTextsN (.elem tag attrs .nil) && neTextsF ns2) from rfl]
              simp [neTextsN, neTextsF, (ih _ _ _ hp).1]
          · rename_i r3
            rcases hp : parseNodes f r3 with _ | ⟨children, r4⟩ <;> rw [hp] at h
            · simp at h
            · dsimp only at h
              split at h
              · rename_i r5
                rcases hn2 : parseName r5 with _ | ⟨tag2, r6⟩ <;> rw [hn2] at h
                · simp at h
                · dsimp only at h
                  split at h
                  · split at h
                    · rename_i r7 hr7
                      rcases hp2 : parseNodes f r7 with _ | ⟨ns2, rest2⟩ <;> rw [hp2] at h
                      · simp at h
                      · dsimp only at h
                        simp only [Option.some.injEq, Prod.mk.injEq] at h
                        rw [← h.1]
                        refine ⟨?_, by intro hx; simp [headIsText] at hx⟩
                        rw [show neTextsF (.cons (.elem tag attrs children) ns2) =
                          (neTextsN (.elem tag attrs children) && neTextsF ns2) from rfl]
                        simp [neTextsN, (ih _ _ _ hp).1, (ih _ _ _ hp2).1]
                    · exact absurd h (by simp)
                  · exact absurd h (by simp)
              · exact absurd h (by simp)
          · exact absurd h (by simp)
    · rename_i h1 h2 h3
      rcases ht : parseTextChars (cs.length + 1) cs with _ | ⟨tcs, cs2⟩ <;> rw [ht] at h
      · simp at h
      · dsimp only at h
        rcases hp : parseNodes f cs2 with _ | ⟨ns2, rest2⟩ <;> rw [hp] at h
        · simp at h
        · dsimp only at h
          simp only [Option.some.injEq, Prod.mk.injEq] at h
          rw [← h.1]
          cases cs with
          | nil => exact absurd rfl h1
          | cons c cs3 =>
            have hclt : ¬ c = '<' := by
              intro hceq
              subst hceq
              cases cs3 with
              | nil => exact h3 [] rfl
              | cons c2 cs4 =>
                by_cases hc2 : c2 = '/'
                · subst hc2; exact h2 cs4 rfl
                · exact h3 (c2 :: cs4) rfl
            have htne : tcs ≠ [] := parseTextChars_ne (cs3.length + 1) c cs3 tcs cs2 (by exact ht) hclt
            have hstop := parseTextChars_stops (cs3.length + 1 + 1) (c :: cs3) tcs cs2
              (by rw [show (c :: cs3).length = cs3.length + 1 from rfl] at ht; exact ht)
            constructor
            · rw [show neTextsF (.cons (.text (⟨tcs⟩ : String)) ns2) =
                (neTextsN (.text (⟨tcs⟩ : String)) && neTextsF ns2) from rfl]
              have hne2 : neTextsN (.text (⟨tcs⟩ : String)) = true := by
                rw [show neTextsN (.text (⟨tcs⟩ : String)) =
                  (if (⟨tcs⟩ : String) = "" then false else true) from rfl]
                rw [if_neg (by intro hx; exact htne (by
                  have : (⟨tcs⟩ : String).data = ("" : String).data := by rw [hx]
                  simpa using this))]
              simp [hne2, (ih _ _ _ hp).1]
            · intro _
              exact ⟨c, cs3, rfl, hclt⟩

theorem string_eq_empty_iff (s : String) : s = "" ↔ s.data = [] := by
  constructor
  · intro h; rw [h]
  · intro h; apply String.ext; rw [h]

theorem str_append_ne (s s2 : String) (hs : ¬ s = "") : ¬ s ++ s2 = "" := by
  intro h
  apply hs
  rw [string_eq_empty_iff] at h ⊢
  rw [show (s ++ s2).data = s.data ++ s2.data from toList_append s s2] at h
  exact (List.append_eq_nil.mp h).1

theorem neTextsF_cons_parts (n : Node) (tl : Forest) (h : neTextsF (.cons n tl) = true) :
    neTextsN n = true ∧ neTextsF tl = true := by
  rw [show neTextsF (.cons n tl) = (neTextsN n && neTextsF tl) from rfl,
    Bool.and_eq_true] at h
  exact h

theorem neTextsN_text_ne (s : String) (h : neTextsN (.text s) = true) : ¬ s = "" := by
  rw [show neTextsN (.text s) = (if s = "" then false else true) from rfl] at h
  intro hx
  rw [if_pos hx] at h
  exact Bool.false_ne_true h

theorem canonF_ne_nil (c1 : Node) (cs1 : Forest) (h : neTextsF (.cons c1 cs1) = true) :
    ∃ m tl2, canonF (.cons c1 cs1) = .cons m tl2 := by
  obtain ⟨hn, _⟩ := neTextsF_cons_parts c1 cs1 h
  cases c1 with
  | text s =>
    have hs := neTextsN_text_ne s hn
    rw [show canonF (.cons (.text s) cs1) = (if s = "" then canonF cs1 else
      match canonF cs1 with
      | .cons (.text s2) tl2 => .cons (.text (s ++ s2)) tl2
      | r => .cons (.text s) r) from rfl, if_neg hs]
    rcases hm : canonF cs1 with _ | ⟨m, tl2⟩
    · exact ⟨.text s, .nil, rfl⟩
    · cases m with
      | text s2 => exact ⟨.text (s ++ s2), tl2, rfl⟩
      | elem t2 a2 cs2 => exact ⟨.text s, .cons (.elem t2 a2 cs2) tl2, rfl⟩
  | elem t a cs =>
    exact ⟨.elem t a (canonF cs), canonF cs1, rfl⟩

mutual

theorem serL_canonN : ∀ n : Node, neTextsN n = true → serL (canonN n) = serL n
  | .text s, _ => rfl
  | .elem t a cs, h => by
    rw [show canonN (.elem t a cs) = .elem t a (canonF cs) from rfl]
    have hcs : neTextsF cs = true := h
    cases cs with
    | nil => rfl
    | cons c1 cs1 =>
      obtain ⟨m, tl2, hm⟩ := canonF_ne_nil c1 cs1 hcs
      have hser := serFL_canonF (.cons c1 cs1) hcs
      rw [hm] at hser ⊢
      rw [show serL (.elem t a (.cons m tl2)) = '<' :: (t.toList ++ serAttrsL a ++
        '>' :: (serFL (.cons m tl2) ++ '<' :: '/' :: (t.toList ++ ['>']))) from rfl,
        show serL (.elem t a (.cons c1 cs1)) = '<' :: (t.toList ++ serAttrsL a ++
        '>' :: (serFL (.cons c1 cs1) ++ '<' :: '/' :: (t.toList ++ ['>']))) from rfl,
        hser]

theorem serFL_canonF : ∀ cf : Forest, neTextsF cf = true → serFL (canonF cf) = serFL cf
  | .nil, _ => rfl
  | .cons (.text s) tl, h => by
    obtain ⟨hn, htl⟩ := neTextsF_cons_parts _ _ h
    have hs := neTextsN_text_ne s hn
    rw [show canonF (.cons (.text s) tl) = (if s = "" then canonF tl else
      match canonF tl with
      | .cons (.text s2) tl2 => .cons (.text (s ++ s2)) tl2
      | r => .cons (.text s) r) from rfl, if_neg hs]
    have hser := serFL_canonF tl htl
    rcases hm : canonF tl with _ | ⟨m, tl2⟩
    · rw [hm] at hser
      rw [show serFL (.cons (.text s) .nil) = serL (.text s) ++ serFL .nil from rfl,
        show serFL (.cons (.text s) tl) = serL (.text s) ++ serFL tl from rfl, ← hser]
    · cases m with
      | text s2 =>
        rw [hm] at hser
        rw [show serFL (.cons (.text (s ++ s2)) tl2) =
          serL (.text (s ++ s2)) ++ serFL tl2 from rfl,
          show serL (.text (s ++ s2)) = escTextList (s ++ s2).toList from rfl,
          show (s ++ s2).toList = s.toList ++ s2.toList from toList_append s s2,
          escTextList_append,
          show serFL (.cons (.text s) tl) = escTextList s.toList ++ serFL tl from rfl,
          ← hser,
          show serFL (.cons (.text s2) tl2) = escTextList s2.toList ++ serFL tl2 from rfl,
          List.append_assoc]
      | elem t2 a2 cs2 =>
        rw [hm] at hser
        rw [show serFL (.cons (.text s) (.cons (.elem t2 a2 cs2) tl2)) =
          escTextList s.toList ++ serFL (.cons (.elem t2 a2 cs2) tl2) from rfl,
          show serFL (.cons (.text s) tl) = escTextList s.toList ++ serFL tl from rfl,
          ← hser]
  | .cons (.elem t2 a2 cs2) tl, h => by
    obtain ⟨hn, htl⟩ := neTextsF_cons_parts _ _ h
    rw [show canonF (.cons (.elem t2 a2 cs2) tl) =
      .cons (.elem t2 a2 (canonF cs2)) (canonF tl) from rfl,
      show serFL (.cons (.elem t2 a2 (canonF cs2)) (canonF tl)) =
        serL (.elem t2 a2 (canonF cs2)) ++ serFL (canonF tl) from rfl,
      show serFL (.cons (.elem t2 a2 cs2) tl) =
        serL (.elem t2 a2 cs2) ++ serFL tl from rfl,
      show serL (.elem t2 a2 (canonF cs2)) = serL (canonN (.elem t2 a2 cs2)) from rfl,
      serL_canonN (.elem t2 a2 cs2) hn, serFL_canonF tl htl]

end

mutual

theorem canonical_canonN : ∀ n : Node, neTextsN n = true → canonicalN (canonN n) = true
  | .text s, h => by
    rw [show canonN (.text s) = .text s from rfl,
      show canonicalN (.text s) = (if s = "" then false else true) from rfl,
      if_neg (neTextsN_text_ne s h)]
  | .elem t a cs, h => by
    rw [show canonN (.elem t a cs) = .elem t a (canonF cs) from rfl,
      show canonicalN (.elem t a (canonF cs)) = canonicalF (canonF cs) from rfl]
    exact canonical_canonF cs h

theorem canonical_canonF : ∀ cf : Forest, neTextsF cf = true → canonicalF (canonF cf) = true
  | .nil, _ => rfl
  | .cons (.text s) tl, h => by
    obtain ⟨hn, htl⟩ := neTextsF_cons_parts _ _ h
    have hs := neTextsN_text_ne s hn
    rw [show canonF (.cons (.text s) tl) = (if s = "" then canonF tl else
      match canonF tl with
      | .cons (.text s2) tl2 => .cons (.text (s ++ s2)) tl2
      | r => .cons (.text s) r) from rfl, if_neg hs]
    have hcanon := canonical_canonF tl htl
    rcases hm : canonF tl with _ | ⟨m, tl2⟩
    · rw [show canonicalF (.cons (.text s) .nil) = (canonicalN (.text s) &&
        canonicalF .nil && !((Node.text s).isText && headIsText .nil)) from rfl]
      simp [show canonicalN (.text s) = (if s = "" then false else true) from rfl,
        hs, canonicalF, headIsText]
    · rw [hm] at hcanon
      cases m with
      | text s2 =>
        rw [show canonicalF (.cons (.text s2) tl2) = (canonicalN (.text s2) &&
          canonicalF tl2 && !((Node.text s2).isText && headIsText tl2)) from rfl] at hcanon
        simp only [Bool.and_eq_true, Bool.not_eq_true'] at hcanon
        rw [show canonicalF (.cons (.text (s ++ s2)) tl2) = (canonicalN (.text (s ++ s2)) &&
          canonicalF tl2 && !((Node.text (s ++ s2)).isText && headIsText tl2)) from rfl]
        have hht : headIsText tl2 = false := by
          have := hcanon.2
          simp [Node.isText] at this
          exact this
        simp [show canonicalN (.text (s ++ s2)) = (if s ++ s2 = "" then false else true)
          from rfl, str_append_ne s s2 hs, hcanon.1.2, hht, Node.isText]
      | elem t2 a2 cs2 =>
        rw [show canonicalF (.cons (.text s) (.cons (.elem t2 a2 cs2) tl2)) =
          (canonicalN (.text s) && canonicalF (.cons (.elem t2 a2 cs2) tl2) &&
          !((Node.text s).isText && headIsText (.cons (.elem t2 a2 cs2) tl2))) from rfl]
        simp [show canonicalN (.text s) = (if s = "" then false else true) from rfl, hs,
          hcanon, headIsText, Node.isText]
  | .cons (.elem t2 a2 cs2) tl, h => by
    obtain ⟨hn, htl⟩ := neTextsF_cons_parts _ _ h
    rw [show canonF (.cons (.elem t2 a2 cs2) tl) =
      .cons (.elem t2 a2 (canonF cs2)) (canonF tl) from rfl,
      show canonicalF (.cons (.elem t2 a2 (canonF cs2)) (canonF tl)) =
        (canonicalN (.elem t2 a2 (canonF cs2)) && canonicalF (canonF tl) &&
        !((Node.elem t2 a2 (canonF cs2)).isText && headIsText (canonF tl))) from rfl,
      show canonicalN (.elem t2 a2 (canonF cs2)) = canonicalF (canonF cs2) from rfl]
    simp [canonical_canonF cs2 hn, canonical_canonF tl htl, Node.isText]

end

mutual

theorem wfN_canonN : ∀ n : Node, wfN n = true → wfN (canonN n) = true
  | .text s, _ => rfl
  | .elem t a cs, h => by
    rw [show canonN (.elem t a cs) = .elem t a (canonF cs) from rfl]
    rw [show wfN (.elem t a cs) = (validName t && (a.all fun p => validName p.1) &&
      nodupKeys a && wfF cs) from rfl, Bool.and_eq_true, Bool.and_eq_true,
      Bool.and_eq_true] at h
    rw [show wfN (.elem t a (canonF cs)) = (validName t && (a.all fun p => validName p.1) &&
      nodupKeys a && wfF (canonF cs)) from rfl]
    simp only [Bool.and_eq_true]
    exact ⟨⟨⟨h.1.1.1, h.1.1.2⟩, h.1.2⟩, wfF_canonF cs h.2⟩

theorem wfF_canonF : ∀ cf : Forest, wfF cf = true → wfF (canonF cf) = true
  | .nil, _ => rfl
  | .cons (.text s) tl, h => by
    rw [show wfF (.cons (.text s) tl) = (wfN (.text s) && wfF tl) from rfl,
      Bool.and_eq_true] at h
    rw [show canonF (.cons (.text s) tl) = (if s = "" then canonF tl else
      match canonF tl with
      | .cons (.text s2) tl2 => .cons (.text (s ++ s2)) tl2
      | r => .cons (.text s) r) from rfl]
    have hwtl := wfF_canonF tl h.2
    by_cases hs : s = ""
    · rw [if_pos hs]
      exact hwtl
    · rw [if_neg hs]
      rcases hm : canonF tl with _ | ⟨m, tl2⟩
      · rfl
      · rw [hm] at hwtl
        cases m with
        | text s2 =>
          rw [show wfF (.cons (.text s2) tl2) = (wfN (.text s2) && wfF tl2) from rfl,
            Bool.and_eq_true] at hwtl
          rw [show wfF (.cons (.text (s ++ s2)) tl2) =
            (wfN (.text (s ++ s2)) && wfF tl2) from rfl]
          simp [show wfN (.text (s ++ s2)) = true from rfl, hwtl.2]
        | elem t2 a2 cs2 =>
          rw [show wfF (.cons (.text s) (.cons (.elem t2 a2 cs2) tl2)) =
            (wfN (.text s) && wfF (.cons (.elem t2 a2 cs2) tl2)) from rfl]
          simp [show wfN (.text s) = true from rfl, hwtl]
  | .cons (.elem t2 a2 cs2) tl, h => by
    rw [show wfF (.cons (.elem t2 a2 cs2) tl) = (wfN (.elem t2 a2 cs2) && wfF tl) from rfl,
      Bool.and_eq_true] at h
    rw [show canonF (.cons (.elem t2 a2 cs2) tl) =
      .cons (.elem t2 a2 (canonF cs2)) (canonF tl) from rfl,
      show wfF (.cons (.elem t2 a2 (canonF cs2)) (canonF tl)) =
        (wfN (.elem t2 a2 (canonF cs2)) && wfF (canonF tl)) from rfl]
    have := wfN_canonN (.elem t2 a2 cs2) h.1
    rw [show canonN (.elem t2 a2 cs2) = .elem t2 a2 (canonF cs2) from rfl] at this
    simp [this, wfF_canonF tl h.2]

end

mutual

theorem wN_le : ∀ n : Node, canonicalN n = true → wN n + 1 ≤ (serL n).length
  | .text s, h => by
    rw [show wN (.text s) = 0 from rfl, show serL (.text s) = escTextList s.toList from rfl]
    have hs : ¬ s = "" := by
      rw [show canonicalN (.text s) = (if s = "" then false else true) from rfl] at h
      intro hx; rw [if_pos hx] at h; exact Bool.false_ne_true h
    have hlen := escTextList_length s.toList
    have : s.toList ≠ [] := by
      intro hx
      exact hs ((string_eq_empty_iff s).mpr hx)
    have : 1 ≤ s.toList.length := by
      cases hsl : s.toList with
      | nil => exact absurd hsl this
      | cons c cs => simp
    omega
  | .elem t a cs, h => by
    rw [show wN (.elem t a cs) = wF cs from rfl]
    cases cs with
    | nil =>
      rw [show wF (.nil : Forest) = 1 from rfl,
        show serL (.elem t a .nil) = '<' :: (t.toList ++ serAttrsL a ++ ['/', '>']) from rfl]
      simp only [List.length_cons, List.length_append]
      omega
    | cons c1 cs1 =>
      have hcf : canonicalF (.cons c1 cs1) = true := h
      have := wF_le (.cons c1 cs1) hcf
      rw [show serL (.elem t a (.cons c1 cs1)) = '<' :: (t.toList ++ serAttrsL a ++
        '>' :: (serFL (.cons c1 cs1) ++ '<' :: '/' :: (t.toList ++ ['>']))) from rfl]
      simp only [List.length_cons, List.length_append]
      omega

theorem wF_le : ∀ cf : Forest, canonicalF cf = true → wF cf ≤ (serFL cf).length + 1
  | .nil, _ => by rw [show wF (.nil : Forest) = 1 from rfl]; simp
  | .cons n tl, h => by
    rw [show canonicalF (.cons n tl) = (canonicalN n && canonicalF tl &&
      !(n.isText && headIsText tl)) from rfl, Bool.and_eq_true, Bool.and_eq_true] at h
    have h1 := wN_le n h.1.1
    have h2 := wF_le tl h.1.2
    rw [show wF (.cons n tl) = wN n + wF tl + 1 from rfl,
      show serFL (.cons n tl) = serL n ++ serFL tl from rfl]
    simp only [List.length_append]
    omega

end

theorem allF_get? (P : Node → Bool) : ∀ (cs : Forest) (i : Nat) (c : Node),
    allF P cs = true → Forest.get? cs i = some c → P c = true
  | .nil, i, c => by intro _ hg; simp [Forest.get?] at hg
  | .cons n tl, 0, c => by
    intro hp hg
    rw [show Forest.get? (.cons n tl) 0 = some n from rfl, Option.some.injEq] at hg
    rw [show allF P (.cons n tl) = (P n && allF P tl) from rfl, Bool.and_eq_true] at hp
    rw [← hg]
    exact hp.1
  | .cons n tl, i + 1, c => by
    intro hp hg
    rw [show allF P (.cons n tl) = (P n && allF P tl) from rfl, Bool.and_eq_true] at hp
    exact allF_get? P tl i c hp.2 (by rw [← hg]; rfl)

theorem allF_setAt (P : Node → Bool) : ∀ (cs : Forest) (i : Nat) (m : Node),
    allF P cs = true → P m = true → allF P (cs.setAt i m) = true
  | .nil, _, m => by intro hp _; exact hp
  | .cons n tl, 0, m => by
    intro hp hm
    rw [show allF P (.cons n tl) = (P n && allF P tl) from rfl, Bool.and_eq_true] at hp
    rw [show Forest.setAt (.cons n tl) 0 m = .cons m tl from rfl,
      show allF P (.cons m tl) = (P m && allF P tl) from rfl]
    simp [hm, hp.2]
  | .cons n tl, i + 1, m => by
    intro hp hm
    rw [show allF P (.cons n tl) = (P n && allF P tl) from rfl, Bool.and_eq_true] at hp
    rw [show Forest.setAt (.cons n tl) (i + 1) m = .cons n (tl.setAt i m) from rfl,
      show allF P (.cons n (tl.setAt i m)) = (P n && allF P (tl.setAt i m)) from rfl]
    simp [hp.1, allF_setAt P tl i m hp.2 hm]

theorem allF_removeAt (P : Node → Bool) : ∀ (cs : Forest) (i : Nat),
    allF P cs = true → allF P (cs.removeAt i) = true
  | .nil, _ => by intro hp; exact hp
  | .cons n tl, 0 => by
    intro hp
    rw [show allF P (.cons n tl) = (P n && allF P tl) from rfl, Bool.and_eq_true] at hp
    exact hp.2
  | .cons n tl, i + 1 => by
    intro hp
    rw [show allF P (.cons n tl) = (P n && allF P tl) from rfl, Bool.and_eq_true] at hp
    rw [show Forest.removeAt (.cons n tl) (i + 1) = .cons n (tl.removeAt i) from rfl,
      show allF P (.cons n (tl.removeAt i)) = (P n && allF P (tl.removeAt i)) from rfl]
    simp [hp.1, allF_removeAt P tl i hp.2]

theorem allF_insertAt (P : Node → Bool) : ∀ (cs : Forest) (i : Nat) (m : Node),
    allF P cs = true → P m = true → allF P (cs.insertAt i m) = true
  | cs, 0, m => by
    intro hp hm
    rw [show Forest.insertAt cs 0 m = .cons m cs from by simp [Forest.insertAt],
      show allF P (.cons m cs) = (P m && allF P cs) from rfl]
    simp [hm, hp]
  | .nil, i + 1, m => by
    intro hp hm
    rw [show Forest.insertAt .nil (i + 1) m = .cons m .nil from by simp [Forest.insertAt],
      show allF P (.cons m .nil) = (P m && allF P .nil) from rfl]
    simp [hm]
    rfl
  | .cons n tl, i + 1, m => by
    intro hp hm
    rw [show allF P (.cons n tl) = (P n && allF P tl) from rfl, Bool.and_eq_true] at hp
    rw [show Forest.insertAt (.cons n tl) (i + 1) m = .cons n (tl.insertAt i m) from by
      simp [Forest.insertAt],
      show allF P (.cons n (tl.insertAt i m)) = (P n && allF P (tl.insertAt i m)) from rfl]
    simp [hp.1, allF_insertAt P tl i m hp.2 hm]

/-- Preservation of a per-node invariant through `modifyAt`: the invariant
must pass to children and be rebuildable on an element whose children are
replaced by invariant-respecting ones. -/
theorem modifyAt_pres (P : Node → Bool) (f : Node → Node)
    (hdown : ∀ t a cs, P (.elem t a cs) = true → allF P cs = true)
    (hup : ∀ t a cs cs2, P (.elem t a cs) = true → allF P cs2 = true →
      P (.elem t a cs2) = true)
    (hf : ∀ n, P n = true → P (f n) = true) :
    ∀ (p : List Nat) (n : Node), P n = true → P (modifyAt f n p) = true := by
  intro p
  induction p with
  | nil => intro n hn; rw [show modifyAt f n [] = f n from by simp [modifyAt]]; exact hf n hn
  | cons i p2 ih =>
    intro n hn
    cases n with
    | text s => rw [show modifyAt f (.text s) (i :: p2) = .text s from by simp [modifyAt]]; exact hn
    | elem t a cs =>
      rcases hg : cs.get? i with _ | c
      · rw [show modifyAt f (.elem t a cs) (i :: p2) = .elem t a cs from by
          simp [modifyAt, hg]]
        exact hn
      · rw [show modifyAt f (.elem t a cs) (i :: p2) =
          .elem t a (cs.setAt i (modifyAt f c p2)) from by simp [modifyAt, hg]]
        have hcs := hdown t a cs hn
        have hc := allF_get? P cs i c hcs hg
        exact hup t a cs _ hn (allF_setAt P cs i _ hcs (ih c hc))

theorem getNodeAt_pres (P : Node → Bool)
    (hdown : ∀ t a cs, P (.elem t a cs) = true → allF P cs = true) :
    ∀ (p : List Nat) (n m : Node), P n = true → getNodeAt n p = some m → P m = true := by
  intro p
  induction p with
  | nil =>
    intro n m hn hg
    rw [show getNodeAt n [] = some n from by simp [getNodeAt], Option.some.injEq] at hg
    rw [← hg]
    exact hn
  | cons i p2 ih =>
    intro n m hn hg
    cases n with
    | text s => rw [show getNodeAt (.text s) (i :: p2) = none from by simp [getNodeAt]] at hg; simp at hg
    | elem t a cs =>
      rcases hc : cs.get? i with _ | c
      · rw [show getNodeAt (.elem t a cs) (i :: p2) = none from by simp [getNodeAt, hc]] at hg
        simp at hg
      · rw [show getNodeAt (.elem t a cs) (i :: p2) = getNodeAt c p2 from by
          simp [getNodeAt, hc]] at hg
        exact ih c m (allF_get? P cs i c (hdown t a cs hn) hc) hg

theorem wfN_hdown (t : String) (a : List (String × String)) (cs : Forest)
    (h : wfN (.elem t a cs) = true) : allF wfN cs = true := by
  rw [show wfN (.elem t a cs) = (validName t && (a.all fun p => validName p.1) &&
    nodupKeys a && wfF cs) from rfl, Bool.and_eq_true] at h
  rw [← wfF_eq_allF]
  exact h.2

theorem wfN_hup (t : String) (a : List (String × String)) (cs cs2 : Forest)
    (h : wfN (.elem t a cs) = true) (h2 : allF wfN cs2 = true) :
    wfN (.elem t a cs2) = true := by
  rw [show wfN (.elem t a cs) = (validName t && (a.all fun p => validName p.1) &&
    nodupKeys a && wfF cs) from rfl, Bool.and_eq_true, Bool.and_eq_true,
    Bool.and_eq_true] at h
  rw [show wfN (.elem t a cs2) = (validName t && (a.all fun p => validName p.1) &&
    nodupKeys a && wfF cs2) from rfl]
  simp only [Bool.and_eq_true]
  exact ⟨h.1, by rw [wfF_eq_allF]; exact h2⟩

theorem neTextsN_hdown (t : String) (a : List (String × String)) (cs : Forest)
    (h : neTextsN (.elem t a cs) = true) : allF neTextsN cs = true := by
  rw [← neTextsF_eq_allF]
  exact h

theorem neTextsN_hup (t : String) (a : List (String × String)) (cs cs2 : Forest)
    (_ : neTextsN (.elem t a cs) = true) (h2 : allF neTextsN cs2 = true) :
    neTextsN (.elem t a cs2) = true := by
  rw [show neTextsN (.elem t a cs2) = neTextsF cs2 from rfl, neTextsF_eq_allF]
  exact h2

theorem setText_f_wf (s : String) : ∀ n : Node, wfN n = true →
    wfN ((fun n => match n with
      | Node.elem t a _ => Node.elem t a (if s = "" then .nil else .cons (.text s) .nil)
      | Node.text t => Node.text t) n) = true := by
  intro n hn
  cases n with
  | text t => exact hn
  | elem t a cs =>
    refine wfN_hup t a cs _ hn ?_
    by_cases hs : s = ""
    · simp only [hs, if_pos]
      rfl
    · rw [if_neg hs]
      rfl

theorem setText_f_ne (s : String) : ∀ n : Node, neTextsN n = true →
    neTextsN ((fun n => match n with
      | Node.elem t a _ => Node.elem t a (if s = "" then .nil else .cons (.text s) .nil)
      | Node.text t => Node.text t) n) = true := by
  intro n hn
  cases n with
  | text t => exact hn
  | elem t a cs =>
    refine neTextsN_hup t a cs _ hn ?_
    by_cases hs : s = ""
    · simp only [hs, if_pos]
      rfl
    · rw [if_neg hs]
      rw [show allF neTextsN (.cons (.text s) .nil) =
        (neTextsN (.text s) && allF neTextsN .nil) from rfl,
        show neTextsN (.text s) = (if s = "" then false else true) from rfl, if_neg hs]
      rfl

theorem remove_f_wf (i : Nat) : ∀ n : Node, wfN n = true →
    wfN ((fun n => match n with
      | Node.elem t a cs => Node.elem t a (cs.removeAt i)
      | Node.text t => Node.text t) n) = true := by
  intro n hn
  cases n with
  | text t => exact hn
  | elem t a cs =>
    exact wfN_hup t a cs _ hn (allF_removeAt wfN cs i (wfN_hdown t a cs hn))

theorem remove_f_ne (i : Nat) : ∀ n : Node, neTextsN n = true →
    neTextsN ((fun n => match n with
      | Node.elem t a cs => Node.elem t a (cs.removeAt i)
      | Node.text t => Node.text t) n) = true := by
  intro n hn
  cases n with
  | text t => exact hn
  | elem t a cs =>
    exact neTextsN_hup t a cs _ hn (allF_removeAt neTextsN cs i (neTextsN_hdown t a cs hn))

theorem insert_f_wf (i : Nat) (m : Node) (hm : wfN m = true) : ∀ n : Node, wfN n = true →
    wfN ((fun n => match n with
      | Node.elem t a cs => Node.elem t a (cs.insertAt i m)
      | Node.text t => Node.text t) n) = true := by
  intro n hn
  cases n with
  | text t => exact hn
  | elem t a cs =>
    exact wfN_hup t a cs _ hn (allF_insertAt wfN cs i m (wfN_hdown t a cs hn) hm)

theorem insert_f_ne (i : Nat) (m : Node) (hm : neTextsN m = true) :
    ∀ n : Node, neTextsN n = true →
    neTextsN ((fun n => match n with
      | Node.elem t a cs => Node.elem t a (cs.insertAt i m)
      | Node.text t => Node.text t) n) = true := by
  intro n hn
  cases n with
  | text t => exact hn
  | elem t a cs =>
    exact neTextsN_hup t a cs _ hn (allF_insertAt neTextsN cs i m
      (neTextsN_hdown t a cs hn) hm)

theorem any_fst_setAttrList (name v x : String) : ∀ a : List (String × String),
    ((setAttrList a name v).any fun q => q.1 = x) =
      ((a.any fun q => q.1 = x) || decide (x = name)) := by
  intro a
  induction a with
  | nil =>
    simp only [setAttrList, List.any_cons, List.any_nil]
    by_cases h : x = name
    · simp [h]
    · simp only [decide_eq_false h]
      simp only [Bool.or_false]
      simp only [decide_eq_false (fun hc : name = x => h hc.symm)]
  | cons p rest ih =>
    obtain ⟨n, w⟩ := p
    rw [show setAttrList ((n, w) :: rest) name v = (if n = name then (n, v) :: rest
      else (n, w) :: setAttrList rest name v) from rfl]
    by_cases h : n = name
    · subst h
      simp only [if_pos rfl, List.any_cons]
      by_cases hx : x = n
      · simp [hx]
      · simp [fun hc : n = x => hx hc.symm, hx]
    · rw [if_neg h]
      simp only [List.any_cons, ih]
      by_cases hx : n = x <;> simp [hx]

theorem nodupKeys_setAttrList (name v : String) : ∀ a : List (String × String),
    nodupKeys a = true → nodupKeys (setAttrList a name v) = true := by
  intro a
  induction a with
  | nil => intro _; rfl
  | cons p rest ih =>
    obtain ⟨n, w⟩ := p
    intro h
    rw [show nodupKeys ((n, w) :: rest) = (!(rest.any fun q => q.1 = n) &&
      nodupKeys rest) from rfl, Bool.and_eq_true] at h
    rw [show setAttrList ((n, w) :: rest) name v = (if n = name then (n, v) :: rest
      else (n, w) :: setAttrList rest name v) from rfl]
    by_cases hn : n = name
    · rw [if_pos hn]
      rw [show nodupKeys ((n, v) :: rest) = (!(rest.any fun q => q.1 = n) &&
        nodupKeys rest) from rfl]
      simp [h.1, h.2]
    · rw [if_neg hn]
      rw [show nodupKeys ((n, w) :: setAttrList rest name v) =
        (!((setAttrList rest name v).any fun q => q.1 = n) &&
          nodupKeys (setAttrList rest name v)) from rfl]
      rw [any_fst_setAttrList]
      simp only [Bool.and_eq_true, Bool.not_eq_true', Bool.or_eq_false_iff]
      refine ⟨⟨?_, ?_⟩, ih h.2⟩
      · simp only [Bool.not_eq_true'] at h
        exact h.1
      · simp [hn]

theorem all_valid_setAttrList (name v : String) (hname : validName name = true) :
    ∀ a : List (String × String), (a.all fun p => validName p.1) = true →
    ((setAttrList a name v).all fun p => validName p.1) = true := by
  intro a
  induction a with
  | nil => intro _; simp [setAttrList, hname]
  | cons p rest ih =>
    obtain ⟨n, w⟩ := p
    intro h
    simp only [List.all_cons, Bool.and_eq_true] at h
    rw [show setAttrList ((n, w) :: rest) name v = (if n = name then (n, v) :: rest
      else (n, w) :: setAttrList rest name v) from rfl]
    by_cases hn : n = name
    · rw [if_pos hn]
      simp [h.1, h.2]
    · rw [if_neg hn]
      simp [h.1, ih h.2]

theorem setAttr_wf (n : Node) (name v : String) (hname : validName name = true)
    (hn : wfN n = true) : wfN (n.setAttr name v) = true := by
  cases n with
  | text s => exact hn
  | elem t a cs =>
    rw [show Node.setAttr (.elem t a cs) name v = .elem t (setAttrList a name v) cs from rfl]
    rw [show wfN (.elem t a cs) = (validName t && (a.all fun p => validName p.1) &&
      nodupKeys a && wfF cs) from rfl, Bool.and_eq_true, Bool.and_eq_true,
      Bool.and_eq_true] at hn
    rw [show wfN (.elem t (setAttrList a name v) cs) = (validName t &&
      ((setAttrList a name v).all fun p => validName p.1) &&
      nodupKeys (setAttrList a name v) && wfF cs) from rfl]
    simp only [Bool.and_eq_true]
    exact ⟨⟨⟨hn.1.1.1, all_valid_setAttrList name v hname a hn.1.1.2⟩,
      nodupKeys_setAttrList name v a hn.1.2⟩, hn.2⟩

theorem setAttr_ne (n : Node) (name v : String) (hn : neTextsN n = true) :
    neTextsN (n.setAttr name v) = true := by
  cases n with
  | text s => exact hn
  | elem t a cs =>
    rw [show Node.setAttr (.elem t a cs) name v = .elem t (setAttrList a name v) cs from rfl]
    exact hn

theorem duplicateClone_wf (n : Node) (newId : String) (hn : wfN n = true) :
    wfN (duplicateClone n newId) = true := by
  unfold duplicateClone
  exact setAttr_wf n "mj-class" _ (by decide) hn

theorem duplicateClone_ne (n : Node) (newId : String) (hn : neTextsN n = true) :
    neTextsN (duplicateClone n newId) = true := by
  unfold duplicateClone
  exact setAttr_ne n "mj-class" _ hn

theorem deleteComponentSelect_mem (candidates : List (List Nat × Node)) (cn : String)
    (pn : List Nat × Node) (heq : deleteComponentSelect candidates cn = some pn) :
    pn ∈ candidates := by
  unfold deleteComponentSelect at heq
  rcases candidates with _ | ⟨c, rest⟩
  · simp at heq
  · rcases rest with _ | ⟨c2, rest2⟩
    · dsimp only at heq
      simp only [Option.some.injEq] at heq
      rw [← heq]
      exact List.mem_cons_self c []
    · dsimp only at heq
      split at heq
      · rcases hf : (c :: c2 :: rest2).find?
            (fun pn => normalizeText pn.2.textContent = cn) with _ | el <;> rw [hf] at heq
        · dsimp only at heq
          rcases hf2 : (c :: c2 :: rest2).find?
              (fun pn => strIncludes (normalizeText pn.2.textContent) cn) with _ | el2 <;>
            rw [hf2] at heq
          · simp only [Option.some.injEq] at heq
            rw [← heq]
            exact List.mem_cons_self _ _
          · simp only [Option.some.injEq] at heq
            rw [← heq]
            exact List.mem_of_find?_eq_some hf2
        · simp only [Option.some.injEq] at heq
          rw [← heq]
          exact List.mem_of_find?_eq_some hf
      · simp only [Option.some.injEq] at heq
        rw [← heq]
        exact List.mem_cons_self _ _

theorem findEditableElement_mem (doc : Node) (id : String) (h : Option String)
    (pn : List Nat × Node) (heq : findEditableElement doc id h = some pn) :
    pn ∈ editableCandidates doc id := by
  unfold findEditableElement at heq
  rcases hc : editableCandidates doc id with _ | ⟨c, rest⟩ <;> rw [hc] at heq
  · simp at heq
  · rcases rest with _ | ⟨c2, rest2⟩
    · dsimp only at heq
      simp only [Option.some.injEq] at heq
      rw [← heq]
      exact List.mem_cons_self c []
    · dsimp only at heq
      split at heq
      · simp only [Option.some.injEq] at heq
        rw [← heq]
        exact List.mem_cons_self _ _
      · rcases hf : (c :: c2 :: rest2).find?
            (fun pn => normalizeText pn.2.textContent = normalizeText (h.getD "")) with _ | el <;>
          rw [hf] at heq
        · dsimp only at heq
          rcases hf2 : (c :: c2 :: rest2).find?
              (fun pn => strIncludes (normalizeText pn.2.textContent)
                (normalizeText (h.getD ""))) with _ | el2 <;> rw [hf2] at heq
          · simp only [Option.some.injEq] at heq
            rw [← heq]
            exact List.mem_cons_self _ _
          · simp only [Option.some.injEq] at heq
            rw [← heq]
            exact List.mem_of_find?_eq_some hf2
        · simp only [Option.some.injEq] at heq
          rw [← heq]
          exact List.mem_of_find?_eq_some hf

theorem mem_elems_getNodeAt (doc : Node) (pn : List Nat × Node)
    (h : pn ∈ elemsWithPaths doc []) : getNodeAt doc pn.1 = some pn.2 := by
  obtain ⟨rel, hp, hg⟩ := (elemsWithPaths_spec doc []).2 pn h
  rw [List.nil_append] at hp
  rw [hp]
  exact hg

theorem editableCandidates_mem (doc : Node) (id : String) (pn : List Nat × Node)
    (h : pn ∈ editableCandidates doc id) : pn ∈ elemsWithPaths doc [] := by
  unfold editableCandidates at h
  exact (List.mem_filter.mp h).1

theorem parseNodes_root_shape (f : Nat) (X : List Char) (ns : Forest) (r : List Char)
    (h : parseNodes (f + 1) ('<' :: 'r' :: 'o' :: 'o' :: 't' :: '>' :: X) = some (ns, r)) :
    ∃ children ns2, ns = .cons (.elem "root" [] children) ns2 := by
  rw [parseNodes_cons_elem f 'r' _ (by decide)] at h
  rw [show ('r' :: 'o' :: 'o' :: 't' :: '>' :: X) = "root".toList ++ '>' :: X from rfl,
    parseName_exact "root" '>' X (by decide) (by decide)] at h
  dsimp only at h
  have hattrs : parseAttrsF (('>' :: X).length + 1) ('>' :: X) = some ([], '>' :: X) := by
    unfold parseAttrsF
    rw [List.dropWhile_cons, show isWsChar '>' = false from by decide]
    simp
  rw [hattrs] at h
  simp only [] at h
  rcases hk : parseNodes f X with _ | ⟨children, r4⟩ <;> rw [hk] at h
  · simp at h
  · dsimp only at h
    split at h
    · rename_i r5
      rcases hn2 : parseName r5 with _ | ⟨tag2, r6⟩ <;> rw [hn2] at h
      · simp at h
      · dsimp only at h
        split at h
        · split at h
          · rename_i r7 hr7
            rcases hp2 : parseNodes f r7 with _ | ⟨ns2, rest2⟩ <;> rw [hp2] at h
            · simp at h
            · dsimp only at h
              simp only [Option.some.injEq, Prod.mk.injEq] at h
              exact ⟨children, ns2, h.1.symm⟩
          · exact absurd h (by simp)
        · exact absurd h (by simp)
    · exact absurd h (by simp)

theorem parseRoot_shape (s : String) (doc : Node)
    (h : parseDocument (wrapRoot s) = some doc) : ∃ cs, doc = .elem "root" [] cs := by
  unfold parseDocument at h
  rcases hp : parseNodes (strLen (wrapRoot s) + 1) (wrapRoot s).toList with
    _ | ⟨ns, rest⟩ <;> rw [hp] at h
  · simp at h
  · have hw : (wrapRoot s).toList =
        '<' :: 'r' :: 'o' :: 'o' :: 't' :: '>' :: (s.data ++ "</root>".data) := by
      rw [show wrapRoot s = "<root>" ++ s ++ "</root>" from rfl,
        show ("<root>" ++ s ++ "</root>").toList =
          ("<root>" ++ s).toList ++ "</root>".toList from toList_append _ _,
        show ("<root>" ++ s).toList = "<root>".toList ++ s.toList from toList_append _ _]
      simp [List.append_assoc]
    rw [hw] at hp
    obtain ⟨children, ns2, hns⟩ := parseNodes_root_shape _ _ _ _ hp
    subst hns
    cases ns2 with
    | cons m tl =>
      dsimp only at h
      simp at h
    | nil =>
      dsimp only at h
      rw [show (Node.elem "root" [] children).isElem = true from rfl] at h
      simp only [Bool.true_and] at h
      split at h
      · simp only [Option.some.injEq] at h
        exact ⟨children, h.symm⟩
      · simp at h

theorem parseDocument_wf (s : String) (doc : Node) (h : parseDocument s = some doc) :
    wfN doc = true ∧ neTextsN doc = true := by
  unfold parseDocument at h
  rcases hp : parseNodes (strLen s + 1) s.toList with _ | ⟨ns, rest⟩ <;> rw [hp] at h
  · simp at h
  · have hwf := parseNodes_wf _ _ _ _ hp
    have hne := (parseNodes_neTexts _ _ _ _ hp).1
    rcases ns with _ | ⟨n, tl⟩
    · simp at h
    · rcases tl with _ | ⟨n2, tl2⟩
      · dsimp only at h
        split at h
        · simp only [Option.some.injEq] at h
          rw [show wfF (.cons n .nil) = (wfN n && wfF .nil) from rfl] at hwf
          rw [show neTextsF (.cons n .nil) = (neTextsN n && neTextsF .nil) from rfl] at hne
          simp only [Bool.and_eq_true] at hwf hne
          rw [← h]
          exact ⟨hwf.1, hne.1⟩
        · simp at h
      · dsimp only at h
        simp at h

theorem wrap_toList (b : String) : ("<root>" ++ b ++ "</root>").toList =
    '<' :: 'r' :: 'o' :: 'o' :: 't' :: '>' :: (b.toList ++ "</root>".toList) := by
  rw [show ("<root>" ++ b ++ "</root>").toList =
      ("<root>" ++ b).toList ++ "</root>".toList from toList_append _ _,
    show ("<root>" ++ b).toList = "<root>".toList ++ b.toList from toList_append _ _]
  simp [List.append_assoc]

theorem stripRoot_wrap (b : String) : stripRoot ("<root>" ++ b ++ "</root>") = b := by
  have h1 : strStarts ("<root>" ++ b ++ "</root>") "<root>" = true := by
    unfold strStarts
    rw [wrap_toList, show ('<' :: 'r' :: 'o' :: 'o' :: 't' :: '>' ::
      (b.toList ++ "</root>".toList)) = "<root>".toList ++ (b.toList ++ "</root>".toList)
      from rfl]
    exact isPrefixOf_self_append _ _
  have h2 : strDrop ("<root>" ++ b ++ "</root>") 6 = b ++ "</root>" := by
    unfold strDrop
    apply String.ext
    rw [show (⟨("<root>" ++ b ++ "</root>").toList.drop 6⟩ : String).data =
      ("<root>" ++ b ++ "</root>").toList.drop 6 from rfl, wrap_toList,
      show List.drop 6 ('<' :: 'r' :: 'o' :: 'o' :: 't' :: '>' ::
        (b.toList ++ "</root>".toList)) = b.toList ++ "</root>".toList from rfl]
    exact (toList_append b "</root>").symm
  have h3 : strEnds (b ++ "</root>") "</root>" = true := by
    unfold strEnds
    rw [toList_append, List.reverse_append]
    exact isPrefixOf_self_append _ _
  have h4 : strDropRight (b ++ "</root>") 7 = b := by
    unfold strDropRight
    apply String.ext
    rw [show (⟨((b ++ "</root>").toList.reverse.drop 7).reverse⟩ : String).data =
      ((b ++ "</root>").toList.reverse.drop 7).reverse from rfl,
      toList_append, List.reverse_append,
      show "</root>".toList.reverse = ['>', 't', 'o', 'o', 'r', '/', '<'] from rfl,
      show List.drop 7 (['>', 't', 'o', 'o', 'r', '/', '<'] ++ b.toList.reverse) =
        b.toList.reverse from rfl,
      List.reverse_reverse]
    rfl
  unfold stripRoot
  simp only [h1, if_true, h2, h3, h4]

theorem serializeNode_root_cons (n : Node) (tl : Forest) :
    serializeNode (.elem "root" [] (.cons n tl)) =
      "<root>" ++ serializeForest (.cons n tl) ++ "</root>" := by
  rw [show serializeNode (.elem "root" [] (.cons n tl)) = "<" ++ "root" ++
    serializeAttrs [] ++ ">" ++ serializeForest (.cons n tl) ++ "</" ++ "root" ++ ">"
    from rfl]
  apply String.ext
  simp [String.toList, serializeAttrs]

theorem reparse_serialize_root (cs2 : Forest) (hwf : wfF cs2 = true)
    (hne : neTextsF cs2 = true) :
    (parseDocument (wrapRoot (stripRoot (serializeNode (.elem "root" [] cs2))))).isSome =
      true := by
  cases cs2 with
  | nil => decide
  | cons n tl =>
    rw [serializeNode_root_cons n tl,
      show wrapRoot (stripRoot ("<root>" ++ serializeForest (.cons n tl) ++ "</root>")) =
        wrapRoot (serializeForest (.cons n tl)) from by rw [stripRoot_wrap]]
    have hser := serFL_canonF (.cons n tl) hne
    rcases hc : canonF (.cons n tl) with _ | ⟨m, tl2⟩
    · rw [hc] at hser
      have hempty : serializeForest (.cons n tl) = "" := by
        apply String.ext
        rw [serializeForest_toList, ← hser]
        rfl
      rw [hempty]
      decide
    · rw [hc] at hser
      have hK : wfF (canonF (.cons n tl)) = true := wfF_canonF _ hwf
      have hKc : canonicalF (canonF (.cons n tl)) = true := canonical_canonF _ hne
      have hwl : (wrapRoot (serializeForest (.cons n tl))).toList =
          serFL (.cons (.elem "root" [] (canonF (.cons n tl))) .nil) ++ [] := by
        rw [show wrapRoot (serializeForest (.cons n tl)) =
          "<root>" ++ serializeForest (.cons n tl) ++ "</root>" from rfl, wrap_toList,
          show (serializeForest (.cons n tl)).toList = serFL (.cons n tl)
            from serializeForest_toList _, ← hser, hc,
          show serFL (.cons (.elem "root" [] (.cons m tl2)) .nil) =
            serL (.elem "root" [] (.cons m tl2)) ++ serFL .nil from rfl,
          show serL (.elem "root" [] (.cons m tl2)) = '<' :: ("root".toList ++
            serAttrsL [] ++ '>' :: (serFL (.cons m tl2) ++ '<' :: '/' ::
            ("root".toList ++ ['>']))) from rfl]
        simp [serAttrsL, List.append_assoc]
        rfl
      have hfuel : wF (.cons (.elem "root" [] (canonF (.cons n tl))) .nil) ≤
          strLen (wrapRoot (serializeForest (.cons n tl))) + 1 := by
        have hb := wF_le (canonF (.cons n tl)) hKc
        rw [show wF (.cons (.elem "root" [] (canonF (.cons n tl))) .nil) =
          wN (.elem "root" [] (canonF (.cons n tl))) + wF .nil + 1 from rfl,
          show wN (.elem "root" [] (canonF (.cons n tl))) = wF (canonF (.cons n tl))
            from rfl, show wF (.nil : Forest) = 1 from rfl]
        have hlen : strLen (wrapRoot (serializeForest (.cons n tl))) =
            (serFL (.cons (.elem "root" [] (canonF (.cons n tl))) .nil)).length := by
          rw [show strLen (wrapRoot (serializeForest (.cons n tl))) =
            (wrapRoot (serializeForest (.cons n tl))).toList.length from rfl, hwl]
          simp
        rw [hlen, show serFL (.cons (.elem "root" [] (canonF (.cons n tl))) .nil) =
          serL (.elem "root" [] (canonF (.cons n tl))) ++ serFL .nil from rfl, hc,
          show serL (.elem "root" [] (.cons m tl2)) = '<' :: ("root".toList ++
            serAttrsL [] ++ '>' :: (serFL (.cons m tl2) ++ '<' :: '/' ::
            ("root".toList ++ ['>']))) from rfl]
        rw [hc] at hb
        simp only [List.length_append, List.length_cons, serAttrsL]
        rw [show "root".toList.length = 4 from rfl]
        rw [show serFL (.nil : Forest) = [] from rfl]
        simp only [List.length_nil]
        omega
      have hwfone : wfF (.cons (.elem "root" [] (canonF (.cons n tl))) .nil) = true := by
        rw [show wfF (.cons (.elem "root" [] (canonF (.cons n tl))) .nil) =
          (wfN (.elem "root" [] (canonF (.cons n tl))) && wfF .nil) from rfl,
          show wfN (.elem "root" [] (canonF (.cons n tl))) = (validName "root" &&
            (([] : List (String × String)).all fun p => validName p.1) && nodupKeys [] &&
            wfF (canonF (.cons n tl))) from rfl]
        simp [hK, show validName "root" = true from by decide, nodupKeys]
        rfl
      have hcone : canonicalF (.cons (.elem "root" [] (canonF (.cons n tl))) .nil) = true := by
        rw [show canonicalF (.cons (.elem "root" [] (canonF (.cons n tl))) .nil) =
          (canonicalN (.elem "root" [] (canonF (.cons n tl))) && canonicalF .nil &&
          !((Node.elem "root" [] (canonF (.cons n tl))).isText && headIsText .nil)) from rfl,
          show canonicalN (.elem "root" [] (canonF (.cons n tl))) =
            canonicalF (canonF (.cons n tl)) from rfl]
        simp [hKc, Node.isText, canonicalF]
      have hpn := parseNodes_rt (strLen (wrapRoot (serializeForest (.cons n tl))) + 1)
        (.cons (.elem "root" [] (canonF (.cons n tl))) .nil) [] hwfone hcone hfuel
        (Or.inl rfl)
      unfold parseDocument
      rw [hwl, hpn]
      rfl

theorem modifyAt_elem_shape (f : Node → Node)
    (hf : ∀ t a cs, ∃ cs2, f (.elem t a cs) = .elem t a cs2) :
    ∀ (p : List Nat) (t : String) (a : List (String × String)) (cs : Forest),
    ∃ cs2, modifyAt f (.elem t a cs) p = .elem t a cs2 := by
  intro p t a cs
  cases p with
  | nil =>
    rw [show modifyAt f (.elem t a cs) [] = f (.elem t a cs) from by simp [modifyAt]]
    exact hf t a cs
  | cons i p2 =>
    rcases hg : cs.get? i with _ | c
    · exact ⟨cs, by simp [modifyAt, hg]⟩
    · exact ⟨cs.setAt i (modifyAt f c p2), by simp [modifyAt, hg]⟩

theorem wfN_elem_children (t : String) (a : List (String × String)) (cs : Forest)
    (h : wfN (.elem t a cs) = true) : wfF cs = true := by
  rw [wfF_eq_allF]
  exact wfN_hdown t a cs h

theorem neTextsN_elem_children (t : String) (a : List (String × String)) (cs : Forest)
    (h : neTextsN (.elem t a cs) = true) : neTextsF cs = true := h

/-- C10: a successful mutation returns a document that parses again. -/
theorem claim_C10_reparse (source editableId newContent : String) (hint : Option String)
    (opts : ValidationOptions) (ts : Nat) (rand : String) :
    ((updateEditableContent source editableId newContent hint opts).success = true →
      (parseDocument (wrapRoot
        (updateEditableContent source editableId newContent hint opts).mjml)).isSome = true) ∧
    ((deleteComponent source editableId hint).success = true →
      (parseDocument (wrapRoot (deleteComponent source editableId hint).mjml)).isSome = true) ∧
    ((duplicateComponent source editableId hint ts rand).success = true →
      (parseDocument (wrapRoot
        (duplicateComponent source editableId hint ts rand).mjml)).isSome = true) := by
  refine ⟨fun hs => ?_, fun hs => ?_, fun hs => ?_⟩
  · obtain ⟨doc, pn, hdoc, hpn, heq⟩ := update_success_shape _ _ _ _ _ hs
    obtain ⟨cs, hroot⟩ := parseRoot_shape _ _ hdoc
    obtain ⟨hwf, hne⟩ := parseDocument_wf _ _ hdoc
    subst hroot
    obtain ⟨cs2, hshape⟩ := modifyAt_elem_shape
      (fun n => match n with
        | Node.elem t a _ => Node.elem t a
            (if (validateContent newContent opts).sanitized = "" then .nil
              else .cons (.text (validateContent newContent opts).sanitized) .nil)
        | Node.text t => Node.text t)
      (fun t a cs => ⟨_, rfl⟩) pn.1 "root" [] cs
    have hwf2 : wfN (setTextContentAt (.elem "root" [] cs) pn.1
        (validateContent newContent opts).sanitized) = true :=
      modifyAt_pres wfN _ wfN_hdown wfN_hup
        (setText_f_wf (validateContent newContent opts).sanitized) pn.1 _ hwf
    have hne2 : neTextsN (setTextContentAt (.elem "root" [] cs) pn.1
        (validateContent newContent opts).sanitized) = true :=
      modifyAt_pres neTextsN _ neTextsN_hdown neTextsN_hup
        (setText_f_ne (validateContent newContent opts).sanitized) pn.1 _ hne
    have hset : setTextContentAt (.elem "root" [] cs) pn.1
        (validateContent newContent opts).sanitized = .elem "root" [] cs2 := hshape
    rw [hset] at hwf2 hne2
    rw [heq]
    dsimp only
    rw [hset]
    exact reparse_serialize_root cs2 (wfN_elem_children _ _ _ hwf2)
      (neTextsN_elem_children _ _ _ hne2)
  · obtain ⟨doc, pn, j, revParent, hdoc, hsel, hrev, heq⟩ := del_success_shape _ _ _ hs
    obtain ⟨cs, hroot⟩ := parseRoot_shape _ _ hdoc
    obtain ⟨hwf, hne⟩ := parseDocument_wf _ _ hdoc
    subst hroot
    obtain ⟨cs2, hshape⟩ := modifyAt_elem_shape
      (fun n => match n with
        | Node.elem t a cs => Node.elem t a (cs.removeAt j)
        | Node.text t => Node.text t)
      (fun t a cs => ⟨_, rfl⟩) revParent.reverse "root" [] cs
    have hwf2 : wfN (removeNodeAt (.elem "root" [] cs) revParent.reverse j) = true :=
      modifyAt_pres wfN _ wfN_hdown wfN_hup (remove_f_wf j) revParent.reverse _ hwf
    have hne2 : neTextsN (removeNodeAt (.elem "root" [] cs) revParent.reverse j) = true :=
      modifyAt_pres neTextsN _ neTextsN_hdown neTextsN_hup (remove_f_ne j)
        revParent.reverse _ hne
    have hset : removeNodeAt (.elem "root" [] cs) revParent.reverse j =
        .elem "root" [] cs2 := hshape
    rw [hset] at hwf2 hne2
    rw [heq]
    dsimp only
    rw [hset]
    exact reparse_serialize_root cs2 (wfN_elem_children _ _ _ hwf2)
      (neTextsN_elem_children _ _ _ hne2)
  · obtain ⟨doc, pn, j, revParent, hdoc, hpn, hrev, heq⟩ := dup_success_shape _ _ _ _ _ hs
    obtain ⟨cs, hroot⟩ := parseRoot_shape _ _ hdoc
    obtain ⟨hwf, hne⟩ := parseDocument_wf _ _ hdoc
    have hget : getNodeAt doc pn.1 = some pn.2 :=
      mem_elems_getNodeAt doc pn
        (editableCandidates_mem doc editableId pn (findEditableElement_mem _ _ _ _ hpn))
    have hpn2wf : wfN pn.2 = true := getNodeAt_pres wfN wfN_hdown pn.1 doc pn.2 hwf hget
    have hpn2ne : neTextsN pn.2 = true :=
      getNodeAt_pres neTextsN neTextsN_hdown pn.1 doc pn.2 hne hget
    have hmwf : wfN (duplicateClone pn.2 (duplicateBaseId pn.2 editableId ++ "-copy-" ++
        toString ts ++ "-" ++ rand)) = true := duplicateClone_wf _ _ hpn2wf
    have hmne : neTextsN (duplicateClone pn.2 (duplicateBaseId pn.2 editableId ++ "-copy-" ++
        toString ts ++ "-" ++ rand)) = true := duplicateClone_ne _ _ hpn2ne
    subst hroot
    obtain ⟨cs2, hshape⟩ := modifyAt_elem_shape
      (fun n => match n with
        | Node.elem t a cs => Node.elem t a (cs.insertAt (j + 1)
            (duplicateClone pn.2 (duplicateBaseId pn.2 editableId ++ "-copy-" ++
              toString ts ++ "-" ++ rand)))
        | Node.text t => Node.text t)
      (fun t a cs => ⟨_, rfl⟩) revParent.reverse "root" [] cs
    have hwf2 : wfN (insertNodeAt (.elem "root" [] cs) revParent.reverse (j + 1)
        (duplicateClone pn.2 (duplicateBaseId pn.2 editableId ++ "-copy-" ++
          toString ts ++ "-" ++ rand))) = true :=
      modifyAt_pres wfN _ wfN_hdown wfN_hup (insert_f_wf (j + 1) _ hmwf)
        revParent.reverse _ hwf
    have hne2 : neTextsN (insertNodeAt (.elem "root" [] cs) revParent.reverse (j + 1)
        (duplicateClone pn.2 (duplicateBaseId pn.2 editableId ++ "-copy-" ++
          toString ts ++ "-" ++ rand))) = true :=
      modifyAt_pres neTextsN _ neTextsN_hdown neTextsN_hup (insert_f_ne (j + 1) _ hmne)
        revParent.reverse _ hne
    have hset : insertNodeAt (.elem "root" [] cs) revParent.reverse (j + 1)
        (duplicateClone pn.2 (duplicateBaseId pn.2 editableId ++ "-copy-" ++
          toString ts ++ "-" ++ rand)) = .elem "root" [] cs2 := hshape
    rw [hset] at hwf2 hne2
    rw [heq]
    dsimp only
    rw [hset]
    exact reparse_serialize_root cs2 (wfN_elem_children _ _ _ hwf2)
      (neTextsN_elem_children _ _ _ hne2)

theorem claim_C10_reparse_witness :
    (parseDocument (wrapRoot (updateEditableContent quoteSource "a" "Hey" none
      DEFAULT_VALIDATION).mjml)).isSome = true ∧
    (parseDocument (wrapRoot (deleteComponent quoteSource "a" none).mjml)).isSome = true ∧
    (parseDocument (wrapRoot
      (duplicateComponent quoteSource "a" none 5 "r").mjml)).isSome = true :=
  ⟨(claim_C10_reparse quoteSource "a" "Hey" none DEFAULT_VALIDATION 5 "r").1 (by decide),
   (claim_C10_reparse quoteSource "a" "Hey" none DEFAULT_VALIDATION 5 "r").2.1 (by decide),
   (claim_C10_reparse quoteSource "a" "Hey" none DEFAULT_VALIDATION 5 "r").2.2 (by decide)⟩

end EmailBuilder
